import Mathlib

/-!
Verification development for the lot-based portfolio simulation engine of the
`alpaca_api` repository (directory `yfinance/investment_forecasting/`).

The source contains two generations of the engine that coexist:

* the newer free functions in `utils/transaction.py`, `utils/allocation.py` and
  `strategies/tax_loss_harvesting.py`, whose per-purchase lot records carry the
  keys `initial_shares_purchased` / `shares_remaining`, and
* the older methods on the `Portfolio` class in `models/portfolio.py`
  (`buy_position`, `sell_position`, `invest_available_cash`,
  `perform_rebalance`, `check_and_rebalance`, `track_and_manage_positions`),
  whose lot records carry a single `shares` key.

Both are embedded below (`...B` suffix-free names follow the newer generation,
`...A` names the `Portfolio` methods).  Money and share quantities are embedded
as exact rationals; Python's `round(x, n)` built-in is embedded as round half to
even applied to `x * 10^n` (its behaviour on exact decimal values), and
`math.floor` as the rational floor.  Python `float` representation error is not
modelled; all concrete inputs used in counterexamples are chosen so that the
float computation and the exact rational computation agree.

Python dictionaries are embedded as insertion-ordered association lists
(setting a fresh key appends it, as in Python).  Dictionary keys that some code
paths create and others do not (`shares_remaining`, `initial_shares_purchased`
and `shares` on holding records) are embedded as `Option` fields, and an access
to an absent key is a `KeyError`: the embedded operation returns `Except.error`
carrying the portfolio state and transaction list as they stand at the raise
point, since the Python caller observes the in-place mutations performed before
the exception.  Free-text `description` strings of transactions are not
modelled (no claim mentions them), and neither are the dead local accumulators
of `sell_position` that only feed its commented-out aggregate-transaction
block.  Python's `ZeroDivisionError` is not modelled: embedded division is
Lean's total rational division, and every theorem below stays away from
division by zero through its hypotheses or concrete inputs.
-/

/-- Round a rational to the nearest integer, ties to even: the behaviour of
Python's `round` built-in on exactly-representable values. -/
def roundHalfEven (x : ℚ) : ℤ :=
  let f := ⌊x⌋
  let r := x - (f : ℚ)
  if r < 1/2 then f
  else if 1/2 < r then f + 1
  else if Even f then f else f + 1

/-- Python `round(x, n)` on exact decimal inputs. -/
def pyRound (n : ℕ) (x : ℚ) : ℚ := (roundHalfEven (x * 10 ^ n) : ℚ) / 10 ^ n

/-- Python `math.floor(x * 100) / 100`: truncation to two decimal places, used
by the allocation code for investment amounts and fractional share counts. -/
def floor2 (x : ℚ) : ℚ := ((⌊x * 100⌋ : ℤ) : ℚ) / 100

/-- Lookup in an insertion-ordered association list (Python `dict[k]` /
`k in dict`; a `none` result stands for a missing key, and for price rows also
for a `NaN` entry, which `pd.isna` makes the code treat identically). -/
def alistGet {β : Type} (k : String) : List (String × β) → Option β
  | [] => none
  | (k', v) :: rest => if k' = k then some v else alistGet k rest

/-- Write to an insertion-ordered association list: overwriting an existing key
keeps its position, a fresh key is appended at the end (Python dict
semantics). -/
def alistSet {β : Type} (k : String) (v : β) : List (String × β) → List (String × β)
  | [] => [(k, v)]
  | (k', v') :: rest => if k' = k then (k, v) :: rest else (k', v') :: alistSet k v rest

/-- One entry of the transaction ledger, as appended by the engine.  Dates are
embedded as day ordinals (ISO date strings compare the same way). -/
inductive Txn
  | buy (date : ℤ) (ticker : String) (shares price amount : ℚ)
  | sell (date : ℤ) (ticker : String) (shares price amount gainLoss gainLossPct : ℚ)
      (daysHeld : ℤ)
  | deposit (date : ℤ) (amount : ℚ)
deriving DecidableEq

/-- Shares recorded on a transaction (`0` for deposits). -/
def Txn.shares : Txn → ℚ
  | .buy _ _ s _ _ => s
  | .sell _ _ s _ _ _ _ _ => s
  | .deposit _ _ => 0

/-- Whether a transaction is a buy. -/
def Txn.isBuy : Txn → Bool
  | .buy _ _ _ _ _ => true
  | _ => false

/-- Ticker of a transaction (`none` for deposits). -/
def Txn.ticker : Txn → Option String
  | .buy _ t _ _ _ => some t
  | .sell _ t _ _ _ _ _ _ => some t
  | .deposit _ _ => none

/-- A purchase-lot record as created by `buy_position` in
`utils/transaction.py`: keys `date`, `initial_shares_purchased`,
`shares_remaining`, `price`, `cost`, `current_value`, `return_pct`,
`days_held`, `sold`. -/
structure LotB where
  date : ℤ
  initialSharesPurchased : ℚ
  sharesRemaining : ℚ
  price : ℚ
  cost : ℚ
  currentValue : ℚ
  returnPct : ℚ
  daysHeld : ℤ
  sold : Bool
deriving DecidableEq

/-- A holding record in the newer generation of the code.  The holding-level
`initial_shares_purchased` and `shares_remaining` keys are optional: the
initialisation block inside `buy_position` creates the former but not the
latter, `Portfolio.initialize_holdings` creates neither (it creates a `shares`
key instead, which no newer-generation code ever reads), and no code in the
repository ever creates the holding-level `shares_remaining` key. -/
structure HoldingB where
  initialSharesPurchased : Option ℚ
  sharesRemaining : Option ℚ
  costBasis : ℚ
  investments : List LotB
  shares : Option ℚ := none
deriving DecidableEq

/-- Portfolio state as touched by the newer-generation free functions: cash,
the ticker → holding dictionary, and the gains/losses bookkeeping ledger. -/
structure PortfolioB where
  cash : ℚ
  holdings : List (String × HoldingB)
  gainsLosses : List (ℚ × ℤ) := []
deriving DecidableEq

/-- Modelled from the spec: `record_gains_losses` is imported by
`utils/transaction.py` and `strategies/tax_loss_harvesting.py` from
`utils/reporting.py` but is absent from that file (and from the repository).
Per the spec's reporting design (metrics such as realized losses are derived
from the recorded gains/losses and holding periods), it is modelled as
appending the realized gain/loss and its holding period to a bookkeeping ledger
on the portfolio, touching neither cash, nor holdings, nor the transaction
list. -/
def recordGainsLosses (gainLoss : ℚ) (daysHeld : ℤ) (p : PortfolioB) : PortfolioB :=
  { p with gainsLosses := p.gainsLosses ++ [(gainLoss, daysHeld)] }

/-- Embedding of `buy_position` from `utils/transaction.py`.  The result is
`Except.error (portfolio, transactions)` when the Python code raises `KeyError`
(on `holding['initial_shares_purchased'] += ...` or
`holding['shares_remaining'] += ...` for a holding record lacking that key),
with the state as already mutated at the raise point. -/
def buyPosition (p : PortfolioB) (ticker : String) (sharesToBuy price : ℚ) (date : ℤ)
    (transactions : List Txn) :
    Except (PortfolioB × List Txn) (PortfolioB × List Txn) :=
  let actualInvestment := pyRound 2 (sharesToBuy * price)
  -- `if actual_investment > portfolio.cash:` clamp to the affordable count
  let clamped :=
    if p.cash < actualInvestment then
      let s := pyRound 2 (p.cash / price)
      (s, pyRound 2 (s * price))
    else (sharesToBuy, actualInvestment)
  let sharesToBuy := clamped.1
  let actualInvestment := clamped.2
  if 0 < sharesToBuy then
    -- `if ticker not in portfolio.holdings:` initialise the holding record
    -- with keys `initial_shares_purchased`, `investments`, `cost_basis` only
    let holdings :=
      match alistGet ticker p.holdings with
      | none =>
          alistSet ticker
            { initialSharesPurchased := some 0, sharesRemaining := none,
              costBasis := 0, investments := [] } p.holdings
      | some _ => p.holdings
    match alistGet ticker holdings with
    | none => .error (p, transactions)  -- unreachable: the key was just set
    | some h =>
      match h.initialSharesPurchased with
      | none =>
          -- KeyError on `holdings[ticker]['initial_shares_purchased'] += ...`
          .error ({ p with holdings := holdings }, transactions)
      | some isp =>
        let h := { h with initialSharesPurchased := some (isp + sharesToBuy) }
        match h.sharesRemaining with
        | none =>
            -- KeyError on `holdings[ticker]['shares_remaining'] += ...`
            .error ({ p with holdings := alistSet ticker h holdings }, transactions)
        | some sr =>
          let h := { h with sharesRemaining := some (sr + sharesToBuy) }
          let lot : LotB :=
            { date := date, initialSharesPurchased := sharesToBuy,
              sharesRemaining := sharesToBuy, price := price,
              cost := actualInvestment, currentValue := actualInvestment,
              returnPct := 0, daysHeld := 0, sold := false }
          let h := { h with investments := h.investments ++ [lot] }
          let totalShares := sr + sharesToBuy
          let newBasis :=
            (h.costBasis * (totalShares - sharesToBuy) + actualInvestment) / totalShares
          let h := { h with costBasis := newBasis }
          .ok ({ p with holdings := alistSet ticker h holdings,
                        cash := p.cash - actualInvestment },
               transactions ++ [.buy date ticker sharesToBuy price actualInvestment])
  else
    .ok (p, transactions)

/-- Stable insertion of an element into a list sorted by `le`: the element
goes after every existing element `b` with `le b a`. -/
def sinsert {α : Type} (le : α → α → Bool) (a : α) : List α → List α
  | [] => [a]
  | b :: bs => if le b a then b :: sinsert le a bs else a :: b :: bs

/-- Stable sort by the total preorder `le`.  Python's `list.sort` is stable,
and a stable sort's output is uniquely determined by the preorder and the
input order, so this structurally-recursive insertion sort is extensionally
the sort the Python code performs. -/
def ssort {α : Type} (le : α → α → Bool) (l : List α) : List α :=
  l.foldl (fun acc a => sinsert le a acc) []

/-- Whether a lot is in the *loss* bucket of `sell_position` in
`utils/transaction.py`: `inv['price'] > price`, its purchase price strictly
above the current sell price. -/
def lotIsLoss (price : ℚ) (l : LotB) : Bool := decide (price < l.price)

/-- The selling queue built by `sell_position` in `utils/transaction.py`: the
open (non-sold) lots, paired with their index into the holding's `investments`
list, with the loss lots first sorted by purchase price descending and the
gain lots after them sorted by purchase date ascending.  Both Python sorts are
stable (`reverse=True` keeps tied elements in their original order) and so is
`ssort`. -/
def sellQueue (price : ℚ) (invs : List LotB) : List (ℕ × LotB) :=
  let active := invs.enum.filter (fun il => !il.2.sold)
  let lossInvs :=
    ssort (fun a b => decide (b.2.price ≤ a.2.price))
      (active.filter (fun il => lotIsLoss price il.2))
  let gainInvs :=
    ssort (fun a b => decide (a.2.date ≤ b.2.date))
      (active.filter (fun il => !lotIsLoss price il.2))
  lossInvs ++ gainInvs

/-- Loop state of the lot-consumption loop of `sell_position` in
`utils/transaction.py`: the (mutated-in-place) investments list, the number of
shares still to sell, the transaction ledger, and the gains/losses ledger fed
by `record_gains_losses`. -/
structure SellSt where
  invs : List LotB
  remaining : ℚ
  txns : List Txn
  gl : List (ℚ × ℤ)
deriving DecidableEq

/-- One iteration of the consumption loop of `sell_position` in
`utils/transaction.py` (the `for investment in selling_queue:` body; the
`break` on `remaining_to_sell <= 0` is embedded as skipping, which is
equivalent because `remaining` never increases once non-positive). -/
def sellStep (ticker : String) (price : ℚ) (date : ℤ) (st : SellSt) (il : ℕ × LotB) :
    SellSt :=
  if st.remaining ≤ 0 then st
  else
    let i := il.1
    let inv := il.2
    if inv.sharesRemaining ≤ st.remaining then
      -- sell the entire lot: mark it sold, `shares_remaining` is left as is
      let soldShares := inv.sharesRemaining
      let lotProceeds := pyRound 2 (soldShares * price)
      let lotCost := pyRound 2 (soldShares * inv.price)
      { invs := st.invs.set i { inv with sold := true },
        remaining := st.remaining - soldShares,
        txns := st.txns ++
          [.sell date ticker soldShares price lotProceeds (lotProceeds - lotCost)
            inv.returnPct inv.daysHeld],
        gl := st.gl ++ [(lotProceeds - lotCost, inv.daysHeld)] }
    else
      -- partial sale: decrement the lot, rounded to 4 decimal places
      let soldShares := st.remaining
      let lotProceeds := pyRound 2 (soldShares * price)
      let lotCost := pyRound 2 (soldShares * inv.price)
      { invs := st.invs.set i
          { inv with sharesRemaining := pyRound 4 (inv.sharesRemaining - soldShares) },
        remaining := 0,
        txns := st.txns ++
          [.sell date ticker soldShares price lotProceeds (lotProceeds - lotCost)
            inv.returnPct inv.daysHeld],
        gl := st.gl ++ [(lotProceeds - lotCost, inv.daysHeld)] }

/-- Embedding of `sell_position` from `utils/transaction.py`.  A successful
call returns the new state, the ledger, and whether the Python function
returned the transactions list (`true`) or `None` (`false`).  The
`Except.error` case is the `KeyError` raised by
`portfolio.holdings[ticker]['shares_remaining'] -= actual_shares_sold` when the
holding-level key is absent; lot mutations and per-lot transactions performed
before the raise are kept, the cash update is not reached. -/
def sellPosition (p : PortfolioB) (ticker : String) (sharesToSell price : ℚ) (date : ℤ)
    (transactions : List Txn) :
    Except (PortfolioB × List Txn) (PortfolioB × List Txn × Bool) :=
  match alistGet ticker p.holdings with
  | none => .ok (p, transactions, false)  -- `if ticker not in ...: return None`
  | some h =>
    let st := (sellQueue price h.investments).foldl (sellStep ticker price date)
      { invs := h.investments, remaining := sharesToSell, txns := transactions,
        gl := p.gainsLosses }
    let actualSharesSold := sharesToSell - st.remaining
    let saleProceeds := actualSharesSold * price
    if 0 < actualSharesSold then
      match h.sharesRemaining with
      | none =>
          .error ({ p with
                      holdings := alistSet ticker { h with investments := st.invs } p.holdings,
                      gainsLosses := st.gl }, st.txns)
      | some sr =>
          .ok ({ p with
                   holdings := alistSet ticker
                     { h with investments := st.invs,
                              sharesRemaining := some (sr - actualSharesSold) } p.holdings,
                   cash := p.cash + saleProceeds,
                   gainsLosses := st.gl }, st.txns, true)
    else
      .ok ({ p with
               holdings := alistSet ticker { h with investments := st.invs } p.holdings,
               gainsLosses := st.gl }, st.txns, false)

/-- Whether an open lot meets the harvesting sell trigger of
`track_and_manage_positions` in `strategies/tax_loss_harvesting.py`: the
recomputed `return_pct` — current value of the *remaining* shares, rounded to
2 decimals, against the cost prorated by `shares_remaining /
initial_shares_purchased`, the percentage again rounded to 2 decimals — is at
most `sell_trigger`. -/
def lotReturnPct (currentPrice : ℚ) (inv : LotB) : ℚ :=
  pyRound 2 ((pyRound 2 (inv.sharesRemaining * currentPrice) /
    (inv.cost * (inv.sharesRemaining / inv.initialSharesPurchased)) - 1) * 100)

/-- Loop state of the per-holding lot loop of `track_and_manage_positions` in
`strategies/tax_loss_harvesting.py`. -/
structure HarvSt where
  invs : List LotB
  srOpt : Option ℚ
  cash : ℚ
  txns : List Txn
  gl : List (ℚ × ℤ)
  tickerSold : Bool
deriving DecidableEq

/-- One iteration of the lot loop of `track_and_manage_positions` in
`strategies/tax_loss_harvesting.py`.  A `KeyError` on the holding-level
`shares_remaining` key (read inside
`holding['shares_remaining'] = round(holding['shares_remaining'] - ..., 4)`)
aborts the whole pass; the lot's updates, including its `sold` mark, have
already happened at that point. -/
def harvestStep (ticker : String) (currentPrice sellTrigger : ℚ) (dateOrd : ℤ)
    (st : Except HarvSt HarvSt) (il : ℕ × LotB) : Except HarvSt HarvSt :=
  match st with
  | .error e => .error e
  | .ok st =>
    let i := il.1
    let inv := il.2
    if inv.sold then .ok st
    else
      let daysHeld := dateOrd - inv.date
      let currentValue := pyRound 2 (inv.sharesRemaining * currentPrice)
      let costProrated := inv.cost * (inv.sharesRemaining / inv.initialSharesPurchased)
      let returnPct := pyRound 2 ((currentValue / costProrated - 1) * 100)
      let inv := { inv with daysHeld := daysHeld, currentValue := currentValue,
                            returnPct := returnPct }
      if returnPct ≤ sellTrigger then
        let inv := { inv with sold := true }
        match st.srOpt with
        | none => .error { st with invs := st.invs.set i inv }
        | some sr =>
          let proceeds := pyRound 2 (inv.sharesRemaining * currentPrice)
          let realized := proceeds - costProrated
          .ok { invs := st.invs.set i inv,
                srOpt := some (pyRound 4 (sr - inv.sharesRemaining)),
                cash := st.cash + proceeds,
                txns := st.txns ++
                  [.sell dateOrd ticker inv.sharesRemaining currentPrice proceeds realized
                    returnPct daysHeld],
                gl := st.gl ++ [(realized, daysHeld)],
                tickerSold := true }
      else .ok { st with invs := st.invs.set i inv }

/-- Outer loop of `track_and_manage_positions` in
`strategies/tax_loss_harvesting.py` over the `portfolio.holdings` dictionary,
rebuilding the holdings as it goes.  On a `KeyError` inside the per-lot loop
the error carries (processed holdings, updated current holding, untouched
remaining holdings, cash, transactions, gains ledger); the local
`sold_tickers` list is lost when the exception propagates, and the current
ticker is never appended to it. -/
def tamGo (priceRow : List (String × ℚ)) (dateOrd : ℤ) (sellTrigger : ℚ) :
    List (String × HoldingB) →
    List (String × HoldingB) × ℚ × List Txn × List (ℚ × ℤ) × List String →
    Except (List (String × HoldingB) × ℚ × List Txn × List (ℚ × ℤ))
      (List (String × HoldingB) × ℚ × List Txn × List (ℚ × ℤ) × List String)
  | [], st => .ok st
  | (t, h) :: rest, (done, cash, txns, gl, soldTickers) =>
    match alistGet t priceRow with
    | none => tamGo priceRow dateOrd sellTrigger rest
        (done ++ [(t, h)], cash, txns, gl, soldTickers)
    | some currentPrice =>
      match h.investments.enum.foldl (harvestStep t currentPrice sellTrigger dateOrd)
        (.ok { invs := h.investments, srOpt := h.sharesRemaining, cash := cash,
               txns := txns, gl := gl, tickerSold := false }) with
      | .ok r =>
          tamGo priceRow dateOrd sellTrigger rest
            (done ++ [(t, { h with investments := r.invs, sharesRemaining := r.srOpt })],
             r.cash, r.txns, r.gl,
             soldTickers ++ if r.tickerSold then [t] else [])
      | .error r =>
          .error
            (done ++ [(t, { h with investments := r.invs, sharesRemaining := r.srOpt })]
               ++ rest, r.cash, r.txns, r.gl)

/-- Embedding of `track_and_manage_positions` from
`strategies/tax_loss_harvesting.py`.  Returns the updated portfolio, the
transaction ledger and the `sold_tickers` list, or the state at the point of a
`KeyError`. -/
def trackAndManagePositions (p : PortfolioB) (priceRow : List (String × ℚ)) (dateOrd : ℤ)
    (transactions : List Txn) (sellTrigger : ℚ) :
    Except (PortfolioB × List Txn) (PortfolioB × List Txn × List String) :=
  match tamGo priceRow dateOrd sellTrigger p.holdings
    ([], p.cash, transactions, p.gainsLosses, []) with
  | .ok (hs, cash, txns, gl, soldTickers) =>
      .ok ({ p with holdings := hs, cash := cash, gainsLosses := gl }, txns, soldTickers)
  | .error (hs, cash, txns, gl) =>
      .error ({ p with holdings := hs, cash := cash, gainsLosses := gl }, txns)

/-- Removal of the excluded tickers from an allocation table
(`adjusted_weights.pop(ticker)` for each excluded ticker present; the
remaining entries keep their order). -/
def removeExcluded (ws : List (String × ℚ)) (excluded : List String) :
    List (String × ℚ) :=
  ws.filter (fun kv => !excluded.contains kv.1)

/-- Normalisation of an allocation table so its weights sum to 1, as coded in
`invest_available_cash` and `calculate_allocation_weights`:
`float(f"{(v/weight_sum):.4f}")` formats the quotient to 4 decimal places
(round half to even), skipped entirely when the sum is not positive. -/
def normalizeWeights (ws : List (String × ℚ)) : List (String × ℚ) :=
  let s := (ws.map (fun kv => kv.2)).sum
  if 0 < s then ws.map (fun kv => (kv.1, pyRound 4 (kv.2 / s))) else ws

/-- The per-ticker loop of `invest_available_cash` in `utils/allocation.py`.
`availableCash` is the cash captured before the loop; each qualifying ticker is
bought through `buy_position`, whose `KeyError` propagates. -/
def investGo (priceRow : List (String × ℚ)) (date : ℤ) (availableCash : ℚ) :
    List (String × ℚ) → PortfolioB → List Txn →
    Except (PortfolioB × List Txn) (PortfolioB × List Txn)
  | [], p, txns => .ok (p, txns)
  | (ticker, weight) :: rest, p, txns =>
    match alistGet ticker priceRow with
    | none => investGo priceRow date availableCash rest p txns
    | some price =>
      -- `investment_amount = math.floor(available_cash * weight * 100) / 100`
      let investmentAmount := floor2 (availableCash * weight)
      -- `shares_to_buy = math.floor(shares_to_buy * 100) / 100`
      let sharesToBuy := floor2 (investmentAmount / price)
      if 1/100 ≤ sharesToBuy then
        match buyPosition p ticker sharesToBuy price date txns with
        | .ok (p', txns') => investGo priceRow date availableCash rest p' txns'
        | .error e => .error e
      else investGo priceRow date availableCash rest p txns

/-- Embedding of `invest_available_cash` from `utils/allocation.py`: skip when
no cash is available, drop the excluded tickers, renormalise the remaining
weights, then buy each remaining priced ticker whose floored share count is at
least 0.01.  (The local `actual_investment` of the Python loop is computed but
never used — `buy_position` recomputes it — and is omitted.) -/
def investAvailableCash (p : PortfolioB) (allocationWeights : List (String × ℚ))
    (priceRow : List (String × ℚ)) (date : ℤ) (transactions : List Txn)
    (excludedTickers : List String) :
    Except (PortfolioB × List Txn) (PortfolioB × List Txn) :=
  if p.cash ≤ 0 then .ok (p, transactions)
  else
    investGo priceRow date p.cash
      (normalizeWeights (removeExcluded allocationWeights excludedTickers)) p transactions

/-- A purchase-lot record as created by `Portfolio.buy_position` /
`Portfolio.invest_available_cash` in `models/portfolio.py`: keys `date`,
`shares`, `price`, `cost`, `current_value`, `return_pct`, `days_held`,
`sold`. -/
structure LotA where
  date : ℤ
  shares : ℚ
  price : ℚ
  cost : ℚ
  currentValue : ℚ
  returnPct : ℚ
  daysHeld : ℤ
  sold : Bool
deriving DecidableEq

/-- A holding record of the `Portfolio` class methods: keys `shares`,
`cost_basis`, `investments` (all always present on the records those methods
create). -/
structure HoldingA where
  shares : ℚ
  costBasis : ℚ
  investments : List LotA
deriving DecidableEq

/-- The `portfolio_allocation` configuration value: the string `'equal'` or a
user-provided ticker → weight dictionary (the CSV branch is commented out in
the source, and any other value falls into an error print there). -/
inductive AllocPolicy
  | equal
  | explicit (weights : List (String × ℚ))
deriving DecidableEq

/-- A calendar date as the rebalancing code consumes it: its day ordinal
(`(d1 - d2).days` is the difference of ordinals) together with its year and
month fields. -/
structure SimDate where
  ord : ℤ
  year : ℤ
  month : ℤ
deriving DecidableEq

/-- State of the `Portfolio` class as touched by its methods embedded here
(`portfolio_history` is never read by them and is omitted). -/
structure PortfolioA where
  cash : ℚ
  rebalanceFrequency : String
  rebalanceThreshold : ℚ
  portfolioAllocation : AllocPolicy
  lastRebalanceDate : Option SimDate
  holdings : List (String × HoldingA)
  tickers : List String
deriving DecidableEq

/-- Embedding of `Portfolio.calculate_allocation_weights`: equal weighting over
`self.tickers`, or the user dictionary normalised via
`float(f"{(v/weight_sum):.4f}")` when the weight sum is positive. -/
def calculateAllocationWeights (p : PortfolioA) : List (String × ℚ) :=
  match p.portfolioAllocation with
  | .equal => p.tickers.map (fun t => (t, 1 / (p.tickers.length : ℚ)))
  | .explicit ws => normalizeWeights ws

/-- Embedding of `Portfolio.calculate_total_value`: cash plus
`holding['shares'] * price` over the holdings whose ticker has a price on the
date. -/
def calculateTotalValue (p : PortfolioA) (priceRow : List (String × ℚ)) : ℚ :=
  p.cash + (p.holdings.map (fun th =>
    match alistGet th.1 priceRow with
    | some pr => th.2.shares * pr
    | none => 0)).sum

/-- Embedding of `Portfolio.buy_position` from `models/portfolio.py`.  Unlike
the `utils/transaction.py` version it never raises (its holding records always
carry the keys it touches) and does not round the invested amount. -/
def buyPositionA (p : PortfolioA) (ticker : String) (sharesToBuy price : ℚ) (date : ℤ)
    (transactions : List Txn) : PortfolioA × List Txn :=
  let actualInvestment := sharesToBuy * price
  let clamped :=
    if p.cash < actualInvestment then
      let s := pyRound 2 (p.cash / price)
      (s, s * price)
    else (sharesToBuy, actualInvestment)
  let sharesToBuy := clamped.1
  let actualInvestment := clamped.2
  if 0 < sharesToBuy then
    let h : HoldingA :=
      match alistGet ticker p.holdings with
      | none => { shares := 0, costBasis := 0, investments := [] }
      | some h => h
    let h := { h with shares := h.shares + sharesToBuy }
    let lot : LotA :=
      { date := date, shares := sharesToBuy, price := price, cost := actualInvestment,
        currentValue := actualInvestment, returnPct := 0, daysHeld := 0, sold := false }
    let h := { h with investments := h.investments ++ [lot] }
    let newBasis := (h.costBasis * (h.shares - sharesToBuy) + actualInvestment) / h.shares
    let h := { h with costBasis := newBasis }
    ({ p with holdings := alistSet ticker h p.holdings,
              cash := p.cash - actualInvestment },
     transactions ++ [.buy date ticker sharesToBuy price actualInvestment])
  else (p, transactions)

/-- The selling order of `Portfolio.sell_position` in `models/portfolio.py`:
open lots sorted by purchase date, most recent first (the sort is stable),
regardless of gain or loss. -/
def sellQueueA (invs : List LotA) : List (ℕ × LotA) :=
  ssort (fun a b => decide (b.2.date ≤ a.2.date))
    (invs.enum.filter (fun il => !il.2.sold))

/-- Loop state of the consumption loop of `Portfolio.sell_position`: the
investments list, shares still to sell, and the `realized_gain_loss`,
`total_cost` and `days_held_weighted` accumulators that feed the single
summary transaction. -/
structure SellStA where
  invs : List LotA
  remaining : ℚ
  realized : ℚ
  totalCost : ℚ
  daysWeighted : ℚ
deriving DecidableEq

/-- One iteration of the consumption loop of `Portfolio.sell_position`.  In
the partial branch the Python code decrements `investment['shares']` *before*
computing `lot_cost = sold_shares * (investment['cost'] / investment['shares'])`,
so the cost there divides by the already-reduced share count. -/
def sellStepA (sharesToSell price : ℚ) (st : SellStA) (il : ℕ × LotA) : SellStA :=
  if st.remaining ≤ 0 then st
  else
    let i := il.1
    let inv := il.2
    let consumed :=
      if inv.shares ≤ st.remaining then
        (st.invs.set i { inv with sold := true }, inv.shares, st.remaining - inv.shares,
         inv.shares)
      else
        (st.invs.set i { inv with shares := inv.shares - st.remaining }, st.remaining, 0,
         inv.shares - st.remaining)
    let soldShares := consumed.2.1
    let sharesAfter := consumed.2.2.2
    let lotProceeds := soldShares * price
    let lotCost := soldShares * (inv.cost / sharesAfter)
    { invs := consumed.1,
      remaining := consumed.2.2.1,
      realized := st.realized + (lotProceeds - lotCost),
      totalCost := st.totalCost + lotCost,
      daysWeighted := st.daysWeighted + (inv.daysHeld : ℚ) * (soldShares / sharesToSell) }

/-- Embedding of `Portfolio.sell_position` from `models/portfolio.py`: consumes
open lots most-recent-first, then appends one summary transaction when anything
was sold; returns that transaction, or `none` for the Python `return None`. -/
def sellPositionA (p : PortfolioA) (ticker : String) (sharesToSell price : ℚ) (date : ℤ)
    (transactions : List Txn) : PortfolioA × List Txn × Option Txn :=
  match alistGet ticker p.holdings with
  | none => (p, transactions, none)
  | some h =>
    let st := (sellQueueA h.investments).foldl (sellStepA sharesToSell price)
      { invs := h.investments, remaining := sharesToSell, realized := 0, totalCost := 0,
        daysWeighted := 0 }
    let actualSharesSold := sharesToSell - st.remaining
    let saleProceeds := actualSharesSold * price
    if 0 < actualSharesSold then
      let gainLossPct := if 0 < st.totalCost then st.realized / st.totalCost * 100 else 0
      let avgDaysHeld := if 0 < st.daysWeighted then roundHalfEven st.daysWeighted else 0
      let txn : Txn := .sell date ticker actualSharesSold price saleProceeds st.realized
        gainLossPct avgDaysHeld
      ({ p with holdings := alistSet ticker
                  { h with investments := st.invs, shares := h.shares - actualSharesSold }
                  p.holdings,
                cash := p.cash + saleProceeds },
       transactions ++ [txn], some txn)
    else
      ({ p with holdings := alistSet ticker { h with investments := st.invs } p.holdings },
       transactions, none)

/-- Embedding of `Portfolio.invest_available_cash` from `models/portfolio.py`.
Unlike the `utils/allocation.py` version, the share count is *rounded* to two
decimal places (`round(shares_to_buy, 2)`), not floored, the invested amount is
not rounded, and the purchase is performed inline rather than through
`buy_position`. -/
def investAvailableCashA (p : PortfolioA) (allocationWeights : List (String × ℚ))
    (priceRow : List (String × ℚ)) (date : ℤ) (transactions : List Txn)
    (excludedTickers : List String) : PortfolioA × List Txn :=
  let availableCash := p.cash
  if availableCash ≤ 0 then (p, transactions)
  else
    (normalizeWeights (removeExcluded allocationWeights excludedTickers)).foldl
      (fun acc kv =>
        let p := acc.1
        let txns := acc.2
        let ticker := kv.1
        let weight := kv.2
        match alistGet ticker priceRow with
        | none => acc
        | some price =>
          let investmentAmount := floor2 (availableCash * weight)
          let sharesToBuy := pyRound 2 (investmentAmount / price)
          let actualInvestment := sharesToBuy * price
          if 1/100 ≤ sharesToBuy then
            let h : HoldingA :=
              match alistGet ticker p.holdings with
              | none => { shares := 0, costBasis := 0, investments := [] }
              | some h => h
            let h := { h with shares := h.shares + sharesToBuy }
            let lot : LotA :=
              { date := date, shares := sharesToBuy, price := price,
                cost := actualInvestment, currentValue := actualInvestment,
                returnPct := 0, daysHeld := 0, sold := false }
            let h := { h with investments := h.investments ++ [lot] }
            let newBasis :=
              (h.costBasis * (h.shares - sharesToBuy) + actualInvestment) / h.shares
            let h := { h with costBasis := newBasis }
            ({ p with holdings := alistSet ticker h p.holdings,
                      cash := p.cash - actualInvestment },
             txns ++ [.buy date ticker sharesToBuy price actualInvestment])
          else acc)
      (p, transactions)

/-- The sell phase of `Portfolio.perform_rebalance`: for each currently-priced
holding, a full liquidation when the ticker is absent from the adjusted target
values, or a trim via `sell_position` when its current value exceeds the target
by more than the 2% buffer and at least 0.01 shares would be sold.  (The
`date_prices[ticker]` lookup cannot fail here: every ticker in
`current_values` has a price; the embedding defaults the impossible case
to 0.) -/
def rebalanceSells (priceRow : List (String × ℚ)) (date : ℤ)
    (targetValues : List (String × ℚ)) (currentValues : List (String × ℚ)) :
    PortfolioA × List Txn → PortfolioA × List Txn :=
  fun start =>
    currentValues.foldl
      (fun acc tcv =>
        let p := acc.1
        let txns := acc.2
        let t := tcv.1
        let currentValue := tcv.2
        let pr := (alistGet t priceRow).getD 0
        match alistGet t targetValues with
        | none =>
            -- completely sell positions no longer in the target allocation
            let holdingShares :=
              match alistGet t p.holdings with
              | some h => h.shares
              | none => 0
            let r := sellPositionA p t holdingShares pr date txns
            (r.1, r.2.1)
        | some targetValue =>
            if targetValue * (102/100) < currentValue then
              let sharesToSell := pyRound 2 ((currentValue - targetValue) / pr)
              if 1/100 < sharesToSell then
                let r := sellPositionA p t sharesToSell pr date txns
                (r.1, r.2.1)
              else acc
            else acc)
      start

/-- The buy phase of `Portfolio.perform_rebalance`: with the cash left after
the sell phase (the `self.cash > 10` gate is checked once), buy each
non-excluded, priced, underweight ticker up to its target value, subject to
the 0.01-share and $10 minimums. -/
def rebalanceBuys (priceRow : List (String × ℚ)) (date : ℤ)
    (targetValues : List (String × ℚ)) (currentValues : List (String × ℚ))
    (excludedTickers : List String) :
    PortfolioA × List Txn → PortfolioA × List Txn :=
  fun start =>
    if 10 < start.1.cash then
      targetValues.foldl
        (fun acc ttv =>
          let p := acc.1
          let txns := acc.2
          let t := ttv.1
          let targetValue := ttv.2
          let currentValue := ((alistGet t currentValues).getD 0)
          if excludedTickers.contains t then acc
          else
            match alistGet t priceRow with
            | none => acc
            | some pr =>
              if currentValue < targetValue * (98/100) then
                let amountToBuy := min (targetValue - currentValue) p.cash
                let sharesToBuy := pyRound 2 (amountToBuy / pr)
                if 1/100 ≤ sharesToBuy ∧ 10 < amountToBuy then
                  buyPositionA p t sharesToBuy pr date txns
                else acc
              else acc)
        start
    else start

/-- Embedding of `Portfolio.perform_rebalance` from `models/portfolio.py`:
compute current values and (excluded-adjusted, renormalised) target values,
sell overweight and no-longer-targeted positions, then buy underweight ones.
The target normalisation here divides exactly (`v/total_weight`), with no
4-decimal formatting. -/
def performRebalance (p : PortfolioA) (priceRow : List (String × ℚ)) (date : ℤ)
    (transactions : List Txn) (excludedTickers : List String) :
    PortfolioA × List Txn :=
  let totalValue := calculateTotalValue p priceRow
  let targetAllocation := calculateAllocationWeights p
  let currentValues := p.holdings.filterMap (fun th =>
    match alistGet th.1 priceRow with
    | some pr => some (th.1, th.2.shares * pr)
    | none => none)
  let adjustedTarget := targetAllocation.filter
    (fun kv => !excludedTickers.contains kv.1)
  let adjustedTarget :=
    if adjustedTarget ≠ [] then
      let totalWeight := (adjustedTarget.map (fun kv => kv.2)).sum
      adjustedTarget.map (fun kv => (kv.1, kv.2 / totalWeight))
    else adjustedTarget
  let targetValues := adjustedTarget.map (fun kv => (kv.1, totalValue * kv.2))
  rebalanceBuys priceRow date targetValues currentValues excludedTickers
    (rebalanceSells priceRow date targetValues currentValues (p, transactions))

/-- Quarter of a month, as `(month - 1) // 3 + 1` in Python (floor
division). -/
def quarterOf (month : ℤ) : ℤ := (month - 1).fdiv 3 + 1

/-- The time trigger of `Portfolio.check_and_rebalance`: 90 days after the
start if never rebalanced, otherwise a calendar month / quarter / year
crossing relative to the `last_rebalance_date` argument, per the configured
frequency (any other frequency string leaves the trigger `False`). -/
def shouldRebalanceTime (p : PortfolioA) (currentDate startDate : SimDate)
    (lastRebalanceDate : Option SimDate) : Bool :=
  match lastRebalanceDate with
  | none => decide (90 ≤ currentDate.ord - startDate.ord)
  | some lastReb =>
    if p.rebalanceFrequency = "monthly" then
      decide (lastReb.year < currentDate.year) ||
        (decide (currentDate.year = lastReb.year) &&
         decide (lastReb.month < currentDate.month))
    else if p.rebalanceFrequency = "quarterly" then
      decide (lastReb.year < currentDate.year) ||
        (decide (currentDate.year = lastReb.year) &&
         decide (quarterOf lastReb.month < quarterOf currentDate.month))
    else if p.rebalanceFrequency = "yearly" then
      decide (lastReb.year < currentDate.year)
    else false

/-- The drift trigger of `Portfolio.check_and_rebalance`: the maximum absolute
gap between a ticker's current percentage allocation (on the closest trading
date) and its target percentage exceeds `rebalance_threshold`. -/
def shouldRebalanceDrift (p : PortfolioA) (priceRow : List (String × ℚ)) : Bool :=
  let totalValue := calculateTotalValue p priceRow
  let currentAllocation : List (String × ℚ) := p.holdings.filterMap (fun th =>
    match alistGet th.1 priceRow with
    | some pr =>
        if (0 : ℚ) < th.2.shares then some (th.1, th.2.shares * pr / totalValue * 100)
        else none
    | none => none)
  let targetAllocation := (calculateAllocationWeights p).map
    (fun kv => (kv.1, kv.2 * 100))
  let maxDrift := targetAllocation.foldl
    (fun m kv =>
      match alistGet kv.1 currentAllocation with
      | some ca => max m |ca - kv.2|
      | none => m) 0
  decide (p.rebalanceThreshold < maxDrift)

/-- Embedding of `Portfolio.check_and_rebalance` from `models/portfolio.py`:
skip when there are no holdings; evaluate the time trigger on the investment
date (the drift trigger is only evaluated when the time trigger is off); when
either fires, run `perform_rebalance` on the closest trading date and set
`self.last_rebalance_date` to that date. -/
def checkAndRebalance (p : PortfolioA) (priceRow : List (String × ℚ))
    (investmentDate closestTradingDate startDate : SimDate) (transactions : List Txn)
    (lastRebalanceDate : Option SimDate) (soldTickers : List String) :
    PortfolioA × List Txn :=
  if p.holdings = [] then (p, transactions)
  else
    let timeTrig := shouldRebalanceTime p investmentDate startDate lastRebalanceDate
    let driftTrig := if timeTrig then false else shouldRebalanceDrift p priceRow
    if timeTrig || driftTrig then
      let r := performRebalance p priceRow closestTradingDate.ord transactions soldTickers
      ({ r.1 with lastRebalanceDate := some closestTradingDate }, r.2)
    else (p, transactions)

/-- Embedding of `Portfolio.initialize_holdings`: each ticker gets a record
with keys `shares`, `cost_basis` and `investments` only — in particular with
neither `initial_shares_purchased` nor `shares_remaining`. -/
def initializeHoldings (tickers : List String) : List (String × HoldingB) :=
  tickers.map (fun t =>
    (t, { initialSharesPurchased := none, sharesRemaining := none, costBasis := 0,
          investments := [], shares := some 0 }))

/-! Helper lemmas about association lists. -/

theorem alistGet_alistSet_self {β : Type} (k : String) (v : β) (l : List (String × β)) :
    alistGet k (alistSet k v l) = some v := by
  induction l with
  | nil => simp [alistGet, alistSet]
  | cons kv rest ih =>
    obtain ⟨k', v'⟩ := kv
    by_cases hk : k' = k
    · simp [alistGet, alistSet, hk]
    · simp [alistGet, alistSet, hk, ih]

theorem alistGet_alistSet_ne {β : Type} {k k' : String} (v : β) (l : List (String × β))
    (hk : ¬ (k = k')) : alistGet k' (alistSet k v l) = alistGet k' l := by
  induction l with
  | nil => simp [alistGet, alistSet, hk]
  | cons kv rest ih =>
    obtain ⟨k0, v0⟩ := kv
    by_cases h0 : k0 = k
    · subst h0
      simp [alistGet, alistSet, hk]
    · simp [alistGet, alistSet, h0, ih]

theorem alistSet_of_get_eq {β : Type} {k : String} {v : β} {l : List (String × β)}
    (h : alistGet k l = some v) : alistSet k v l = l := by
  induction l with
  | nil => simp [alistGet] at h
  | cons kv rest ih =>
    obtain ⟨k0, v0⟩ := kv
    by_cases h0 : k0 = k
    · subst h0
      simp [alistGet] at h
      subst h
      simp [alistSet]
    · simp only [alistGet, h0, if_false] at h
      simp [alistSet, h0, ih h]

theorem alistGet_mem {β : Type} {k : String} {v : β} {l : List (String × β)}
    (h : alistGet k l = some v) : (k, v) ∈ l := by
  induction l with
  | nil => simp [alistGet] at h
  | cons kv rest ih =>
    obtain ⟨k0, v0⟩ := kv
    by_cases h0 : k0 = k
    · subst h0
      simp [alistGet] at h
      subst h
      simp
    · simp only [alistGet, h0, if_false] at h
      exact List.mem_cons_of_mem _ (ih h)

theorem mem_of_mem_alistSet {β : Type} {k : String} {v v' : β} {k' : String}
    {l : List (String × β)} (h : (k', v') ∈ alistSet k v l) :
    (k', v') = (k, v) ∨ (k', v') ∈ l := by
  induction l with
  | nil => simpa [alistSet] using h
  | cons kv rest ih =>
    obtain ⟨k0, v0⟩ := kv
    by_cases h0 : k0 = k
    · subst h0
      simp only [alistSet, if_true, eq_self_iff_true, List.mem_cons] at h
      rcases h with h | h
      · exact Or.inl (by simp [h])
      · exact Or.inr (List.mem_cons_of_mem _ h)
    · simp only [alistSet, h0, if_false, List.mem_cons] at h
      rcases h with h | h
      · exact Or.inr (by simp [h])
      · rcases ih h with h | h
        · exact Or.inl h
        · exact Or.inr (List.mem_cons_of_mem _ h)

/-! Helper lemmas about the rounding primitives. -/

theorem roundHalfEven_def (x : ℚ) :
    roundHalfEven x =
      if x - (⌊x⌋ : ℚ) < 1/2 then ⌊x⌋
      else if 1/2 < x - (⌊x⌋ : ℚ) then ⌊x⌋ + 1
      else if Even ⌊x⌋ then ⌊x⌋ else ⌊x⌋ + 1 := rfl

theorem roundHalfEven_intCast (m : ℤ) : roundHalfEven (m : ℚ) = m := by
  rw [roundHalfEven_def]
  norm_num

theorem roundHalfEven_nonneg {x : ℚ} (hx : 0 ≤ x) : 0 ≤ roundHalfEven x := by
  have hfl : (0 : ℤ) ≤ ⌊x⌋ := Int.le_floor.mpr (by exact_mod_cast hx)
  rw [roundHalfEven_def]
  split_ifs <;> omega

theorem abs_roundHalfEven_sub_le (x : ℚ) : |(roundHalfEven x : ℚ) - x| ≤ 1/2 := by
  have h0 : (⌊x⌋ : ℚ) ≤ x := Int.floor_le x
  have h1 : x < (⌊x⌋ : ℚ) + 1 := Int.lt_floor_add_one x
  rw [roundHalfEven_def]
  split_ifs with ha hb hc <;> push_cast <;> rw [abs_le] <;>
    constructor <;> linarith

theorem abs_pyRound_sub_le (n : ℕ) (x : ℚ) : |pyRound n x - x| ≤ 1 / (2 * 10 ^ n) := by
  have h := abs_roundHalfEven_sub_le (x * 10 ^ n)
  have hpow : (0 : ℚ) < 10 ^ n := by positivity
  have key : pyRound n x - x = ((roundHalfEven (x * 10 ^ n) : ℚ) - x * 10 ^ n) / 10 ^ n := by
    rw [pyRound]
    field_simp
    ring
  rw [key, abs_div, abs_of_pos hpow, div_le_div_iff₀ hpow (by positivity)]
  have expand : (1 : ℚ) / (2 * 10 ^ n) * (2 * 10 ^ n) = 1 := by
    field_simp
  calc |(roundHalfEven (x * 10 ^ n) : ℚ) - x * 10 ^ n| * (2 * 10 ^ n)
      ≤ (1/2) * (2 * 10 ^ n) :=
        mul_le_mul_of_nonneg_right h (by positivity)
    _ = 1 * 10 ^ n := by ring
  
theorem pyRound_nonneg {n : ℕ} {x : ℚ} (hx : 0 ≤ x) : 0 ≤ pyRound n x := by
  rw [pyRound]
  apply div_nonneg _ (by positivity)
  exact_mod_cast roundHalfEven_nonneg (by positivity)

/-- A rational is an exact `n`-decimal value (a multiple of `10 ^ (-n)`). -/
def Qdec (n : ℕ) (x : ℚ) : Prop := ∃ m : ℤ, x * 10 ^ n = m

instance (n : ℕ) : DecidablePred (Qdec n) := fun x =>
  decidable_of_iff ((x * 10 ^ n).den = 1) (by
    constructor
    · intro h
      exact ⟨(x * 10 ^ n).num, ((Rat.den_eq_one_iff _).mp h).symm⟩
    · rintro ⟨m, hm⟩
      rw [hm]
      exact Rat.den_intCast m)

theorem Qdec.sub {n : ℕ} {a b : ℚ} (ha : Qdec n a) (hb : Qdec n b) : Qdec n (a - b) := by
  obtain ⟨ma, hma⟩ := ha
  obtain ⟨mb, hmb⟩ := hb
  exact ⟨ma - mb, by push_cast [sub_mul, hma, hmb]; ring⟩

theorem Qdec.add {n : ℕ} {a b : ℚ} (ha : Qdec n a) (hb : Qdec n b) : Qdec n (a + b) := by
  obtain ⟨ma, hma⟩ := ha
  obtain ⟨mb, hmb⟩ := hb
  exact ⟨ma + mb, by push_cast [add_mul, hma, hmb]; ring⟩

theorem Qdec.zero (n : ℕ) : Qdec n 0 := ⟨0, by norm_num⟩

theorem pyRound_eq_self {n : ℕ} {x : ℚ} (h : Qdec n x) : pyRound n x = x := by
  obtain ⟨m, hm⟩ := h
  have hpow : (0 : ℚ) < 10 ^ n := by positivity
  rw [pyRound, hm, roundHalfEven_intCast, ← hm, mul_div_assoc,
    div_self (ne_of_gt hpow), mul_one]

/-! Helper lemmas about the stable sort. -/

theorem sinsert_perm {α : Type} (le : α → α → Bool) (a : α) (l : List α) :
    (sinsert le a l).Perm (a :: l) := by
  induction l with
  | nil => simp [sinsert]
  | cons b bs ih =>
    by_cases h : le b a
    · simp only [sinsert, h, if_true]
      exact (List.Perm.cons b ih).trans (List.Perm.swap a b bs)
    · simp [sinsert, h]

theorem ssort_perm {α : Type} (le : α → α → Bool) (l : List α) : (ssort le l).Perm l := by
  suffices h : ∀ acc : List α,
      (l.foldl (fun acc a => sinsert le a acc) acc).Perm (l ++ acc) by
    simpa [ssort] using h []
  induction l with
  | nil => intro acc; simp
  | cons a as ih =>
    intro acc
    simp only [List.foldl_cons]
    refine (ih (sinsert le a acc)).trans ?_
    refine (List.Perm.append_left as (sinsert_perm le a acc)).trans ?_
    simp only [List.cons_append]
    exact List.perm_middle

theorem mem_ssort {α : Type} {le : α → α → Bool} {l : List α} {a : α} :
    a ∈ ssort le l ↔ a ∈ l := (ssort_perm le l).mem_iff

/-! Facts about the selling queue and the consumption loop of `sell_position`
(`utils/transaction.py`). -/

/-- Sum of `shares_remaining` over the open (non-sold) lots: the quantity the
spec calls the holding's total remaining shares. -/
def lotsOpenSum (invs : List LotB) : ℚ :=
  ((invs.filter (fun l => !l.sold)).map (fun l => l.sharesRemaining)).sum

theorem fst_nodup_val_eq {α : Type} {l : List (ℕ × α)} (hn : (l.map Prod.fst).Nodup)
    {i : ℕ} {a b : α} (ha : (i, a) ∈ l) (hb : (i, b) ∈ l) : a = b := by
  induction l with
  | nil => simp at ha
  | cons x xs ih =>
    simp only [List.map_cons, List.nodup_cons] at hn
    rcases List.mem_cons.mp ha with ha' | ha' <;>
      rcases List.mem_cons.mp hb with hb' | hb'
    · rw [← ha'] at hb'
      exact (Prod.mk.injEq _ _ _ _ ▸ hb').2.symm
    · exfalso
      apply hn.1
      rw [← ha']
      simpa using List.mem_map_of_mem Prod.fst hb'
    · exfalso
      apply hn.1
      rw [← hb']
      simpa using List.mem_map_of_mem Prod.fst ha'
    · exact ih hn.2 ha' hb'

theorem enumFrom_filter_map_snd {α : Type} (p : α → Bool) :
    ∀ (n : ℕ) (l : List α),
      ((List.enumFrom n l).filter (fun il => p il.2)).map Prod.snd = l.filter p
  | _, [] => by simp
  | n, a :: as => by
    by_cases h : p a
    · simp [List.enumFrom, List.filter, h, enumFrom_filter_map_snd p (n + 1) as]
    · simp [List.enumFrom, List.filter, h, enumFrom_filter_map_snd p (n + 1) as]

theorem enum_filter_map_snd {α : Type} (p : α → Bool) (l : List α) :
    ((l.enum).filter (fun il => p il.2)).map Prod.snd = l.filter p :=
  enumFrom_filter_map_snd p 0 l

/-- The active (open-lot) list `sell_position` builds, with indices. -/
def activeLots (invs : List LotB) : List (ℕ × LotB) :=
  invs.enum.filter (fun il => !il.2.sold)

theorem activeLots_mem {invs : List LotB} {il : ℕ × LotB} (h : il ∈ activeLots invs) :
    invs[il.1]? = some il.2 ∧ il.2.sold = false := by
  unfold activeLots at h
  have h1 := List.mem_of_mem_filter h
  have h2 := List.of_mem_filter h
  refine ⟨List.mem_enum_iff_getElem?.mp h1, by simpa using h2⟩

theorem activeLots_fst_nodup (invs : List LotB) :
    ((activeLots invs).map Prod.fst).Nodup := by
  have hsub : ((activeLots invs).map Prod.fst).Sublist (invs.enum.map Prod.fst) :=
    List.Sublist.map Prod.fst (List.filter_sublist _)
  refine hsub.nodup ?_
  rw [List.enum_map_fst]
  exact List.nodup_range _

theorem sellQueue_eq_append (price : ℚ) (invs : List LotB) :
    sellQueue price invs =
      ssort (fun a b => decide (b.2.price ≤ a.2.price))
        ((activeLots invs).filter (fun il => lotIsLoss price il.2)) ++
      ssort (fun a b => decide (a.2.date ≤ b.2.date))
        ((activeLots invs).filter (fun il => !lotIsLoss price il.2)) := rfl

theorem sellQueue_mem {price : ℚ} {invs : List LotB} {il : ℕ × LotB}
    (h : il ∈ sellQueue price invs) : invs[il.1]? = some il.2 ∧ il.2.sold = false := by
  rw [sellQueue_eq_append] at h
  rcases List.mem_append.mp h with h | h
  · exact activeLots_mem (List.mem_of_mem_filter (mem_ssort.mp h))
  · exact activeLots_mem (List.mem_of_mem_filter (mem_ssort.mp h))

theorem sellQueue_fst_nodup (price : ℚ) (invs : List LotB) :
    ((sellQueue price invs).map Prod.fst).Nodup := by
  rw [sellQueue_eq_append, List.map_append, List.nodup_append]
  have hact := activeLots_fst_nodup invs
  have hperm1 :
      ((ssort (fun a b => decide (b.2.price ≤ a.2.price))
        ((activeLots invs).filter (fun il => lotIsLoss price il.2))).map Prod.fst).Perm
      (((activeLots invs).filter (fun il => lotIsLoss price il.2)).map Prod.fst) :=
    List.Perm.map Prod.fst (ssort_perm _ _)
  have hperm2 :
      ((ssort (fun a b => decide (a.2.date ≤ b.2.date))
        ((activeLots invs).filter (fun il => !lotIsLoss price il.2))).map Prod.fst).Perm
      (((activeLots invs).filter (fun il => !lotIsLoss price il.2)).map Prod.fst) :=
    List.Perm.map Prod.fst (ssort_perm _ _)
  have hn1 : (((activeLots invs).filter (fun il => lotIsLoss price il.2)).map Prod.fst).Nodup :=
    (List.Sublist.map Prod.fst (List.filter_sublist _)).nodup hact
  have hn2 : (((activeLots invs).filter (fun il => !lotIsLoss price il.2)).map Prod.fst).Nodup :=
    (List.Sublist.map Prod.fst (List.filter_sublist _)).nodup hact
  refine ⟨hperm1.symm.nodup hn1, hperm2.symm.nodup hn2, ?_⟩
  intro i hi1 hi2
  obtain ⟨il1, hil1, hfst1⟩ := List.mem_map.mp (hperm1.mem_iff.mp hi1)
  obtain ⟨il2, hil2, hfst2⟩ := List.mem_map.mp (hperm2.mem_iff.mp hi2)
  have hin1 : il1 ∈ activeLots invs := List.mem_of_mem_filter hil1
  have hin2 : il2 ∈ activeLots invs := List.mem_of_mem_filter hil2
  have hp1 : lotIsLoss price il1.2 = true := by simpa using List.of_mem_filter hil1
  have hp2 : (!lotIsLoss price il2.2) = true := by simpa using List.of_mem_filter hil2
  obtain ⟨i1, l1⟩ := il1
  obtain ⟨i2, l2⟩ := il2
  simp only at hfst1 hfst2
  subst hfst1
  subst hfst2
  have : l1 = l2 := fst_nodup_val_eq hact hin1 hin2
  subst this
  rw [hp1] at hp2
  simp at hp2

theorem sellQueue_rem_sum (price : ℚ) (invs : List LotB) :
    ((sellQueue price invs).map (fun il => il.2.sharesRemaining)).sum = lotsOpenSum invs := by
  rw [sellQueue_eq_append, List.map_append, List.sum_append]
  have h1 := List.Perm.map (fun il : ℕ × LotB => il.2.sharesRemaining)
    (ssort_perm (fun a b : ℕ × LotB => decide (b.2.price ≤ a.2.price))
      ((activeLots invs).filter (fun il => lotIsLoss price il.2)))
  have h2 := List.Perm.map (fun il : ℕ × LotB => il.2.sharesRemaining)
    (ssort_perm (fun a b : ℕ × LotB => decide (a.2.date ≤ b.2.date))
      ((activeLots invs).filter (fun il => !lotIsLoss price il.2)))
  rw [h1.sum_eq, h2.sum_eq, ← List.sum_append, ← List.map_append]
  have hpart := List.filter_append_perm (fun il : ℕ × LotB => lotIsLoss price il.2)
    (activeLots invs)
  rw [(List.Perm.map (fun il : ℕ × LotB => il.2.sharesRemaining) hpart).sum_eq]
  have hsnd : (activeLots invs).map (fun il => il.2.sharesRemaining) =
      ((activeLots invs).map Prod.snd).map (fun l => l.sharesRemaining) := by
    rw [List.map_map]
    rfl
  have hfin : (activeLots invs).map Prod.snd = invs.filter (fun l => !l.sold) :=
    enum_filter_map_snd (fun (l : LotB) => !l.sold) invs
  rw [hsnd, hfin]
  rfl

theorem sellStep_of_nonpos {ticker : String} {price : ℚ} {date : ℤ} {st : SellSt}
    {il : ℕ × LotB} (h : st.remaining ≤ 0) : sellStep ticker price date st il = st := by
  simp [sellStep, h]

theorem sellFold_of_nonpos {ticker : String} {price : ℚ} {date : ℤ}
    {q : List (ℕ × LotB)} {st : SellSt} (h : st.remaining ≤ 0) :
    q.foldl (sellStep ticker price date) st = st := by
  induction q with
  | nil => rfl
  | cons il q ih => rw [List.foldl_cons, sellStep_of_nonpos h]; exact ih

theorem sellStep_remaining_nonneg {ticker : String} {price : ℚ} {date : ℤ} {st : SellSt}
    {il : ℕ × LotB} (h : 0 ≤ st.remaining) :
    0 ≤ (sellStep ticker price date st il).remaining := by
  by_cases h0 : st.remaining ≤ 0
  · rw [sellStep_of_nonpos h0]
    exact h
  · by_cases h1 : il.2.sharesRemaining ≤ st.remaining
    · simp only [sellStep, h0, h1, if_false, if_true]
      linarith
    · simp [sellStep, h0, h1]

theorem sellFold_remaining_nonneg {ticker : String} {price : ℚ} {date : ℤ}
    {q : List (ℕ × LotB)} {st : SellSt} (h : 0 ≤ st.remaining) :
    0 ≤ (q.foldl (sellStep ticker price date) st).remaining := by
  induction q generalizing st with
  | nil => exact h
  | cons il q ih => exact ih (sellStep_remaining_nonneg h)

theorem sellFold_txns (ticker : String) (price : ℚ) (date : ℤ) :
    ∀ (q : List (ℕ × LotB)) (st : SellSt),
      ∃ d, (q.foldl (sellStep ticker price date) st).txns = st.txns ++ d ∧
        (d.map Txn.shares).sum =
          st.remaining - (q.foldl (sellStep ticker price date) st).remaining ∧
        ∀ tx ∈ d, tx.isBuy = false ∧ tx.ticker = some ticker
  | [], st => ⟨[], by simp⟩
  | il :: q, st => by
    rw [List.foldl_cons]
    obtain ⟨d, hd, hsum, hall⟩ := sellFold_txns ticker price date q
      (sellStep ticker price date st il)
    by_cases h0 : st.remaining ≤ 0
    · rw [sellStep_of_nonpos h0] at hd hsum ⊢
      exact ⟨d, hd, hsum, hall⟩
    · by_cases h1 : il.2.sharesRemaining ≤ st.remaining
      · refine ⟨.sell date ticker il.2.sharesRemaining price
            (pyRound 2 (il.2.sharesRemaining * price))
            (pyRound 2 (il.2.sharesRemaining * price) -
              pyRound 2 (il.2.sharesRemaining * il.2.price))
            il.2.returnPct il.2.daysHeld :: d, ?_, ?_, ?_⟩
        · rw [hd]
          simp [sellStep, h0, h1]
        · simp only [List.map_cons, List.sum_cons, Txn.shares]
          rw [hsum]
          simp [sellStep, h0, h1]
          ring
        · intro tx htx
          rcases List.mem_cons.mp htx with htx | htx
          · subst htx
            exact ⟨rfl, rfl⟩
          · exact hall tx htx
      · refine ⟨.sell date ticker st.remaining price (pyRound 2 (st.remaining * price))
            (pyRound 2 (st.remaining * price) - pyRound 2 (st.remaining * il.2.price))
            il.2.returnPct il.2.daysHeld :: d, ?_, ?_, ?_⟩
        · rw [hd]
          simp [sellStep, h0, h1]
        · simp only [List.map_cons, List.sum_cons, Txn.shares]
          rw [hsum]
          simp [sellStep, h0, h1]
          ring
        · intro tx htx
          rcases List.mem_cons.mp htx with htx | htx
          · subst htx
            exact ⟨rfl, rfl⟩
          · exact hall tx htx

theorem sellFold_untouched {ticker : String} {price : ℚ} {date : ℤ} :
    ∀ {q : List (ℕ × LotB)} {st : SellSt} {j : ℕ}, j ∉ q.map Prod.fst →
      (q.foldl (sellStep ticker price date) st).invs[j]? = st.invs[j]? := by
  intro q
  induction q with
  | nil => intro st j _; rfl
  | cons il q ih =>
    intro st j hj
    simp only [List.map_cons, List.mem_cons] at hj
    push_neg at hj
    rw [List.foldl_cons]
    rw [ih hj.2]
    by_cases h0 : st.remaining ≤ 0
    · rw [sellStep_of_nonpos h0]
    · by_cases h1 : il.2.sharesRemaining ≤ st.remaining
      · simp [sellStep, h0, h1, List.getElem?_set_ne (Ne.symm hj.1)]
      · simp [sellStep, h0, h1, List.getElem?_set_ne (Ne.symm hj.1)]

theorem lotsOpenSum_nil : lotsOpenSum [] = 0 := rfl

theorem lotsOpenSum_cons (l : LotB) (invs : List LotB) :
    lotsOpenSum (l :: invs) =
      (if l.sold = false then l.sharesRemaining else 0) + lotsOpenSum invs := by
  by_cases h : l.sold <;> simp [lotsOpenSum, List.filter, h]

theorem lotsOpenSum_set :
    ∀ {invs : List LotB} {i : ℕ} {l : LotB}, invs[i]? = some l → ∀ l' : LotB,
      lotsOpenSum (invs.set i l') =
        lotsOpenSum invs - (if l.sold = false then l.sharesRemaining else 0) +
          (if l'.sold = false then l'.sharesRemaining else 0) := by
  intro invs
  induction invs with
  | nil => intro i l h l'; simp at h
  | cons a rest ih =>
    intro i l h l'
    match i with
    | 0 =>
      simp only [List.getElem?_cons_zero, Option.some.injEq] at h
      subst h
      simp only [List.set_cons_zero]
      rw [lotsOpenSum_cons, lotsOpenSum_cons]
      ring
    | n + 1 =>
      simp only [List.getElem?_cons_succ] at h
      simp only [List.set_cons_succ]
      rw [lotsOpenSum_cons, lotsOpenSum_cons, ih h l']
      ring

theorem sellFold_conserve (ticker : String) (price : ℚ) (date : ℤ) :
    ∀ (q : List (ℕ × LotB)) (st : SellSt),
      (∀ il ∈ q, st.invs[il.1]? = some il.2 ∧ il.2.sold = false) →
      (q.map Prod.fst).Nodup →
      (∀ il ∈ q, Qdec 4 il.2.sharesRemaining) → Qdec 4 st.remaining →
      lotsOpenSum (q.foldl (sellStep ticker price date) st).invs =
        lotsOpenSum st.invs -
          (st.remaining - (q.foldl (sellStep ticker price date) st).remaining) ∧
      Qdec 4 (q.foldl (sellStep ticker price date) st).remaining
  | [], st => by
    intro _ _ _ hst
    refine ⟨by simp only [List.foldl_nil]; ring, hst⟩
  | il :: q, st => by
    intro hwf hnd hq4 hst4
    have hhead := hwf il (List.mem_cons_self il q)
    simp only [List.map_cons, List.nodup_cons] at hnd
    rw [List.foldl_cons]
    by_cases h0 : st.remaining ≤ 0
    · rw [sellStep_of_nonpos h0]
      exact sellFold_conserve ticker price date q st
        (fun jl hjl => hwf jl (List.mem_cons_of_mem il hjl)) hnd.2
        (fun jl hjl => hq4 jl (List.mem_cons_of_mem il hjl)) hst4
    · have hlen : il.1 < st.invs.length := by
        obtain ⟨hlt, _⟩ := List.getElem?_eq_some.mp hhead.1
        exact hlt
      by_cases h1 : il.2.sharesRemaining ≤ st.remaining
      · set st1 := sellStep ticker price date st il with hst1def
        have hstep : st1.invs = st.invs.set il.1 { il.2 with sold := true } ∧
            st1.remaining = st.remaining - il.2.sharesRemaining := by
          constructor <;> simp [hst1def, sellStep, h0, h1]
        have htail : ∀ jl ∈ q, st1.invs[jl.1]? = some jl.2 ∧ jl.2.sold = false := by
          intro jl hjl
          have hne : jl.1 ≠ il.1 := by
            intro hcontra
            exact hnd.1 (by rw [← hcontra]; exact List.mem_map_of_mem Prod.fst hjl)
          have := hwf jl (List.mem_cons_of_mem il hjl)
          rw [hstep.1]
          exact ⟨by rw [List.getElem?_set_ne (Ne.symm hne)]; exact this.1, this.2⟩
        have hrec := sellFold_conserve ticker price date q st1 htail hnd.2
          (fun jl hjl => hq4 jl (List.mem_cons_of_mem il hjl))
          (by rw [hstep.2]; exact hst4.sub (hq4 il (List.mem_cons_self il q)))
        refine ⟨?_, hrec.2⟩
        rw [hrec.1, hstep.1, lotsOpenSum_set hhead.1, hstep.2]
        simp [hhead.2]
        try ring
      · set st1 := sellStep ticker price date st il with hst1def
        have hq4head := hq4 il (List.mem_cons_self il q)
        have hsub4 : Qdec 4 (il.2.sharesRemaining - st.remaining) := hq4head.sub hst4
        have hstep : st1.invs = st.invs.set il.1
              { il.2 with sharesRemaining := il.2.sharesRemaining - st.remaining } ∧
            st1.remaining = 0 := by
          constructor <;> simp [hst1def, sellStep, h0, h1, pyRound_eq_self hsub4]
        have hrest : q.foldl (sellStep ticker price date) st1 = st1 :=
          sellFold_of_nonpos (by rw [hstep.2])
        rw [hrest]
        refine ⟨?_, by rw [hstep.2]; exact Qdec.zero 4⟩
        rw [hstep.1, lotsOpenSum_set hhead.1, hstep.2]
        simp [hhead.2]
        try ring

theorem sellFold_sold_or_stuck (ticker : String) (price : ℚ) (date : ℤ) :
    ∀ (q : List (ℕ × LotB)) (st : SellSt),
      (∀ il ∈ q, st.invs[il.1]? = some il.2) → (q.map Prod.fst).Nodup →
      ∀ il ∈ q,
        (q.foldl (sellStep ticker price date) st).invs[il.1]? =
          some { il.2 with sold := true } ∨
        (q.foldl (sellStep ticker price date) st).remaining ≤ 0
  | [], st => by intro _ _ il h; simp at h
  | il :: q, st => by
    intro hwf hnd jl hjl
    have hhead := hwf il (List.mem_cons_self il q)
    simp only [List.map_cons, List.nodup_cons] at hnd
    rw [List.foldl_cons]
    by_cases h0 : st.remaining ≤ 0
    · rw [sellStep_of_nonpos h0, sellFold_of_nonpos h0]
      exact Or.inr h0
    · have hlen : il.1 < st.invs.length := by
        obtain ⟨hlt, _⟩ := List.getElem?_eq_some.mp hhead
        exact hlt
      by_cases h1 : il.2.sharesRemaining ≤ st.remaining
      · set st1 := sellStep ticker price date st il with hst1def
        have hstep : st1.invs = st.invs.set il.1 { il.2 with sold := true } := by
          simp [hst1def, sellStep, h0, h1]
        rcases List.mem_cons.mp hjl with hjl' | hjl'
        · subst hjl'
          left
          have hnotin : jl.1 ∉ q.map Prod.fst := by
            intro hcontra
            obtain ⟨kl, hkl, hkfst⟩ := List.mem_map.mp hcontra
            exact hnd.1 (by rw [← hkfst]; exact List.mem_map_of_mem Prod.fst hkl)
          rw [sellFold_untouched hnotin, hstep]
          rw [List.getElem?_set_self hlen]
        · have htail : ∀ kl ∈ q, st1.invs[kl.1]? = some kl.2 := by
            intro kl hkl
            have hne : kl.1 ≠ il.1 := by
              intro hcontra
              exact hnd.1 (by rw [← hcontra]; exact List.mem_map_of_mem Prod.fst hkl)
            rw [hstep, List.getElem?_set_ne (Ne.symm hne)]
            exact hwf kl (List.mem_cons_of_mem il hkl)
          exact sellFold_sold_or_stuck ticker price date q st1 htail hnd.2 jl hjl'
      · set st1 := sellStep ticker price date st il with hst1def
        have hstep : st1.remaining = 0 := by
          simp [hst1def, sellStep, h0, h1]
        have hrest : q.foldl (sellStep ticker price date) st1 = st1 :=
          sellFold_of_nonpos (by rw [hstep])
        rw [hrest]
        exact Or.inr (by rw [hstep])

theorem sellFold_exhaust (ticker : String) (price : ℚ) (date : ℤ) :
    ∀ (q : List (ℕ × LotB)) (st : SellSt),
      (∀ il ∈ q, st.invs[il.1]? = some il.2) → (q.map Prod.fst).Nodup →
      (∀ il ∈ q, 0 ≤ il.2.sharesRemaining) →
      (q.map (fun il => il.2.sharesRemaining)).sum < st.remaining →
      (q.foldl (sellStep ticker price date) st).remaining =
        st.remaining - (q.map (fun il => il.2.sharesRemaining)).sum ∧
      ∀ il ∈ q, (q.foldl (sellStep ticker price date) st).invs[il.1]? =
        some { il.2 with sold := true }
  | [], st => by
    intro _ _ _ _
    refine ⟨by simp, ?_⟩
    intro il h
    simp at h
  | il :: q, st => by
    intro hwf hnd hpos hsum
    have hhead := hwf il (List.mem_cons_self il q)
    simp only [List.map_cons, List.nodup_cons] at hnd
    simp only [List.map_cons, List.sum_cons] at hsum
    have hq0 : 0 ≤ (q.map (fun il => il.2.sharesRemaining)).sum := by
      apply List.sum_nonneg
      intro x hx
      obtain ⟨jl, hjl, hx'⟩ := List.mem_map.mp hx
      rw [← hx']
      exact hpos jl (List.mem_cons_of_mem il hjl)
    have hle : il.2.sharesRemaining ≤ st.remaining := by linarith
    have h0 : ¬ st.remaining ≤ 0 := by
      have := hpos il (List.mem_cons_self il q)
      push_neg
      linarith
    have hlen : il.1 < st.invs.length := by
      obtain ⟨hlt, _⟩ := List.getElem?_eq_some.mp hhead
      exact hlt
    rw [List.foldl_cons]
    set st1 := sellStep ticker price date st il with hst1def
    have hstep : st1.invs = st.invs.set il.1 { il.2 with sold := true } ∧
        st1.remaining = st.remaining - il.2.sharesRemaining := by
      constructor <;> simp [hst1def, sellStep, h0, hle]
    have htail : ∀ kl ∈ q, st1.invs[kl.1]? = some kl.2 := by
      intro kl hkl
      have hne : kl.1 ≠ il.1 := by
        intro hcontra
        exact hnd.1 (by rw [← hcontra]; exact List.mem_map_of_mem Prod.fst hkl)
      rw [hstep.1, List.getElem?_set_ne (Ne.symm hne)]
      exact hwf kl (List.mem_cons_of_mem il hkl)
    have hrec := sellFold_exhaust ticker price date q st1 htail hnd.2
      (fun kl hkl => hpos kl (List.mem_cons_of_mem il hkl))
      (by rw [hstep.2]; linarith)
    refine ⟨?_, ?_⟩
    · rw [hrec.1, hstep.2]
      simp only [List.map_cons, List.sum_cons]
      ring
    · intro jl hjl
      rcases List.mem_cons.mp hjl with hjl' | hjl'
      · subst hjl'
        have hnotin : jl.1 ∉ q.map Prod.fst := by
          intro hcontra
          obtain ⟨kl, hkl, hkfst⟩ := List.mem_map.mp hcontra
          exact hnd.1 (by rw [← hkfst]; exact List.mem_map_of_mem Prod.fst hkl)
        rw [sellFold_untouched hnotin, hstep.1, List.getElem?_set_self hlen]
      · exact hrec.2 jl hjl'

theorem sellFold_remaining_le (ticker : String) (price : ℚ) (date : ℤ) :
    ∀ (q : List (ℕ × LotB)) (st : SellSt), (∀ il ∈ q, 0 ≤ il.2.sharesRemaining) →
      (q.foldl (sellStep ticker price date) st).remaining ≤ st.remaining
  | [], st => by intro _; simp
  | il :: q, st => by
    intro hpos
    rw [List.foldl_cons]
    have htail := fun jl hjl => hpos jl (List.mem_cons_of_mem il hjl)
    by_cases h0 : st.remaining ≤ 0
    · rw [sellStep_of_nonpos h0]
      exact sellFold_remaining_le ticker price date q st htail
    · by_cases h1 : il.2.sharesRemaining ≤ st.remaining
      · have hrec := sellFold_remaining_le ticker price date q
          (sellStep ticker price date st il) htail
        have hstep : (sellStep ticker price date st il).remaining =
            st.remaining - il.2.sharesRemaining := by
          simp [sellStep, h0, h1]
        rw [hstep] at hrec
        have := hpos il (List.mem_cons_self il q)
        linarith
      · have hrec := sellFold_remaining_le ticker price date q
          (sellStep ticker price date st il) htail
        have hstep : (sellStep ticker price date st il).remaining = 0 := by
          simp [sellStep, h0, h1]
        rw [hstep] at hrec
        linarith

theorem sellFold_remaining_lower (ticker : String) (price : ℚ) (date : ℤ) :
    ∀ (q : List (ℕ × LotB)) (st : SellSt), (∀ il ∈ q, 0 ≤ il.2.sharesRemaining) →
      st.remaining - (q.map (fun il => il.2.sharesRemaining)).sum ≤
        (q.foldl (sellStep ticker price date) st).remaining
  | [], st => by intro _; simp
  | il :: q, st => by
    intro hpos
    rw [List.foldl_cons]
    simp only [List.map_cons, List.sum_cons]
    have htail := fun jl hjl => hpos jl (List.mem_cons_of_mem il hjl)
    have hheadpos := hpos il (List.mem_cons_self il q)
    by_cases h0 : st.remaining ≤ 0
    · rw [sellStep_of_nonpos h0]
      have hrec := sellFold_remaining_lower ticker price date q st htail
      linarith
    · by_cases h1 : il.2.sharesRemaining ≤ st.remaining
      · have hrec := sellFold_remaining_lower ticker price date q
          (sellStep ticker price date st il) htail
        have hstep : (sellStep ticker price date st il).remaining =
            st.remaining - il.2.sharesRemaining := by
          simp [sellStep, h0, h1]
        rw [hstep] at hrec
        linarith
      · have hrec := sellFold_remaining_lower ticker price date q
          (sellStep ticker price date st il) htail
        have hstep : (sellStep ticker price date st il).remaining = 0 := by
          simp [sellStep, h0, h1]
        rw [hstep] at hrec
        push_neg at h1
        linarith

/-- Claim C7: for every sell call (`sell_position` in `utils/transaction.py`),
the total shares actually sold never exceeds `shares_to_sell` and never
exceeds the sum of `shares_remaining` over the instrument's open lots; when
the open lots cover fewer shares than requested, only what is available is
sold, without error; and when the instrument has zero open lots (or is not
held at all), no transaction is appended, no portfolio state changes, and the
call returns no transaction (`None`). -/
theorem claim_C7 :
    ∀ (p : PortfolioB) (ticker : String) (sharesToSell price : ℚ) (date : ℤ)
      (txns : List Txn),
      (alistGet ticker p.holdings = none →
        sellPosition p ticker sharesToSell price date txns = .ok (p, txns, false)) ∧
      (∀ h : HoldingB, alistGet ticker p.holdings = some h →
        activeLots h.investments = [] →
        sellPosition p ticker sharesToSell price date txns = .ok (p, txns, false)) ∧
      (∀ (h : HoldingB) (p' : PortfolioB) (txns' : List Txn) (b : Bool),
        alistGet ticker p.holdings = some h →
        0 ≤ sharesToSell →
        (∀ l ∈ h.investments, 0 ≤ l.sharesRemaining) →
        sellPosition p ticker sharesToSell price date txns = .ok (p', txns', b) →
        ∃ d, txns' = txns ++ d ∧
          (d.map Txn.shares).sum ≤ sharesToSell ∧
          (d.map Txn.shares).sum ≤ lotsOpenSum h.investments ∧
          p'.cash = p.cash + (d.map Txn.shares).sum * price) ∧
      (∀ (h : HoldingB) (sr : ℚ), alistGet ticker p.holdings = some h →
        h.sharesRemaining = some sr →
        (∀ l ∈ h.investments, 0 ≤ l.sharesRemaining) →
        lotsOpenSum h.investments < sharesToSell →
        ∃ p' txns' b,
          sellPosition p ticker sharesToSell price date txns = .ok (p', txns', b) ∧
          p'.cash = p.cash + lotsOpenSum h.investments * price) := by
  intro p ticker sharesToSell price date txns
  refine ⟨?_, ?_, ?_, ?_⟩
  · intro hget
    simp [sellPosition, hget]
  · intro h hget hact
    have hq : sellQueue price h.investments = [] := by
      rw [sellQueue_eq_append, hact]
      rfl
    have hzero : ¬ (0 < sharesToSell - sharesToSell) := by norm_num
    simp only [sellPosition, hget, hq, List.foldl_nil, hzero, if_false]
    rw [alistSet_of_get_eq hget]
  · intro h p' txns' b hget hs0 hpos hok
    have hqwf : ∀ il ∈ sellQueue price h.investments,
        il.2 ∈ h.investments ∧ 0 ≤ il.2.sharesRemaining := by
      intro il hil
      have hmem := (sellQueue_mem hil).1
      have : il.2 ∈ h.investments := List.getElem?_mem hmem
      exact ⟨this, hpos _ this⟩
    set st0 : SellSt :=
      { invs := h.investments, remaining := sharesToSell, txns := txns,
        gl := p.gainsLosses } with hst0
    set stf := (sellQueue price h.investments).foldl (sellStep ticker price date) st0
      with hstf
    obtain ⟨d, hd, hdsum, hdall⟩ :=
      sellFold_txns ticker price date (sellQueue price h.investments) st0
    have hrle : stf.remaining ≤ sharesToSell := by
      have := sellFold_remaining_le ticker price date (sellQueue price h.investments) st0
        (fun il hil => (hqwf il hil).2)
      simpa [hst0] using this
    have hrlow : sharesToSell - lotsOpenSum h.investments ≤ stf.remaining := by
      have := sellFold_remaining_lower ticker price date (sellQueue price h.investments) st0
        (fun il hil => (hqwf il hil).2)
      rw [sellQueue_rem_sum] at this
      simpa [hst0] using this
    have hrnn : 0 ≤ stf.remaining := by
      have := @sellFold_remaining_nonneg ticker price date
        (sellQueue price h.investments) st0 (by simpa [hst0] using hs0)
      simpa using this
    have hsum' : (d.map Txn.shares).sum = sharesToSell - stf.remaining := by
      simpa [hst0] using hdsum
    by_cases hpos0 : 0 < sharesToSell - stf.remaining
    · rcases hsr : h.sharesRemaining with _ | sr
      · exfalso
        have : sellPosition p ticker sharesToSell price date txns = .error
            ({ p with
                holdings := alistSet ticker { h with investments := stf.invs } p.holdings,
                gainsLosses := stf.gl }, stf.txns) := by
          simp only [sellPosition, hget, hst0, hstf, hpos0, if_true, hsr]
        rw [this] at hok
        exact Except.noConfusion hok
      · have hexp : sellPosition p ticker sharesToSell price date txns = .ok
            ({ p with
                holdings := alistSet ticker
                  { h with investments := stf.invs,
                           sharesRemaining := some (sr - (sharesToSell - stf.remaining)) }
                  p.holdings,
                cash := p.cash + (sharesToSell - stf.remaining) * price,
                gainsLosses := stf.gl }, stf.txns, true) := by
          simp only [sellPosition, hget, hst0, hstf, hpos0, if_true, hsr]
        rw [hexp] at hok
        simp only [Except.ok.injEq, Prod.mk.injEq] at hok
        obtain ⟨hp', htx', hb⟩ := hok
        refine ⟨d, ?_, ?_, ?_, ?_⟩
        · rw [← htx', hd]
        · rw [hsum']; linarith
        · rw [hsum']; linarith
        · rw [← hp', hsum']
    · have hexp : sellPosition p ticker sharesToSell price date txns = .ok
          ({ p with
              holdings := alistSet ticker { h with investments := stf.invs } p.holdings,
              gainsLosses := stf.gl }, stf.txns, false) := by
        simp only [sellPosition, hget, hst0, hstf, hpos0, if_false]
      rw [hexp] at hok
      simp only [Except.ok.injEq, Prod.mk.injEq] at hok
      obtain ⟨hp', htx', hb⟩ := hok
      have hzero : sharesToSell - stf.remaining = 0 := by
        push_neg at hpos0
        linarith
      refine ⟨d, ?_, ?_, ?_, ?_⟩
      · rw [← htx', hd]
      · rw [hsum', hzero]; linarith
      · rw [hsum', hzero]
        have : 0 ≤ lotsOpenSum h.investments := by
          unfold lotsOpenSum
          apply List.sum_nonneg
          intro x hx
          obtain ⟨l, hl, hx'⟩ := List.mem_map.mp hx
          rw [← hx']
          exact hpos l (List.mem_of_mem_filter hl)
        linarith
      · rw [← hp', hsum', hzero]
        ring
  · intro h sr hget hsr hpos hshort
    have hqwf : ∀ il ∈ sellQueue price h.investments,
        ({ invs := h.investments, remaining := sharesToSell, txns := txns,
           gl := p.gainsLosses } : SellSt).invs[il.1]? = some il.2 := by
      intro il hil
      exact (sellQueue_mem hil).1
    have hqpos : ∀ il ∈ sellQueue price h.investments, 0 ≤ il.2.sharesRemaining := by
      intro il hil
      exact hpos _ (List.getElem?_mem (sellQueue_mem hil).1)
    have hqsum :
        ((sellQueue price h.investments).map (fun il => il.2.sharesRemaining)).sum <
          ({ invs := h.investments, remaining := sharesToSell, txns := txns,
             gl := p.gainsLosses } : SellSt).remaining := by
      rw [sellQueue_rem_sum]
      exact hshort
    obtain ⟨hrem, _⟩ := sellFold_exhaust ticker price date (sellQueue price h.investments)
      { invs := h.investments, remaining := sharesToSell, txns := txns,
        gl := p.gainsLosses }
      hqwf (sellQueue_fst_nodup price h.investments) hqpos hqsum
    set stf := (sellQueue price h.investments).foldl (sellStep ticker price date)
      { invs := h.investments, remaining := sharesToSell, txns := txns,
        gl := p.gainsLosses } with hstf
    rw [sellQueue_rem_sum] at hrem
    have hactual : sharesToSell - stf.remaining = lotsOpenSum h.investments := by
      rw [hrem]
      ring
    by_cases hpos0 : 0 < sharesToSell - stf.remaining
    · refine ⟨{ p with
          holdings := alistSet ticker
            { h with investments := stf.invs,
                     sharesRemaining := some (sr - (sharesToSell - stf.remaining)) }
            p.holdings,
          cash := p.cash + (sharesToSell - stf.remaining) * price,
          gainsLosses := stf.gl }, stf.txns, true, ?_, ?_⟩
      · simp only [sellPosition, hget, hstf, hpos0, if_true, hsr]
      · show p.cash + (sharesToSell - stf.remaining) * price =
          p.cash + lotsOpenSum h.investments * price
        rw [hactual]
    · refine ⟨{ p with
          holdings := alistSet ticker { h with investments := stf.invs } p.holdings,
          gainsLosses := stf.gl }, stf.txns, false, ?_, ?_⟩
      · simp only [sellPosition, hget, hstf, hpos0, if_false]
      · show p.cash = p.cash + lotsOpenSum h.investments * price
        push_neg at hpos0
        rw [← hactual]
        have h0 : sharesToSell - stf.remaining = 0 := by
          have hnn : 0 ≤ lotsOpenSum h.investments := by
            unfold lotsOpenSum
            apply List.sum_nonneg
            intro x hx
            obtain ⟨l, hl, hx'⟩ := List.mem_map.mp hx
            rw [← hx']
            exact hpos l (List.mem_of_mem_filter hl)
          rw [hactual]
          linarith [hactual, hpos0]
        rw [h0]
        ring

/-- Concrete holding used by the witness for claim C7: one open 2-share lot. -/
def hC7w : HoldingB :=
  { initialSharesPurchased := some 2, sharesRemaining := some 2, costBasis := 20,
    investments := [{ date := 0, initialSharesPurchased := 2, sharesRemaining := 2,
                      price := 20, cost := 40, currentValue := 40, returnPct := 0,
                      daysHeld := 0, sold := false }] }

/-- Concrete portfolio used by the witness for claim C7. -/
def pC7w : PortfolioB := { cash := 100, holdings := [("A", hC7w)] }

theorem claim_C7_witness :
    (sellPosition ({ cash := 0, holdings := [] } : PortfolioB) "X" 1 10 0 [] =
      .ok ({ cash := 0, holdings := [] }, [], false)) ∧
    (∃ p' txns' b, sellPosition pC7w "A" 5 10 3 [] = .ok (p', txns', b) ∧
      p'.cash = pC7w.cash + lotsOpenSum hC7w.investments * 10) := by
  constructor
  · exact (claim_C7 { cash := 0, holdings := [] } "X" 1 10 0 []).1 rfl
  · exact (claim_C7 pC7w "A" 5 10 3 []).2.2.2 hC7w 2 (by simp [pC7w, alistGet]) rfl
      (by intro l hl; simp [hC7w] at hl; simp [hl])
      (by norm_num [hC7w, lotsOpenSum, List.filter])

theorem sellFold_invs_length (ticker : String) (price : ℚ) (date : ℤ) :
    ∀ (q : List (ℕ × LotB)) (st : SellSt),
      (q.foldl (sellStep ticker price date) st).invs.length = st.invs.length
  | [], st => rfl
  | il :: q, st => by
    rw [List.foldl_cons]
    rw [sellFold_invs_length ticker price date q]
    by_cases h0 : st.remaining ≤ 0
    · rw [sellStep_of_nonpos h0]
    · by_cases h1 : il.2.sharesRemaining ≤ st.remaining
      · simp [sellStep, h0, h1]
      · simp [sellStep, h0, h1]

theorem sellFold_pointwise (ticker : String) (price : ℚ) (date : ℤ) :
    ∀ (q : List (ℕ × LotB)) (st : SellSt),
      (∀ il ∈ q, st.invs[il.1]? = some il.2) → (q.map Prod.fst).Nodup →
      (∀ il ∈ q, Qdec 4 il.2.sharesRemaining) → Qdec 4 st.remaining →
      ∀ (j : ℕ) (l : LotB), st.invs[j]? = some l →
        (q.foldl (sellStep ticker price date) st).invs[j]? = some l ∨
        (q.foldl (sellStep ticker price date) st).invs[j]? =
          some { l with sold := true } ∨
        ∃ s, 0 < s ∧ s < l.sharesRemaining ∧
          (q.foldl (sellStep ticker price date) st).invs[j]? =
            some { l with sharesRemaining := l.sharesRemaining - s }
  | [], st => by
    intro _ _ _ _ j l hj
    exact Or.inl hj
  | il :: q, st => by
    intro hwf hnd hq4 hr4 j l hj
    have hhead := hwf il (List.mem_cons_self il q)
    simp only [List.map_cons, List.nodup_cons] at hnd
    rw [List.foldl_cons]
    by_cases h0 : st.remaining ≤ 0
    · rw [sellStep_of_nonpos h0]
      exact sellFold_pointwise ticker price date q st
        (fun jl hjl => hwf jl (List.mem_cons_of_mem il hjl)) hnd.2
        (fun jl hjl => hq4 jl (List.mem_cons_of_mem il hjl)) hr4 j l hj
    · have hlen : il.1 < st.invs.length := by
        obtain ⟨hlt, _⟩ := List.getElem?_eq_some.mp hhead
        exact hlt
      by_cases h1 : il.2.sharesRemaining ≤ st.remaining
      · set st1 := sellStep ticker price date st il with hst1def
        have hstep : st1.invs = st.invs.set il.1 { il.2 with sold := true } ∧
            st1.remaining = st.remaining - il.2.sharesRemaining := by
          constructor <;> simp [hst1def, sellStep, h0, h1]
        by_cases hji : j = il.1
        · subst hji
          have hl : l = il.2 := by
            rw [hhead] at hj
            exact (Option.some.inj hj).symm
          subst hl
          right
          left
          rw [sellFold_untouched hnd.1, hstep.1, List.getElem?_set_self hlen]
        · have htail : ∀ kl ∈ q, st1.invs[kl.1]? = some kl.2 := by
            intro kl hkl
            have hne : kl.1 ≠ il.1 := by
              intro hcontra
              exact hnd.1 (by rw [← hcontra]; exact List.mem_map_of_mem Prod.fst hkl)
            rw [hstep.1, List.getElem?_set_ne (Ne.symm hne)]
            exact hwf kl (List.mem_cons_of_mem il hkl)
          have hj1 : st1.invs[j]? = some l := by
            rw [hstep.1, List.getElem?_set_ne (fun hc => hji hc.symm)]
            exact hj
          exact sellFold_pointwise ticker price date q st1 htail hnd.2
            (fun kl hkl => hq4 kl (List.mem_cons_of_mem il hkl))
            (by rw [hstep.2]; exact hr4.sub (hq4 il (List.mem_cons_self il q))) j l hj1
      · set st1 := sellStep ticker price date st il with hst1def
        have hq4h := hq4 il (List.mem_cons_self il q)
        have hstep : st1.invs = st.invs.set il.1
              { il.2 with sharesRemaining := il.2.sharesRemaining - st.remaining } ∧
            st1.remaining = 0 := by
          constructor <;>
            simp [hst1def, sellStep, h0, h1, pyRound_eq_self (hq4h.sub hr4)]
        have hrest : q.foldl (sellStep ticker price date) st1 = st1 :=
          sellFold_of_nonpos (by rw [hstep.2])
        rw [hrest]
        by_cases hji : j = il.1
        · subst hji
          have hl : l = il.2 := by
            rw [hhead] at hj
            exact (Option.some.inj hj).symm
          subst hl
          right
          right
          refine ⟨st.remaining, by linarith [not_le.mp h0], not_le.mp h1, ?_⟩
          rw [hstep.1, List.getElem?_set_self hlen]
        · left
          rw [hstep.1, List.getElem?_set_ne (fun hc => hji hc.symm)]
          exact hj

/-- Result projection used by the counterexample of claim C4: the
`(sold, shares_remaining)` flags of the ticker's lots after a successful
sell. -/
def sellResultLotFlags
    (r : Except (PortfolioB × List Txn) (PortfolioB × List Txn × Bool))
    (t : String) : Option (List (Bool × ℚ)) :=
  match r with
  | .ok (p', _, _) =>
      (alistGet t p'.holdings).map
        (fun h => h.investments.map (fun l => (l.sold, l.sharesRemaining)))
  | .error _ => none

/-- Concrete open 10-share lot used by claim C4's counterexample and witness. -/
def lC4 : LotB :=
  { date := 0, initialSharesPurchased := 10, sharesRemaining := 10, price := 100,
    cost := 1000, currentValue := 1000, returnPct := 0, daysHeld := 0, sold := false }

/-- The same lot after the sell: marked sold, `shares_remaining` untouched. -/
def lC4s : LotB := { lC4 with sold := true }

/-- Concrete holding of claim C4's inputs: one open 10-share lot. -/
def hC4x : HoldingB :=
  { initialSharesPurchased := some 10, sharesRemaining := some 10, costBasis := 100,
    investments := [lC4] }

/-- Concrete input of the counterexample of claim C4. -/
def pC4x : PortfolioB := { cash := 0, holdings := [("A", hC4x)] }

/-- Claim C4 counterexample: selling the full 10-share lot marks it
`sold = true` but leaves its `shares_remaining` at `10`, not `0` — the claimed
equivalence `sold == true ↔ shares_remaining == 0` fails on the code. -/
theorem claim_C4_counterexample :
    sellResultLotFlags (sellPosition pC4x "A" 10 90 1 []) "A" = some [(true, 10)] ∧
    ¬ ((10 : ℚ) = 0) := by
  constructor
  · norm_num [sellResultLotFlags, sellPosition, sellQueue, activeLots, sellStep, ssort,
      sinsert, lotIsLoss, pyRound, roundHalfEven, alistGet, alistSet, pC4x, hC4x, lC4,
      List.enum, List.enumFrom, Int.floor_eq_iff]
  · norm_num

theorem sellPosition_ok_invs {p : PortfolioB} {ticker : String}
    {sharesToSell price : ℚ} {date : ℤ} {txns : List Txn} {h : HoldingB}
    {p' : PortfolioB} {txns' : List Txn} {b : Bool}
    (hget : alistGet ticker p.holdings = some h)
    (hok : sellPosition p ticker sharesToSell price date txns = .ok (p', txns', b)) :
    ∀ h', alistGet ticker p'.holdings = some h' →
      h'.investments =
        ((sellQueue price h.investments).foldl (sellStep ticker price date)
          { invs := h.investments, remaining := sharesToSell, txns := txns,
            gl := p.gainsLosses }).invs := by
  intro h' hget'
  set stf := (sellQueue price h.investments).foldl (sellStep ticker price date)
    { invs := h.investments, remaining := sharesToSell, txns := txns,
      gl := p.gainsLosses } with hstf
  by_cases hpos0 : 0 < sharesToSell - stf.remaining
  · rcases hsr : h.sharesRemaining with _ | sr
    · exfalso
      have : sellPosition p ticker sharesToSell price date txns = .error
          ({ p with
              holdings := alistSet ticker { h with investments := stf.invs } p.holdings,
              gainsLosses := stf.gl }, stf.txns) := by
        simp only [sellPosition, hget, hstf, hpos0, if_true, hsr]
      rw [this] at hok
      exact Except.noConfusion hok
    · have hexp : sellPosition p ticker sharesToSell price date txns = .ok
          ({ p with
              holdings := alistSet ticker
                { h with investments := stf.invs,
                         sharesRemaining := some (sr - (sharesToSell - stf.remaining)) }
                p.holdings,
              cash := p.cash + (sharesToSell - stf.remaining) * price,
              gainsLosses := stf.gl }, stf.txns, true) := by
        simp only [sellPosition, hget, hstf, hpos0, if_true, hsr]
      rw [hexp] at hok
      simp only [Except.ok.injEq, Prod.mk.injEq] at hok
      obtain ⟨hp', _, _⟩ := hok
      rw [← hp'] at hget'
      simp only [alistGet_alistSet_self, Option.some.injEq] at hget'
      rw [← hget']
  · have hexp : sellPosition p ticker sharesToSell price date txns = .ok
        ({ p with
            holdings := alistSet ticker { h with investments := stf.invs } p.holdings,
            gainsLosses := stf.gl }, stf.txns, false) := by
      simp only [sellPosition, hget, hstf, hpos0, if_false]
    rw [hexp] at hok
    simp only [Except.ok.injEq, Prod.mk.injEq] at hok
    obtain ⟨hp', _, _⟩ := hok
    rw [← hp'] at hget'
    simp only [alistGet_alistSet_self, Option.some.injEq] at hget'
    rw [← hget']

/-- Projection used by claim C1's counterexample: `(price, shares, sold)` of
the ticker's lots after a `Portfolio.sell_position` call. -/
def sellAResultLots (r : PortfolioA × List Txn × Option Txn) (t : String) :
    Option (List (ℚ × ℚ × Bool)) :=
  (alistGet t r.1.holdings).map
    (fun h => h.investments.map (fun l => (l.price, l.shares, l.sold)))

/-- Concrete two-lot portfolio for claim C1 on the `Portfolio` class: a
10-share lot bought at $100 on day 0 and a 10-share lot bought at $80 on
day 1. -/
def pC1A : PortfolioA :=
  { cash := 0, rebalanceFrequency := "monthly", rebalanceThreshold := 5,
    portfolioAllocation := .equal, lastRebalanceDate := none,
    holdings := [("A",
      { shares := 20, costBasis := 90,
        investments :=
          [{ date := 0, shares := 10, price := 100, cost := 1000, currentValue := 1000,
             returnPct := 0, daysHeld := 0, sold := false },
           { date := 1, shares := 10, price := 80, cost := 800, currentValue := 800,
             returnPct := 0, daysHeld := 0, sold := false }] })],
    tickers := ["A"] }

/-- Claim C1 counterexample: `Portfolio.sell_position` in
`models/portfolio.py` — one of the two sell operations the claim covers —
consumes most-recently-purchased lots first, regardless of gain or loss.
Selling 15 shares at $90 consumes all 10 shares of the $80 lot and only 5 of
the $100 lot, while the claim requires the $100 (loss) lot to be consumed
fully first. -/
theorem claim_C1_counterexample :
    sellAResultLots (sellPositionA pC1A "A" 15 90 2 []) "A" =
      some [(100, 5, false), (80, 10, true)] ∧
    some [((100 : ℚ), (5 : ℚ), false), (80, 10, true)] ≠
      some [((100 : ℚ), (10 : ℚ), true), (80, 5, false)] := by
  constructor
  · norm_num [sellAResultLots, sellPositionA, sellQueueA, sellStepA, ssort, sinsert,
      pyRound, roundHalfEven, alistGet, alistSet, pC1A, List.enum, List.enumFrom,
      Int.floor_eq_iff]
  · norm_num

theorem mem_activeLots {invs : List LotB} {j : ℕ} {lj : LotB}
    (hj : invs[j]? = some lj) (hopen : lj.sold = false) : (j, lj) ∈ activeLots invs := by
  unfold activeLots
  refine List.mem_filter.mpr ⟨List.mem_enum_iff_getElem?.mpr hj, by simp [hopen]⟩

theorem mem_sellQueue_loss {price : ℚ} {invs : List LotB} {j : ℕ} {lj : LotB}
    (hj : invs[j]? = some lj) (hopen : lj.sold = false)
    (hloss : lotIsLoss price lj = true) :
    (j, lj) ∈ ssort (fun a b => decide (b.2.price ≤ a.2.price))
      ((activeLots invs).filter (fun il => lotIsLoss price il.2)) := by
  apply mem_ssort.mpr
  exact List.mem_filter.mpr ⟨mem_activeLots hj hopen, hloss⟩

theorem mem_sellQueue_gain {price : ℚ} {invs : List LotB} {k : ℕ} {lk : LotB}
    (hk : invs[k]? = some lk) (hopen : lk.sold = false)
    (hgain : lotIsLoss price lk = false) :
    (k, lk) ∈ ssort (fun a b => decide (a.2.date ≤ b.2.date))
      ((activeLots invs).filter (fun il => !lotIsLoss price il.2)) := by
  apply mem_ssort.mpr
  exact List.mem_filter.mpr ⟨mem_activeLots hk hopen, by simp [hgain]⟩

/-- Core ordering consequence for claim C1: if, after a
`utils/transaction.py` sell, some open loss lot (purchase price strictly above
the sell price) is still not sold, then every open gain lot (purchase price at
or below the sell price) is completely untouched — gain lots are only ever
consumed after all loss lots have been fully consumed. -/
theorem sellPosition_gain_untouched
    {p : PortfolioB} {ticker : String} {sharesToSell price : ℚ} {date : ℤ}
    {txns : List Txn} {h : HoldingB} {p' : PortfolioB} {txns' : List Txn} {b : Bool}
    (hget : alistGet ticker p.holdings = some h)
    (hok : sellPosition p ticker sharesToSell price date txns = .ok (p', txns', b))
    {h' : HoldingB} (hget' : alistGet ticker p'.holdings = some h')
    {j : ℕ} {lj : LotB} (hj : h.investments[j]? = some lj) (hjopen : lj.sold = false)
    (hjloss : price < lj.price)
    (hjstill : ∃ lj', h'.investments[j]? = some lj' ∧ lj'.sold = false) :
    ∀ {k : ℕ} {lk : LotB}, h.investments[k]? = some lk → lk.sold = false →
      lk.price ≤ price → h'.investments[k]? = some lk := by
  intro k lk hk hkopen hkgain
  have hinvs := sellPosition_ok_invs hget hok h' hget'
  set st0 : SellSt :=
    { invs := h.investments, remaining := sharesToSell, txns := txns,
      gl := p.gainsLosses } with hst0
  set lossQ := ssort (fun a b : ℕ × LotB => decide (b.2.price ≤ a.2.price))
    ((activeLots h.investments).filter (fun il => lotIsLoss price il.2)) with hlossQ
  set gainQ := ssort (fun a b : ℕ × LotB => decide (a.2.date ≤ b.2.date))
    ((activeLots h.investments).filter (fun il => !lotIsLoss price il.2)) with hgainQ
  have hqsplit : sellQueue price h.investments = lossQ ++ gainQ := by
    rw [sellQueue_eq_append]
  have hnodup := sellQueue_fst_nodup price h.investments
  rw [hqsplit, List.map_append, List.nodup_append] at hnodup
  obtain ⟨hndl, hndg, hdisj⟩ := hnodup
  have hfold : (sellQueue price h.investments).foldl (sellStep ticker price date) st0 =
      gainQ.foldl (sellStep ticker price date) (lossQ.foldl (sellStep ticker price date)
        st0) := by
    rw [hqsplit, List.foldl_append]
  set stL := lossQ.foldl (sellStep ticker price date) st0 with hstL
  have hjmem : (j, lj) ∈ lossQ := mem_sellQueue_loss hj hjopen (by simp [lotIsLoss, hjloss])
  have hkmem : (k, lk) ∈ gainQ := mem_sellQueue_gain hk hkopen
    (by simp [lotIsLoss]; linarith)
  have hkNotLoss : k ∉ lossQ.map Prod.fst := by
    intro hcontra
    exact hdisj hcontra (by simpa using List.mem_map_of_mem Prod.fst hkmem)
  have hjNotGain : j ∉ gainQ.map Prod.fst := by
    intro hcontra
    exact hdisj (by simpa using List.mem_map_of_mem Prod.fst hjmem) hcontra
  have hwfL : ∀ il ∈ lossQ, st0.invs[il.1]? = some il.2 := by
    intro il hil
    exact (sellQueue_mem (by rw [hqsplit]; exact List.mem_append_left _ hil)).1
  rcases sellFold_sold_or_stuck ticker price date lossQ st0 hwfL hndl (j, lj) hjmem
    with hsold | hstuck
  · exfalso
    obtain ⟨lj', hlj', hlj'open⟩ := hjstill
    rw [hinvs, hfold, sellFold_untouched hjNotGain] at hlj'
    rw [hsold] at hlj'
    have : { lj with sold := true } = lj' := Option.some.inj hlj'
    rw [← this] at hlj'open
    simp at hlj'open
  · rw [hinvs, hfold, sellFold_of_nonpos hstuck]
    rw [sellFold_untouched hkNotLoss]
    exact hk

/-- The $100 loss lot of the claim C1 scenario. -/
def lC1a : LotB :=
  { date := 0, initialSharesPurchased := 10, sharesRemaining := 10, price := 100,
    cost := 1000, currentValue := 1000, returnPct := 0, daysHeld := 0, sold := false }

/-- The $80 gain lot of the claim C1 scenario. -/
def lC1b : LotB :=
  { date := 1, initialSharesPurchased := 10, sharesRemaining := 10, price := 80,
    cost := 800, currentValue := 800, returnPct := 0, daysHeld := 0, sold := false }

/-- The two-lot portfolio of the claim C1 scenario. -/
def pC1x : PortfolioB :=
  { cash := 0,
    holdings := [("A",
      { initialSharesPurchased := some 20, sharesRemaining := some 20, costBasis := 90,
        investments := [lC1a, lC1b] })] }

/-- The claim C1 scenario's outcome: the $100 lot fully consumed (marked sold),
5 shares taken from the $80 lot, cash up by 15 × $90. -/
def pC1r : PortfolioB :=
  { cash := 1350,
    holdings := [("A",
      { initialSharesPurchased := some 20, sharesRemaining := some 5, costBasis := 90,
        investments := [{ lC1a with sold := true }, { lC1b with sharesRemaining := 5 }] })],
    gainsLosses := [(-100, 0), (50, 0)] }

theorem sinsert_pairwise {α : Type} (le : α → α → Bool)
    (htrans : ∀ a b c, le a b = true → le b c = true → le a c = true)
    (htotal : ∀ a b, le a b = true ∨ le b a = true) (a : α) :
    ∀ (l : List α), l.Pairwise (fun x y => le x y = true) →
      (sinsert le a l).Pairwise (fun x y => le x y = true)
  | [], _ => by simp [sinsert]
  | b :: bs, hl => by
    rw [List.pairwise_cons] at hl
    by_cases h : le b a
    · simp only [sinsert, h, if_true]
      rw [List.pairwise_cons]
      refine ⟨?_, sinsert_pairwise le htrans htotal a bs hl.2⟩
      intro x hx
      rcases List.mem_cons.mp ((sinsert_perm le a bs).mem_iff.mp hx) with hx' | hx'
      · rw [hx']
        exact h
      · exact hl.1 x hx'
    · simp only [sinsert, h, Bool.false_eq_true, if_false]
      have hab : le a b = true := by
        rcases htotal a b with hh | hh
        · exact hh
        · exact absurd hh h
      rw [List.pairwise_cons]
      refine ⟨?_, List.pairwise_cons.mpr hl⟩
      intro x hx
      rcases List.mem_cons.mp hx with hx' | hx'
      · rw [hx']
        exact hab
      · exact htrans a b x hab (hl.1 x hx')

theorem ssort_pairwise {α : Type} (le : α → α → Bool)
    (htrans : ∀ a b c, le a b = true → le b c = true → le a c = true)
    (htotal : ∀ a b, le a b = true ∨ le b a = true) (l : List α) :
    (ssort le l).Pairwise (fun x y => le x y = true) := by
  suffices h : ∀ acc : List α, acc.Pairwise (fun x y => le x y = true) →
      (l.foldl (fun acc a => sinsert le a acc) acc).Pairwise
        (fun x y => le x y = true) by
    exact h [] (by simp)
  induction l with
  | nil => intro acc hacc; exact hacc
  | cons a as ih =>
    intro acc hacc
    simp only [List.foldl_cons]
    exact ih (sinsert le a acc) (sinsert_pairwise le htrans htotal a acc hacc)

/-- The selling order claim C1 asserts, as a relation on queue entries: losses
(purchase price strictly above the sell price) come before gains, losses are
mutually ordered by purchase price descending, gains by purchase date
ascending. -/
def sellOrder (price : ℚ) (a b : ℕ × LotB) : Prop :=
  (lotIsLoss price a.2 = true ∧ lotIsLoss price b.2 = true →
    b.2.price ≤ a.2.price) ∧
  (lotIsLoss price a.2 = false → lotIsLoss price b.2 = false) ∧
  (lotIsLoss price a.2 = false ∧ lotIsLoss price b.2 = false →
    a.2.date ≤ b.2.date)

theorem sellQueue_pairwise (price : ℚ) (invs : List LotB) :
    (sellQueue price invs).Pairwise (sellOrder price) := by
  rw [sellQueue_eq_append]
  set lossQ := ssort (fun a b : ℕ × LotB => decide (b.2.price ≤ a.2.price))
    ((activeLots invs).filter (fun il => lotIsLoss price il.2)) with hlossQ
  set gainQ := ssort (fun a b : ℕ × LotB => decide (a.2.date ≤ b.2.date))
    ((activeLots invs).filter (fun il => !lotIsLoss price il.2)) with hgainQ
  have hlossMem : ∀ x ∈ lossQ, lotIsLoss price x.2 = true := by
    intro x hx
    have hx1 : x ∈ (activeLots invs).filter (fun il => lotIsLoss price il.2) :=
      mem_ssort.mp hx
    exact (List.mem_filter.mp hx1).2
  have hgainMem : ∀ x ∈ gainQ, lotIsLoss price x.2 = false := by
    intro x hx
    have hx1 : x ∈ (activeLots invs).filter (fun il => !lotIsLoss price il.2) :=
      mem_ssort.mp hx
    simpa using (List.mem_filter.mp hx1).2
  rw [List.pairwise_append]
  refine ⟨?_, ?_, ?_⟩
  · have hp := ssort_pairwise
      (fun a b : ℕ × LotB => decide (b.2.price ≤ a.2.price))
      (by intro a b c hab hbc
          simp only [decide_eq_true_eq] at hab hbc ⊢
          linarith)
      (by intro a b
          simp only [decide_eq_true_eq]
          exact le_total b.2.price a.2.price)
      ((activeLots invs).filter (fun il => lotIsLoss price il.2))
    refine hp.imp_of_mem ?_
    intro a b ha hb hr
    simp only [decide_eq_true_eq] at hr
    refine ⟨fun _ => hr, ?_, ?_⟩
    · intro hfalse
      rw [hlossMem a ha] at hfalse
      exact absurd hfalse (by simp)
    · intro hfalse
      rw [hlossMem a ha] at hfalse
      exact absurd hfalse.1 (by simp)
  · have hp := ssort_pairwise
      (fun a b : ℕ × LotB => decide (a.2.date ≤ b.2.date))
      (by intro a b c hab hbc
          simp only [decide_eq_true_eq] at hab hbc ⊢
          linarith)
      (by intro a b
          simp only [decide_eq_true_eq]
          exact le_total a.2.date b.2.date)
      ((activeLots invs).filter (fun il => !lotIsLoss price il.2))
    refine hp.imp_of_mem ?_
    intro a b ha hb hr
    simp only [decide_eq_true_eq] at hr
    refine ⟨?_, fun _ => hgainMem b hb, fun _ => hr⟩
    intro hloss
    rw [hgainMem b hb] at hloss
    exact absurd hloss.2 (by simp)
  · intro a ha b hb
    refine ⟨?_, fun _ => hgainMem b hb, ?_⟩
    · intro hloss
      rw [hgainMem b hb] at hloss
      exact absurd hloss.2 (by simp)
    · intro hfalse
      rw [hlossMem a ha] at hfalse
      exact absurd hfalse.1 (by simp)

theorem sellFold_prefix (ticker : String) (price : ℚ) (date : ℤ) :
    ∀ (q : List (ℕ × LotB)) (st : SellSt),
      (∀ il ∈ q, st.invs[il.1]? = some il.2) → (q.map Prod.fst).Nodup →
      ∀ (i j : ℕ) (a b : ℕ × LotB), i < j → q[i]? = some a → q[j]? = some b →
        (q.foldl (sellStep ticker price date) st).invs[b.1]? ≠ some b.2 →
        (q.foldl (sellStep ticker price date) st).invs[a.1]? =
          some { a.2 with sold := true }
  | [], st => by
    intro _ _ i j a b _ ha _ _
    simp at ha
  | il :: q, st => by
    intro hwf hnd i j a b hij ha hb htouch
    have hhead := hwf il (List.mem_cons_self il q)
    simp only [List.map_cons, List.nodup_cons] at hnd
    obtain ⟨j', rfl⟩ : ∃ j', j = j' + 1 := ⟨j - 1, by omega⟩
    rw [List.getElem?_cons_succ] at hb
    have hbmem : b ∈ q := List.getElem?_mem hb
    have hbne : b.1 ≠ il.1 := by
      intro hcontra
      exact hnd.1 (by rw [← hcontra]; exact List.mem_map_of_mem Prod.fst hbmem)
    rw [List.foldl_cons] at htouch ⊢
    by_cases h0 : st.remaining ≤ 0
    · exfalso
      rw [sellStep_of_nonpos h0, sellFold_of_nonpos h0] at htouch
      exact htouch (hwf b (List.mem_cons_of_mem il hbmem))
    · have hlen : il.1 < st.invs.length := by
        obtain ⟨hlt, _⟩ := List.getElem?_eq_some.mp hhead
        exact hlt
      by_cases h1 : il.2.sharesRemaining ≤ st.remaining
      · set st1 := sellStep ticker price date st il with hst1def
        have hstep : st1.invs = st.invs.set il.1 { il.2 with sold := true } := by
          simp [hst1def, sellStep, h0, h1]
        have htail : ∀ kl ∈ q, st1.invs[kl.1]? = some kl.2 := by
          intro kl hkl
          have hne : kl.1 ≠ il.1 := by
            intro hcontra
            exact hnd.1 (by rw [← hcontra]; exact List.mem_map_of_mem Prod.fst hkl)
          rw [hstep, List.getElem?_set_ne (Ne.symm hne)]
          exact hwf kl (List.mem_cons_of_mem il hkl)
        rcases i with _ | i'
        · simp only [List.getElem?_cons_zero, Option.some.injEq] at ha
          rw [← ha]
          have hnotin : il.1 ∉ q.map Prod.fst := hnd.1
          rw [sellFold_untouched hnotin, hstep, List.getElem?_set_self hlen]
        · rw [List.getElem?_cons_succ] at ha
          exact sellFold_prefix ticker price date q st1 htail hnd.2 i' j' a b
            (by omega) ha hb htouch
      · exfalso
        set st1 := sellStep ticker price date st il with hst1def
        have hstep : st1.invs = st.invs.set il.1
              { il.2 with
                sharesRemaining := pyRound 4 (il.2.sharesRemaining - st.remaining) } ∧
            st1.remaining = 0 := by
          constructor <;> simp [hst1def, sellStep, h0, h1]
        have hrest : q.foldl (sellStep ticker price date) st1 = st1 :=
          sellFold_of_nonpos (by rw [hstep.2])
        rw [hrest] at htouch
        apply htouch
        rw [hstep.1, List.getElem?_set_ne (Ne.symm hbne)]
        exact hwf b (List.mem_cons_of_mem il hbmem)

/-- Consumption follows the queue: if, after a successful
`utils/transaction.py` sell, the lot at a *later* queue position was changed at
all, then the lot at every earlier queue position was fully consumed (marked
sold).  Together with `sellQueue_pairwise` this pins the claimed order. -/
theorem sellPosition_queue_prefix
    {p : PortfolioB} {ticker : String} {sharesToSell price : ℚ} {date : ℤ}
    {txns : List Txn} {h : HoldingB} {p' : PortfolioB} {txns' : List Txn} {b : Bool}
    (hget : alistGet ticker p.holdings = some h)
    (hok : sellPosition p ticker sharesToSell price date txns = .ok (p', txns', b))
    {h' : HoldingB} (hget' : alistGet ticker p'.holdings = some h') :
    ∀ (i j : ℕ) (qa qb : ℕ × LotB), i < j →
      (sellQueue price h.investments)[i]? = some qa →
      (sellQueue price h.investments)[j]? = some qb →
      h'.investments[qb.1]? ≠ some qb.2 →
      h'.investments[qa.1]? = some { qa.2 with sold := true } := by
  intro i j qa qb hij ha hb htouch
  have hinvs := sellPosition_ok_invs hget hok h' hget'
  rw [hinvs] at htouch ⊢
  exact sellFold_prefix ticker price date (sellQueue price h.investments)
    { invs := h.investments, remaining := sharesToSell, txns := txns,
      gl := p.gainsLosses }
    (fun il hil => (sellQueue_mem hil).1)
    (sellQueue_fst_nodup price h.investments) i j qa qb hij ha hb htouch

/-- Claim C1 (amended): for `sell_position` in `utils/transaction.py` the
claimed order holds in full.  (1) The selling queue is pairwise ordered by the
claimed relation: every loss lot (purchase price strictly above the sell
price) precedes every gain lot, loss lots are mutually ordered by purchase
price descending, and gain lots by purchase date ascending.  (2) Consumption
follows the queue: whenever a later queue entry was changed at all by the
sell, every earlier entry was fully consumed (marked sold).  (3) The claim's
15-share scenario behaves exactly as stated.  (4) A gain lot is untouched
while any open loss lot survives.  `Portfolio.sell_position` in
`models/portfolio.py`, however, consumes most-recently-purchased lots first
regardless of gain or loss (see the counterexample). -/
theorem claim_C1_amended :
    (∀ (price : ℚ) (invs : List LotB),
      (sellQueue price invs).Pairwise (sellOrder price)) ∧
    (∀ (p : PortfolioB) (ticker : String) (sharesToSell price : ℚ) (date : ℤ)
       (txns : List Txn) (h : HoldingB) (p' : PortfolioB) (txns' : List Txn)
       (b : Bool) (h' : HoldingB),
      alistGet ticker p.holdings = some h →
      sellPosition p ticker sharesToSell price date txns = .ok (p', txns', b) →
      alistGet ticker p'.holdings = some h' →
      ∀ (i j : ℕ) (qa qb : ℕ × LotB), i < j →
        (sellQueue price h.investments)[i]? = some qa →
        (sellQueue price h.investments)[j]? = some qb →
        h'.investments[qb.1]? ≠ some qb.2 →
        h'.investments[qa.1]? = some { qa.2 with sold := true }) ∧
    (sellPosition pC1x "A" 15 90 2 [] =
      .ok (pC1r, [.sell 2 "A" 10 90 900 (-100) 0 0, .sell 2 "A" 5 90 450 50 0 0],
        true)) ∧
    (∀ (p : PortfolioB) (ticker : String) (sharesToSell price : ℚ) (date : ℤ)
       (txns : List Txn) (h : HoldingB) (p' : PortfolioB) (txns' : List Txn) (b : Bool)
       (h' : HoldingB) (j k : ℕ) (lj lk : LotB),
      alistGet ticker p.holdings = some h →
      sellPosition p ticker sharesToSell price date txns = .ok (p', txns', b) →
      alistGet ticker p'.holdings = some h' →
      h.investments[j]? = some lj → lj.sold = false → price < lj.price →
      (∃ lj', h'.investments[j]? = some lj' ∧ lj'.sold = false) →
      h.investments[k]? = some lk → lk.sold = false → lk.price ≤ price →
      h'.investments[k]? = some lk) := by
  refine ⟨?_, ?_, ?_, ?_⟩
  · intro price invs
    exact sellQueue_pairwise price invs
  · intro p ticker sharesToSell price date txns h p' txns' b h' hget hok hget'
      i j qa qb hij ha hb htouch
    exact sellPosition_queue_prefix hget hok hget' i j qa qb hij ha hb htouch
  · norm_num [sellPosition, sellQueue, activeLots, sellStep, ssort, sinsert, lotIsLoss,
      pyRound, roundHalfEven, alistGet, alistSet, pC1x, pC1r, lC1a, lC1b,
      List.enum, List.enumFrom, Int.floor_eq_iff]
  · intro p ticker sharesToSell price date txns h p' txns' b h' j k lj lk
      hget hok hget' hj hjopen hjloss hjstill hk hkopen hkgain
    exact sellPosition_gain_untouched hget hok hget' hj hjopen hjloss hjstill hk
      hkopen hkgain

/-- Witness lots for claim C1: two loss lots ($100 day 0, $95 day 1) and one
gain lot ($80 day 2) against a $90 sell. -/
def lw100 : LotB :=
  { date := 0, initialSharesPurchased := 10, sharesRemaining := 10, price := 100,
    cost := 1000, currentValue := 1000, returnPct := 0, daysHeld := 0, sold := false }

/-- Witness loss lot at $95 for claim C1. -/
def lw95 : LotB :=
  { date := 1, initialSharesPurchased := 10, sharesRemaining := 10, price := 95,
    cost := 950, currentValue := 950, returnPct := 0, daysHeld := 0, sold := false }

/-- Witness gain lot at $80 for claim C1. -/
def lw80 : LotB :=
  { date := 2, initialSharesPurchased := 10, sharesRemaining := 10, price := 80,
    cost := 800, currentValue := 800, returnPct := 0, daysHeld := 0, sold := false }

/-- Witness holding for claim C1. -/
def hC1w : HoldingB :=
  { initialSharesPurchased := some 30, sharesRemaining := some 30,
    costBasis := (2750 : ℚ)/30, investments := [lw100, lw95, lw80] }

/-- Witness portfolio for claim C1. -/
def pC1w : PortfolioB := { cash := 0, holdings := [("W", hC1w)] }

/-- The witness holding after selling 12 shares at $90: the $100 loss lot
fully consumed (sold), 2 shares taken from the $95 loss lot, the $80 gain lot
untouched. -/
def hC1wr : HoldingB :=
  { initialSharesPurchased := some 30, sharesRemaining := some 18,
    costBasis := (2750 : ℚ)/30,
    investments := [{ lw100 with sold := true }, { lw95 with sharesRemaining := 8 },
      lw80] }

/-- The witness portfolio after selling 12 shares at $90. -/
def pC1wr : PortfolioB :=
  { cash := 1080, holdings := [("W", hC1wr)], gainsLosses := [(-100, 0), (-10, 0)] }

theorem claim_C1_amended_witness :
    (sellQueue 90 hC1w.investments)[0]? = some (0, lw100) ∧
    (sellQueue 90 hC1w.investments)[1]? = some (1, lw95) ∧
    sellPosition pC1w "W" 12 90 9 [] =
      .ok (pC1wr, [.sell 9 "W" 10 90 900 (-100) 0 0, .sell 9 "W" 2 90 180 (-10) 0 0],
        true) ∧
    hC1wr.investments[(1, lw95).1]? ≠ some (1, lw95).2 ∧
    hC1wr.investments[(0, lw100).1]? = some { lw100 with sold := true } := by
  have hqueue : sellQueue 90 hC1w.investments = [(0, lw100), (1, lw95), (2, lw80)] := by
    norm_num [sellQueue, activeLots, ssort, sinsert, lotIsLoss, hC1w, lw100, lw95,
      lw80, List.enum, List.enumFrom]
  have hq0 : (sellQueue 90 hC1w.investments)[0]? = some (0, lw100) := by
    rw [hqueue]
    rfl
  have hq1 : (sellQueue 90 hC1w.investments)[1]? = some (1, lw95) := by
    rw [hqueue]
    rfl
  have hok : sellPosition pC1w "W" 12 90 9 [] =
      .ok (pC1wr, [.sell 9 "W" 10 90 900 (-100) 0 0, .sell 9 "W" 2 90 180 (-10) 0 0],
        true) := by
    norm_num [sellPosition, sellQueue, activeLots, sellStep, ssort, sinsert, lotIsLoss,
      pyRound, roundHalfEven, alistGet, alistSet, pC1w, pC1wr, hC1w, hC1wr, lw100,
      lw95, lw80, List.enum, List.enumFrom, Int.floor_eq_iff]
  have hne : hC1wr.investments[(1, lw95).1]? ≠ some (1, lw95).2 := by
    norm_num [hC1wr, lw95, lw100]
  refine ⟨hq0, hq1, hok, hne, ?_⟩
  exact claim_C1_amended.2.1 pC1w "W" 12 90 9 [] hC1w pC1wr
    [.sell 9 "W" 10 90 900 (-100) 0 0, .sell 9 "W" 2 90 180 (-10) 0 0] true hC1wr
    (by simp [pC1w, alistGet]) hok (by simp [pC1wr, alistGet])
    0 1 (0, lw100) (1, lw95) (by norm_num) hq0 hq1 hne

/-- Existing one-lot holding of claim C2's failing input. -/
def hC2 : HoldingB :=
  { initialSharesPurchased := some 1, sharesRemaining := some 1, costBasis := 50,
    investments := [{ date := 0, initialSharesPurchased := 1, sharesRemaining := 1,
                      price := 50, cost := 50, currentValue := 50, returnPct := 0,
                      daysHeld := 0, sold := false }] }

/-- Claim C2's failing input: $26 of cash, a buy of 1 share at $1000. -/
def pC2 : PortfolioB := { cash := 26, holdings := [("A", hC2)] }

/-- Claim C2 (code bug): at cash $26 and price $1000 the clamp rounds the
affordable share count 0.026 *up* to 0.03, so the buy spends $30 > $26 and
leaves the cash balance at −$4: `portfolio.cash ≥ 0` is violated right after a
buy operation, although the clamp exists precisely to keep the spend within
the cash on hand.  (CPython agrees: `round(26/1000, 2) == 0.03` and
`round(0.03*1000, 2) == 30.0`.) -/
theorem claim_C2 :
    ∃ p' txns', buyPosition pC2 "A" 1 1000 1 [] = .ok (p', txns') ∧
      p'.cash = -4 ∧ p'.cash < 0 ∧
      txns' = [.buy 1 "A" (3/100) 1000 30] := by
  refine ⟨{ cash := -4,
            holdings := [("A",
              { initialSharesPurchased := some (103/100),
                sharesRemaining := some (103/100), costBasis := 8000/103,
                investments := [{ date := 0, initialSharesPurchased := 1,
                                  sharesRemaining := 1, price := 50, cost := 50,
                                  currentValue := 50, returnPct := 0, daysHeld := 0,
                                  sold := false },
                                { date := 1, initialSharesPurchased := 3/100,
                                  sharesRemaining := 3/100, price := 1000, cost := 30,
                                  currentValue := 30, returnPct := 0, daysHeld := 0,
                                  sold := false }] })] },
          [.buy 1 "A" (3/100) 1000 30], ?_, by norm_num, by norm_num, rfl⟩
  norm_num [buyPosition, pyRound, roundHalfEven, alistGet, alistSet, pC2, hC2,
    Int.floor_eq_iff]

/-- The state `buy_position` leaves behind when it raises `KeyError` on claim
C8's counterexample input: cash and ledger untouched, the fresh holding record
created with `initial_shares_purchased` already incremented and no lots. -/
def pC8e : PortfolioB :=
  { cash := 26,
    holdings := [("A",
      { initialSharesPurchased := some (3/100), sharesRemaining := none,
        costBasis := 0, investments := [] })] }

/-- Claim C8 counterexample: a buy of 1 share at $1000 with $26 cash on a
*fresh* ticker clamps to 0.03 shares (positive), but then raises `KeyError`
instead of completing normally — contradicting the claim that every
over-budget buy with `shares > 0`, `price > 0` clamps and completes. -/
theorem claim_C8_counterexample :
    buyPosition { cash := 26, holdings := [] } "A" 1 1000 0 [] = .error (pC8e, []) ∧
    (26 : ℚ) < pyRound 2 ((1 : ℚ) * 1000) ∧
    0 < pyRound 2 ((26 : ℚ) / 1000) := by
  refine ⟨?_, by norm_num [pyRound, roundHalfEven, Int.floor_eq_iff],
    by norm_num [pyRound, roundHalfEven, Int.floor_eq_iff]⟩
  norm_num [buyPosition, pyRound, roundHalfEven, alistGet, alistSet, pC8e,
    Int.floor_eq_iff]

/-- Claim C8 (amended): for a buy with `shares > 0`, `price > 0` whose rounded
cost exceeds the available cash, `buy_position` in `utils/transaction.py`
clamps the share count to `round(cash / price, 2)`; when that clamp is not
positive the call is a strict no-op signalled by returning the transaction
list unchanged (no lot, no cash change, no transaction, no error); when the
clamp is positive the buy completes normally — creating the lot, spending
`round(clamped × price, 2)` and appending one buy transaction — *provided*
the ticker's holding record already carries the `shares_remaining` (and
`initial_shares_purchased`) keys; on a fresh ticker it instead raises
`KeyError` (see the counterexample and claim C10). -/
theorem claim_C8_amended :
    ∀ (p : PortfolioB) (ticker : String) (shares price : ℚ) (date : ℤ)
      (txns : List Txn),
      0 < shares → 0 < price → p.cash < pyRound 2 (shares * price) →
      (pyRound 2 (p.cash / price) ≤ 0 →
        buyPosition p ticker shares price date txns = .ok (p, txns)) ∧
      (∀ (h : HoldingB) (isp sr : ℚ),
        alistGet ticker p.holdings = some h →
        h.initialSharesPurchased = some isp → h.sharesRemaining = some sr →
        0 < pyRound 2 (p.cash / price) →
        ∃ p', buyPosition p ticker shares price date txns =
            .ok (p', txns ++ [.buy date ticker (pyRound 2 (p.cash / price)) price
              (pyRound 2 (pyRound 2 (p.cash / price) * price))]) ∧
          p'.cash = p.cash - pyRound 2 (pyRound 2 (p.cash / price) * price) ∧
          ∃ h', alistGet ticker p'.holdings = some h' ∧
            h'.investments = h.investments ++
              [{ date := date,
                 initialSharesPurchased := pyRound 2 (p.cash / price),
                 sharesRemaining := pyRound 2 (p.cash / price), price := price,
                 cost := pyRound 2 (pyRound 2 (p.cash / price) * price),
                 currentValue := pyRound 2 (pyRound 2 (p.cash / price) * price),
                 returnPct := 0, daysHeld := 0, sold := false }]) := by
  intro p ticker shares price date txns hs hp hover
  constructor
  · intro hclamp
    have hnotpos : ¬ (0 < pyRound 2 (p.cash / price)) := not_lt.mpr hclamp
    simp only [buyPosition, hover, if_true, hnotpos, if_false]
  · intro h isp sr hget hisp hsr hclamp
    refine ⟨{ p with
        holdings := alistSet ticker
          { h with initialSharesPurchased := some (isp + pyRound 2 (p.cash / price)),
                   sharesRemaining := some (sr + pyRound 2 (p.cash / price)),
                   investments := h.investments ++
                     [{ date := date,
                        initialSharesPurchased := pyRound 2 (p.cash / price),
                        sharesRemaining := pyRound 2 (p.cash / price), price := price,
                        cost := pyRound 2 (pyRound 2 (p.cash / price) * price),
                        currentValue := pyRound 2 (pyRound 2 (p.cash / price) * price),
                        returnPct := 0, daysHeld := 0, sold := false }],
                   costBasis :=
                     (h.costBasis * (sr + pyRound 2 (p.cash / price) -
                         pyRound 2 (p.cash / price)) +
                       pyRound 2 (pyRound 2 (p.cash / price) * price)) /
                       (sr + pyRound 2 (p.cash / price)) } p.holdings,
        cash := p.cash - pyRound 2 (pyRound 2 (p.cash / price) * price) }, ?_, ?_, ?_⟩
    · simp only [buyPosition, hover, if_true, hclamp, if_true, hget, hisp, hsr]
    · simp
    · refine ⟨_, alistGet_alistSet_self _ _ _, ?_⟩
      simp

theorem claim_C8_amended_witness :
    (buyPosition { cash := 2, holdings := [] } "A" 1 1000 0 [] =
      .ok ({ cash := 2, holdings := [] }, [])) ∧
    (∃ p', buyPosition pC2 "A" 1 1000 1 [] =
        .ok (p', [] ++ [.buy 1 "A" (pyRound 2 (pC2.cash / 1000)) 1000
          (pyRound 2 (pyRound 2 (pC2.cash / 1000) * 1000))]) ∧
      p'.cash = pC2.cash - pyRound 2 (pyRound 2 (pC2.cash / 1000) * 1000) ∧
      ∃ h', alistGet "A" p'.holdings = some h' ∧
        h'.investments = hC2.investments ++
          [{ date := 1, initialSharesPurchased := pyRound 2 (pC2.cash / 1000),
             sharesRemaining := pyRound 2 (pC2.cash / 1000), price := 1000,
             cost := pyRound 2 (pyRound 2 (pC2.cash / 1000) * 1000),
             currentValue := pyRound 2 (pyRound 2 (pC2.cash / 1000) * 1000),
             returnPct := 0, daysHeld := 0, sold := false }]) := by
  constructor
  · exact (claim_C8_amended { cash := 2, holdings := [] } "A" 1 1000 0 []
      (by norm_num) (by norm_num)
      (by norm_num [pyRound, roundHalfEven, Int.floor_eq_iff])).1
      (by norm_num [pyRound, roundHalfEven, Int.floor_eq_iff])
  · exact (claim_C8_amended pC2 "A" 1 1000 1 [] (by norm_num) (by norm_num)
      (by norm_num [pC2, pyRound, roundHalfEven, Int.floor_eq_iff])).2 hC2 1 1
      (by simp [pC2, alistGet]) rfl rfl
      (by norm_num [pC2, pyRound, roundHalfEven, Int.floor_eq_iff])

theorem alistSet_alistSet {β : Type} (k : String) (v1 v2 : β) (l : List (String × β)) :
    alistSet k v2 (alistSet k v1 l) = alistSet k v2 l := by
  induction l with
  | nil => simp [alistSet]
  | cons kv rest ih =>
    obtain ⟨k0, v0⟩ := kv
    by_cases h0 : k0 = k
    · simp [alistSet, h0]
    · simp [alistSet, h0, ih]

/-- Claim C10: a buy on a holding record lacking the holding-level
`shares_remaining` key — which is every record freshly created by
`buy_position` itself (it initialises only `initial_shares_purchased`,
`investments`, `cost_basis`) and every record created by
`Portfolio.initialize_holdings` (which lacks `initial_shares_purchased` as
well, so its `KeyError` fires one access earlier) — never completes when the
(possibly clamped) share count is positive: the increment of the missing key
raises `KeyError`, and at the raise point no lot has been appended, the cash
is unchanged and no transaction has been recorded. -/
theorem claim_C10 :
    (∀ (p : PortfolioB) (ticker : String) (shares price : ℚ) (date : ℤ)
       (txns : List Txn),
      (alistGet ticker p.holdings = none ∨
        ∃ h, alistGet ticker p.holdings = some h ∧
          (h.initialSharesPurchased = none ∨ h.sharesRemaining = none)) →
      0 < (if p.cash < pyRound 2 (shares * price) then pyRound 2 (p.cash / price)
           else shares) →
      ∃ pErr, buyPosition p ticker shares price date txns = .error (pErr, txns) ∧
        pErr.cash = p.cash ∧
        ∀ t' h', alistGet t' pErr.holdings = some h' →
          h'.investments = (match alistGet t' p.holdings with
            | some h0 => h0.investments
            | none => ([] : List LotB))) ∧
    (∀ (tickers : List String) (t : String) (h : HoldingB),
      alistGet t (initializeHoldings tickers) = some h →
      h.initialSharesPurchased = none ∧ h.sharesRemaining = none) := by
  constructor
  · intro p ticker shares price date txns hmiss hpos
    rcases hmiss with habs | ⟨h, hget, hkey⟩
    · refine ⟨{ p with
                holdings := alistSet ticker
                  ({ initialSharesPurchased :=
                       some (0 + (if p.cash < pyRound 2 (shares * price)
                         then pyRound 2 (p.cash / price) else shares)),
                     sharesRemaining := none, costBasis := 0,
                     investments := [] } : HoldingB)
                  p.holdings }, ?_, rfl, ?_⟩
      · simp only [buyPosition]
        rw [if_pos ?hpos0]
        case hpos0 =>
          by_cases hc : p.cash < pyRound 2 (shares * price) <;> simp [hc] at hpos ⊢ <;>
            exact hpos
        rw [habs]
        simp only [alistGet_alistSet_self]
        by_cases hc : p.cash < pyRound 2 (shares * price) <;>
          simp [hc, alistSet_alistSet]
      · intro t' h' hget'
        by_cases ht : ticker = t'
        · subst ht
          rw [alistGet_alistSet_self] at hget'
          rw [habs]
          simp only [Option.some.injEq] at hget'
          rw [← hget']
        · rw [alistGet_alistSet_ne _ _ ht] at hget'
          rw [hget']
    · rcases hispc : h.initialSharesPurchased with _ | isp
      · -- `initial_shares_purchased` itself is absent: KeyError on its increment
        refine ⟨p, ?_, rfl, ?_⟩
        · simp only [buyPosition]
          rw [if_pos ?hpos1]
          case hpos1 =>
            by_cases hc : p.cash < pyRound 2 (shares * price) <;> simp [hc] at hpos ⊢ <;>
              exact hpos
          rw [hget]
          simp only [hget, hispc]
        · intro t' h' hget'
          rw [hget']
      · have hsr : h.sharesRemaining = none := by
          rcases hkey with hk | hk
          · rw [hispc] at hk
            exact Option.noConfusion hk
          · exact hk
        refine ⟨{ p with
                  holdings := alistSet ticker
                    ({ h with
                       initialSharesPurchased :=
                         some (isp + (if p.cash < pyRound 2 (shares * price)
                           then pyRound 2 (p.cash / price) else shares)) } : HoldingB)
                    p.holdings }, ?_, rfl, ?_⟩
        · simp only [buyPosition]
          rw [if_pos ?hpos2]
          case hpos2 =>
            by_cases hc : p.cash < pyRound 2 (shares * price) <;> simp [hc] at hpos ⊢ <;>
              exact hpos
          rw [hget]
          simp only [hget, hispc, hsr]
          by_cases hc : p.cash < pyRound 2 (shares * price) <;> simp [hc]
        · intro t' h' hget'
          by_cases ht : ticker = t'
          · subst ht
            rw [alistGet_alistSet_self] at hget'
            rw [hget]
            simp only [Option.some.injEq] at hget'
            rw [← hget']
          · rw [alistGet_alistSet_ne _ _ ht] at hget'
            rw [hget']
  · intro tickers t h hget
    have hmem := alistGet_mem hget
    unfold initializeHoldings at hmem
    obtain ⟨t0, ht0, heq⟩ := List.mem_map.mp hmem
    have h2 := congrArg Prod.snd heq
    simp only [] at h2
    rw [← h2]
    exact ⟨rfl, rfl⟩

theorem claim_C10_witness :
    (∃ pErr, buyPosition { cash := 26, holdings := [] } "A" 1 1000 0 [] =
        .error (pErr, []) ∧ pErr.cash = 26 ∧
        ∀ t' h', alistGet t' pErr.holdings = some h' → h'.investments = []) ∧
    (({ initialSharesPurchased := none, sharesRemaining := none, costBasis := 0,
        investments := [], shares := some 0 } : HoldingB).initialSharesPurchased = none ∧
      ({ initialSharesPurchased := none, sharesRemaining := none, costBasis := 0,
         investments := [], shares := some 0 } : HoldingB).sharesRemaining = none) := by
  constructor
  · obtain ⟨pErr, h1, h2, h3⟩ := claim_C10.1 { cash := 26, holdings := [] } "A" 1 1000 0 []
      (Or.inl rfl) (by norm_num [pyRound, roundHalfEven, Int.floor_eq_iff])
    exact ⟨pErr, h1, h2, fun t' h' hget' => h3 t' h' hget'⟩
  · exact claim_C10.2 ["X"] "X" _ (by simp [initializeHoldings, alistGet])

/-! Facts about the consumption loop of `Portfolio.sell_position`
(`models/portfolio.py`). -/

/-- Sum of `shares` over the open (non-sold) lots of a `Portfolio`-class
holding. -/
def lotsOpenSumA (invs : List LotA) : ℚ :=
  ((invs.filter (fun l => !l.sold)).map (fun l => l.shares)).sum

theorem lotsOpenSumA_cons (l : LotA) (invs : List LotA) :
    lotsOpenSumA (l :: invs) =
      (if l.sold = false then l.shares else 0) + lotsOpenSumA invs := by
  by_cases h : l.sold <;> simp [lotsOpenSumA, List.filter, h]

theorem lotsOpenSumA_nil : lotsOpenSumA [] = 0 := rfl

theorem lotsOpenSumA_append (invs : List LotA) (l : LotA) :
    lotsOpenSumA (invs ++ [l]) =
      lotsOpenSumA invs + (if l.sold = false then l.shares else 0) := by
  induction invs with
  | nil =>
    rw [List.nil_append, lotsOpenSumA_cons, lotsOpenSumA_nil]
    ring
  | cons a rest ih =>
    rw [List.cons_append, lotsOpenSumA_cons, ih, lotsOpenSumA_cons]
    ring

theorem lotsOpenSum_append (invs : List LotB) (l : LotB) :
    lotsOpenSum (invs ++ [l]) =
      lotsOpenSum invs + (if l.sold = false then l.sharesRemaining else 0) := by
  induction invs with
  | nil => simp [lotsOpenSum_cons, lotsOpenSum_nil]
  | cons a rest ih =>
    rw [List.cons_append, lotsOpenSum_cons, ih, lotsOpenSum_cons]
    ring

theorem lotsOpenSumA_set :
    ∀ {invs : List LotA} {i : ℕ} {l : LotA}, invs[i]? = some l → ∀ l' : LotA,
      lotsOpenSumA (invs.set i l') =
        lotsOpenSumA invs - (if l.sold = false then l.shares else 0) +
          (if l'.sold = false then l'.shares else 0) := by
  intro invs
  induction invs with
  | nil => intro i l h l'; simp at h
  | cons a rest ih =>
    intro i l h l'
    match i with
    | 0 =>
      simp only [List.getElem?_cons_zero, Option.some.injEq] at h
      subst h
      simp only [List.set_cons_zero]
      rw [lotsOpenSumA_cons, lotsOpenSumA_cons]
      ring
    | n + 1 =>
      simp only [List.getElem?_cons_succ] at h
      simp only [List.set_cons_succ]
      rw [lotsOpenSumA_cons, lotsOpenSumA_cons, ih h l']
      ring

theorem sellStepA_of_nonpos {sharesToSell price : ℚ} {st : SellStA} {il : ℕ × LotA}
    (h : st.remaining ≤ 0) : sellStepA sharesToSell price st il = st := by
  simp [sellStepA, h]

theorem sellFoldA_of_nonpos {sharesToSell price : ℚ} {q : List (ℕ × LotA)} {st : SellStA}
    (h : st.remaining ≤ 0) : q.foldl (sellStepA sharesToSell price) st = st := by
  induction q with
  | nil => rfl
  | cons il q ih => rw [List.foldl_cons, sellStepA_of_nonpos h]; exact ih

theorem sellQueueA_mem {invs : List LotA} {il : ℕ × LotA} (h : il ∈ sellQueueA invs) :
    invs[il.1]? = some il.2 ∧ il.2.sold = false := by
  unfold sellQueueA at h
  have h' := mem_ssort.mp h
  have h1 := List.mem_of_mem_filter h'
  have h2 := List.of_mem_filter h'
  exact ⟨List.mem_enum_iff_getElem?.mp h1, by simpa using h2⟩

theorem sellQueueA_fst_nodup (invs : List LotA) :
    ((sellQueueA invs).map Prod.fst).Nodup := by
  unfold sellQueueA
  have hperm := List.Perm.map Prod.fst
    (ssort_perm (fun a b : ℕ × LotA => decide (b.2.date ≤ a.2.date))
      (invs.enum.filter (fun il => !il.2.sold)))
  refine hperm.symm.nodup ?_
  have hsub : ((invs.enum.filter (fun il : ℕ × LotA => !il.2.sold)).map Prod.fst).Sublist
      (invs.enum.map Prod.fst) :=
    List.Sublist.map Prod.fst (List.filter_sublist _)
  refine hsub.nodup ?_
  rw [List.enum_map_fst]
  exact List.nodup_range _

theorem sellQueueA_rem_sum (invs : List LotA) :
    ((sellQueueA invs).map (fun il => il.2.shares)).sum = lotsOpenSumA invs := by
  unfold sellQueueA
  have hperm := List.Perm.map (fun il : ℕ × LotA => il.2.shares)
    (ssort_perm (fun a b : ℕ × LotA => decide (b.2.date ≤ a.2.date))
      (invs.enum.filter (fun il => !il.2.sold)))
  rw [hperm.sum_eq]
  have hsnd : (invs.enum.filter (fun il : ℕ × LotA => !il.2.sold)).map
        (fun il => il.2.shares) =
      ((invs.enum.filter (fun il : ℕ × LotA => !il.2.sold)).map Prod.snd).map
        (fun l => l.shares) := by
    rw [List.map_map]
    rfl
  rw [hsnd]
  have hfin : (invs.enum.filter (fun il : ℕ × LotA => !il.2.sold)).map Prod.snd =
      invs.filter (fun l => !l.sold) :=
    enum_filter_map_snd (fun (l : LotA) => !l.sold) invs
  rw [hfin]
  rfl

theorem sellStepA_remaining_nonneg {sharesToSell price : ℚ} {st : SellStA}
    {il : ℕ × LotA} (h : 0 ≤ st.remaining) :
    0 ≤ (sellStepA sharesToSell price st il).remaining := by
  by_cases h0 : st.remaining ≤ 0
  · rw [sellStepA_of_nonpos h0]
    exact h
  · by_cases h1 : il.2.shares ≤ st.remaining
    · simp only [sellStepA, h0, h1, if_false, if_true]
      linarith
    · simp [sellStepA, h0, h1]

theorem sellFoldA_remaining_nonneg {sharesToSell price : ℚ} {q : List (ℕ × LotA)}
    {st : SellStA} (h : 0 ≤ st.remaining) :
    0 ≤ (q.foldl (sellStepA sharesToSell price) st).remaining := by
  induction q generalizing st with
  | nil => exact h
  | cons il q ih => exact ih (sellStepA_remaining_nonneg h)

theorem sellFoldA_conserve (sharesToSell price : ℚ) :
    ∀ (q : List (ℕ × LotA)) (st : SellStA),
      (∀ il ∈ q, st.invs[il.1]? = some il.2 ∧ il.2.sold = false) →
      (q.map Prod.fst).Nodup →
      (lotsOpenSumA (q.foldl (sellStepA sharesToSell price) st).invs =
        lotsOpenSumA st.invs -
          (st.remaining - (q.foldl (sellStepA sharesToSell price) st).remaining)) ∧
      ((∀ il ∈ q, 0 ≤ il.2.shares) →
        ∀ (j : ℕ) (l : LotA), st.invs[j]? = some l → 0 ≤ l.shares →
          ∃ l', (q.foldl (sellStepA sharesToSell price) st).invs[j]? = some l' ∧
            0 ≤ l'.shares)
  | [], st => by
    intro _ _
    refine ⟨by simp only [List.foldl_nil]; ring, ?_⟩
    intro _ j l hj hl
    exact ⟨l, hj, hl⟩
  | il :: q, st => by
    intro hwf hnd
    have hhead := hwf il (List.mem_cons_self il q)
    simp only [List.map_cons, List.nodup_cons] at hnd
    rw [List.foldl_cons]
    by_cases h0 : st.remaining ≤ 0
    · rw [sellStepA_of_nonpos h0]
      have hrec := sellFoldA_conserve sharesToSell price q st
        (fun jl hjl => hwf jl (List.mem_cons_of_mem il hjl)) hnd.2
      exact ⟨hrec.1, fun hpos => hrec.2 (fun kl hkl => hpos kl (List.mem_cons_of_mem il hkl))⟩
    · have hlen : il.1 < st.invs.length := by
        obtain ⟨hlt, _⟩ := List.getElem?_eq_some.mp hhead.1
        exact hlt
      by_cases h1 : il.2.shares ≤ st.remaining
      · set st1 := sellStepA sharesToSell price st il with hst1def
        have hstep : st1.invs = st.invs.set il.1 { il.2 with sold := true } ∧
            st1.remaining = st.remaining - il.2.shares := by
          constructor <;> simp [hst1def, sellStepA, h0, h1]
        have htail : ∀ jl ∈ q, st1.invs[jl.1]? = some jl.2 ∧ jl.2.sold = false := by
          intro jl hjl
          have hne : jl.1 ≠ il.1 := by
            intro hcontra
            exact hnd.1 (by rw [← hcontra]; exact List.mem_map_of_mem Prod.fst hjl)
          have := hwf jl (List.mem_cons_of_mem il hjl)
          rw [hstep.1]
          exact ⟨by rw [List.getElem?_set_ne (Ne.symm hne)]; exact this.1, this.2⟩
        have hrec := sellFoldA_conserve sharesToSell price q st1 htail hnd.2
        constructor
        · rw [hrec.1, hstep.1, lotsOpenSumA_set hhead.1, hstep.2]
          simp [hhead.2]
          try ring
        · intro hpos j l hj hl
          by_cases hji : j = il.1
          · subst hji
            refine hrec.2 (fun kl hkl => hpos kl (List.mem_cons_of_mem il hkl)) il.1
              { il.2 with sold := true } ?_ ?_
            · rw [hstep.1, List.getElem?_set_self hlen]
            · have h2 : il.2 = l := Option.some.inj (hhead.1.symm.trans hj)
              show 0 ≤ il.2.shares
              rw [h2]
              exact hl
          · refine hrec.2 (fun kl hkl => hpos kl (List.mem_cons_of_mem il hkl)) j l ?_ hl
            rw [hstep.1, List.getElem?_set_ne (fun hc => hji hc.symm)]
            exact hj
      · set st1 := sellStepA sharesToSell price st il with hst1def
        have hstep : st1.invs = st.invs.set il.1
              { il.2 with shares := il.2.shares - st.remaining } ∧
            st1.remaining = 0 := by
          constructor <;> simp [hst1def, sellStepA, h0, h1]
        have hrest : q.foldl (sellStepA sharesToSell price) st1 = st1 :=
          sellFoldA_of_nonpos (by rw [hstep.2])
        rw [hrest]
        constructor
        · rw [hstep.1, lotsOpenSumA_set hhead.1, hstep.2]
          simp [hhead.2]
          try ring
        · intro _ j l hj hl
          by_cases hji : j = il.1
          · subst hji
            refine ⟨{ il.2 with shares := il.2.shares - st.remaining }, ?_, ?_⟩
            · rw [hstep.1, List.getElem?_set_self hlen]
            · show 0 ≤ il.2.shares - st.remaining
              have h2 : il.2 = l := Option.some.inj (hhead.1.symm.trans hj)
              have := not_le.mp h1
              linarith
          · refine ⟨l, ?_, hl⟩
            rw [hstep.1, List.getElem?_set_ne (fun hc => hji hc.symm)]
            exact hj

theorem sellFoldA_remaining_le (sharesToSell price : ℚ) :
    ∀ (q : List (ℕ × LotA)) (st : SellStA), (∀ il ∈ q, 0 ≤ il.2.shares) →
      (q.foldl (sellStepA sharesToSell price) st).remaining ≤ st.remaining
  | [], st => by intro _; simp
  | il :: q, st => by
    intro hpos
    rw [List.foldl_cons]
    have htail := fun jl hjl => hpos jl (List.mem_cons_of_mem il hjl)
    by_cases h0 : st.remaining ≤ 0
    · rw [sellStepA_of_nonpos h0]
      exact sellFoldA_remaining_le sharesToSell price q st htail
    · have hrec := sellFoldA_remaining_le sharesToSell price q
        (sellStepA sharesToSell price st il) htail
      by_cases h1 : il.2.shares ≤ st.remaining
      · have hstep : (sellStepA sharesToSell price st il).remaining =
            st.remaining - il.2.shares := by
          simp [sellStepA, h0, h1]
        rw [hstep] at hrec
        have := hpos il (List.mem_cons_self il q)
        linarith
      · have hstep : (sellStepA sharesToSell price st il).remaining = 0 := by
          simp [sellStepA, h0, h1]
        rw [hstep] at hrec
        linarith

theorem sellFoldA_invs_length (sharesToSell price : ℚ) :
    ∀ (q : List (ℕ × LotA)) (st : SellStA),
      (q.foldl (sellStepA sharesToSell price) st).invs.length = st.invs.length
  | [], st => rfl
  | il :: q, st => by
    rw [List.foldl_cons, sellFoldA_invs_length sharesToSell price q]
    by_cases h0 : st.remaining ≤ 0
    · rw [sellStepA_of_nonpos h0]
    · by_cases h1 : il.2.shares ≤ st.remaining
      · simp [sellStepA, h0, h1]
      · simp [sellStepA, h0, h1]

/-- The invariant claim C3 tracks on the `Portfolio`-class state: every
holding's `shares` equals the sum of its non-sold lots' `shares`, and lot
share counts are non-negative. -/
def InvA (p : PortfolioA) : Prop :=
  ∀ th ∈ p.holdings, th.2.shares = lotsOpenSumA th.2.investments ∧
    ∀ l ∈ th.2.investments, 0 ≤ l.shares

theorem buyPositionA_preserves {p : PortfolioA} (ticker : String)
    (sharesToBuy price : ℚ) (date : ℤ) (txns : List Txn) (hinv : InvA p) :
    InvA (buyPositionA p ticker sharesToBuy price date txns).1 := by
  simp only [buyPositionA]
  set c := (if p.cash < sharesToBuy * price then
      (pyRound 2 (p.cash / price), pyRound 2 (p.cash / price) * price)
    else (sharesToBuy, sharesToBuy * price)) with hc
  clear_value c
  clear hc
  obtain ⟨s, a⟩ := c
  dsimp only
  by_cases hpos : 0 < s
  · simp only [hpos, if_true]
    rcases hget : alistGet ticker p.holdings with _ | h
    · simp only [hget]
      intro th hth
      obtain ⟨t1, h1⟩ := th
      rcases mem_of_mem_alistSet hth with hth' | hth'
      · injection hth' with he1 he2
        subst he1
        subst he2
        refine ⟨?_, ?_⟩
        · show (0 : ℚ) + s = lotsOpenSumA ([] ++ [_])
          rw [lotsOpenSumA_append, lotsOpenSumA_nil]
          norm_num
        · intro l hl
          simp only [List.nil_append, List.mem_singleton] at hl
          rw [hl]
          exact le_of_lt hpos
      · exact hinv (t1, h1) hth'
    · simp only [hget]
      intro th hth
      obtain ⟨t1, h1⟩ := th
      have hh := hinv (ticker, h) (alistGet_mem hget)
      rcases mem_of_mem_alistSet hth with hth' | hth'
      · injection hth' with he1 he2
        subst he1
        subst he2
        refine ⟨?_, ?_⟩
        · show h.shares + s = lotsOpenSumA (h.investments ++ [_])
          rw [lotsOpenSumA_append, hh.1]
          norm_num
        · intro l hl
          rcases List.mem_append.mp hl with hl' | hl'
          · exact hh.2 l hl'
          · simp only [List.mem_singleton] at hl'
            rw [hl']
            exact le_of_lt hpos
      · exact hinv (t1, h1) hth'
  · simp only [hpos, if_false]
    exact hinv

theorem sellPositionA_preserves {p : PortfolioA} (ticker : String)
    (sharesToSell price : ℚ) (date : ℤ) (txns : List Txn) (hinv : InvA p) :
    InvA (sellPositionA p ticker sharesToSell price date txns).1 := by
  rcases hget : alistGet ticker p.holdings with _ | h
  · simp only [sellPositionA, hget]
    exact hinv
  · have hh := hinv (ticker, h) (alistGet_mem hget)
    simp only [sellPositionA, hget]
    set st0 : SellStA :=
      { invs := h.investments, remaining := sharesToSell, realized := 0, totalCost := 0,
        daysWeighted := 0 } with hst0
    set stf := (sellQueueA h.investments).foldl (sellStepA sharesToSell price) st0
      with hstf
    have hst0invs : st0.invs = h.investments := rfl
    have hst0rem : st0.remaining = sharesToSell := rfl
    have hqwf : ∀ il ∈ sellQueueA h.investments,
        st0.invs[il.1]? = some il.2 ∧ il.2.sold = false := by
      intro il hil
      rw [hst0invs]
      exact sellQueueA_mem hil
    have hqpos : ∀ il ∈ sellQueueA h.investments, 0 ≤ il.2.shares := by
      intro il hil
      exact hh.2 il.2 (List.getElem?_mem (sellQueueA_mem hil).1)
    have hcons := sellFoldA_conserve sharesToSell price (sellQueueA h.investments) st0
      hqwf (sellQueueA_fst_nodup h.investments)
    rw [← hstf] at hcons
    have hlotpos : ∀ l' ∈ stf.invs, 0 ≤ l'.shares := by
      intro l' hl'
      obtain ⟨j, hj⟩ := List.mem_iff_getElem?.mp hl'
      have hlen := sellFoldA_invs_length sharesToSell price
        (sellQueueA h.investments) st0
      rw [← hstf] at hlen
      have hjlt : j < h.investments.length := by
        obtain ⟨hlt, _⟩ := List.getElem?_eq_some.mp hj
        rw [hlen, hst0invs] at hlt
        exact hlt
      obtain ⟨l0, hl0⟩ : ∃ l0, st0.invs[j]? = some l0 := by
        rw [hst0invs]
        exact ⟨h.investments[j], List.getElem?_eq_some.mpr ⟨hjlt, rfl⟩⟩
      have hl0pos : 0 ≤ l0.shares := by
        rw [hst0invs] at hl0
        exact hh.2 l0 (List.getElem?_mem hl0)
      obtain ⟨l'', hl'', hl''pos⟩ := hcons.2 hqpos j l0 hl0 hl0pos
      rw [hj] at hl''
      rw [Option.some.inj hl'']
      exact hl''pos
    have hsum : lotsOpenSumA stf.invs =
        lotsOpenSumA h.investments - (sharesToSell - stf.remaining) := by
      rw [hcons.1, hst0invs, hst0rem]
    by_cases hpos0 : 0 < sharesToSell - stf.remaining
    · simp only [← hstf, hpos0, if_true]
      intro th hth
      obtain ⟨t1, h1⟩ := th
      rcases mem_of_mem_alistSet hth with hth' | hth'
      · injection hth' with he1 he2
        subst he1
        subst he2
        refine ⟨?_, ?_⟩
        · show h.shares - (sharesToSell - stf.remaining) = lotsOpenSumA stf.invs
          rw [hsum, hh.1]
        · intro l hl
          exact hlotpos l hl
      · exact hinv (t1, h1) hth'
    · simp only [← hstf, hpos0, if_false]
      intro th hth
      obtain ⟨t1, h1⟩ := th
      rcases mem_of_mem_alistSet hth with hth' | hth'
      · injection hth' with he1 he2
        subst he1
        subst he2
        refine ⟨?_, ?_⟩
        · show h.shares = lotsOpenSumA stf.invs
          have hzero : sharesToSell - stf.remaining = 0 := by
            by_cases hs : 0 ≤ sharesToSell
            · have hle := sellFoldA_remaining_le sharesToSell price
                (sellQueueA h.investments) st0 hqpos
              rw [← hstf, hst0rem] at hle
              have := not_lt.mp hpos0
              linarith
            · have hno : stf = st0 := by
                rw [hstf]
                exact sellFoldA_of_nonpos (by rw [hst0rem]; linarith [not_le.mp hs])
              rw [hno, hst0rem]
              ring
          rw [hsum, hzero, hh.1]
          ring
        · intro l hl
          exact hlotpos l hl
      · exact hinv (t1, h1) hth'

theorem foldl_preserve {α β : Type} (P : β → Prop) (f : β → α → β)
    (hstep : ∀ acc x, P acc → P (f acc x)) :
    ∀ (l : List α) (init : β), P init → P (l.foldl f init)
  | [], _ => fun h => h
  | x :: l, init => fun h =>
    foldl_preserve P f hstep l (f init x) (hstep init x h)

theorem rebalanceSells_preserves (priceRow : List (String × ℚ)) (date : ℤ)
    (targetValues currentValues : List (String × ℚ))
    (start : PortfolioA × List Txn) (hinv : InvA start.1) :
    InvA (rebalanceSells priceRow date targetValues currentValues start).1 := by
  unfold rebalanceSells
  refine foldl_preserve (fun acc => InvA acc.1) _ ?_ currentValues start hinv
  intro acc tcv hP
  dsimp only
  rcases h : alistGet tcv.1 targetValues with _ | tv
  · simp only [h]
    exact sellPositionA_preserves _ _ _ _ _ hP
  · simp only [h]
    by_cases h1 : tv * (102/100) < tcv.2
    · simp only [h1, if_true]
      by_cases h2 : 1/100 <
          pyRound 2 ((tcv.2 - tv) / (alistGet tcv.1 priceRow).getD 0)
      · simp only [h2, if_true]
        exact sellPositionA_preserves _ _ _ _ _ hP
      · simp only [h2, if_false]
        exact hP
    · simp only [h1, if_false]
      exact hP

theorem rebalanceBuys_preserves (priceRow : List (String × ℚ)) (date : ℤ)
    (targetValues currentValues : List (String × ℚ)) (excludedTickers : List String)
    (start : PortfolioA × List Txn) (hinv : InvA start.1) :
    InvA (rebalanceBuys priceRow date targetValues currentValues excludedTickers
      start).1 := by
  unfold rebalanceBuys
  by_cases hcash : 10 < start.1.cash
  · simp only [hcash, if_true]
    refine foldl_preserve (fun acc => InvA acc.1) _ ?_ targetValues start hinv
    intro acc ttv hP
    dsimp only
    by_cases hex : excludedTickers.contains ttv.1
    · simp only [hex, if_true]
      exact hP
    · simp only [hex, Bool.false_eq_true, if_false]
      rcases h : alistGet ttv.1 priceRow with _ | pr
      · simp only [h]
        exact hP
      · simp only [h]
        by_cases h1 : (alistGet ttv.1 currentValues).getD 0 < ttv.2 * (98/100)
        · simp only [h1, if_true]
          by_cases h2 : 1/100 ≤ pyRound 2
                (min (ttv.2 - (alistGet ttv.1 currentValues).getD 0) acc.1.cash /
                  pr) ∧
              10 < min (ttv.2 - (alistGet ttv.1 currentValues).getD 0) acc.1.cash
          · simp only [h2, if_true]
            exact buyPositionA_preserves _ _ _ _ _ hP
          · simp only [h2, if_false]
            exact hP
        · simp only [h1, if_false]
          exact hP
  · simp only [hcash, if_false]
    exact hinv

theorem performRebalance_preserves (p : PortfolioA) (priceRow : List (String × ℚ))
    (date : ℤ) (txns : List Txn) (excludedTickers : List String) (hinv : InvA p) :
    InvA (performRebalance p priceRow date txns excludedTickers).1 := by
  unfold performRebalance
  exact rebalanceBuys_preserves _ _ _ _ _ _
    (rebalanceSells_preserves _ _ _ _ _ hinv)

theorem Qdec_pyRound (n : ℕ) (x : ℚ) : Qdec n (pyRound n x) :=
  ⟨roundHalfEven (x * 10 ^ n), by
    rw [pyRound, div_mul_cancel₀]
    positivity⟩

theorem Qdec.mono {m n : ℕ} (hmn : m ≤ n) {x : ℚ} (h : Qdec m x) : Qdec n x := by
  obtain ⟨k, hk⟩ := h
  refine ⟨k * 10 ^ (n - m), ?_⟩
  have hsplit : (10 : ℚ) ^ n = 10 ^ m * 10 ^ (n - m) := by
    rw [← pow_add]
    congr 1
    omega
  rw [hsplit, ← mul_assoc, hk]
  push_cast
  ring

theorem Qdec_two_four {x : ℚ} (h : Qdec 2 x) : Qdec 4 x :=
  Qdec.mono (by norm_num) h

theorem sellFold_lotok (ticker : String) (price : ℚ) (date : ℤ) :
    ∀ (q : List (ℕ × LotB)) (st : SellSt),
      (∀ il ∈ q, st.invs[il.1]? = some il.2) → (q.map Prod.fst).Nodup →
      ∀ (j : ℕ) (l : LotB), st.invs[j]? = some l →
        Qdec 4 l.sharesRemaining → 0 ≤ l.sharesRemaining →
        ∃ l', (q.foldl (sellStep ticker price date) st).invs[j]? = some l' ∧
          Qdec 4 l'.sharesRemaining ∧ 0 ≤ l'.sharesRemaining
  | [], st => by
    intro _ _ j l hj h4 h0
    exact ⟨l, hj, h4, h0⟩
  | il :: q, st => by
    intro hwf hnd j l hj h4 h0n
    have hhead := hwf il (List.mem_cons_self il q)
    simp only [List.map_cons, List.nodup_cons] at hnd
    rw [List.foldl_cons]
    by_cases h0 : st.remaining ≤ 0
    · rw [sellStep_of_nonpos h0]
      exact sellFold_lotok ticker price date q st
        (fun jl hjl => hwf jl (List.mem_cons_of_mem il hjl)) hnd.2 j l hj h4 h0n
    · have hlen : il.1 < st.invs.length := by
        obtain ⟨hlt, _⟩ := List.getElem?_eq_some.mp hhead
        exact hlt
      by_cases h1 : il.2.sharesRemaining ≤ st.remaining
      · set st1 := sellStep ticker price date st il with hst1def
        have hstep : st1.invs = st.invs.set il.1 { il.2 with sold := true } := by
          simp [hst1def, sellStep, h0, h1]
        have htail : ∀ jl ∈ q, st1.invs[jl.1]? = some jl.2 := by
          intro jl hjl
          have hne : jl.1 ≠ il.1 := fun hcontra =>
            hnd.1 (by rw [← hcontra]; exact List.mem_map_of_mem Prod.fst hjl)
          rw [hstep, List.getElem?_set_ne (Ne.symm hne)]
          exact hwf jl (List.mem_cons_of_mem il hjl)
        by_cases hji : j = il.1
        · subst hji
          have h2 : il.2 = l := Option.some.inj (hhead.symm.trans hj)
          refine sellFold_lotok ticker price date q st1 htail hnd.2 il.1
            { il.2 with sold := true } ?_ ?_ ?_
          · rw [hstep, List.getElem?_set_self hlen]
          · show Qdec 4 il.2.sharesRemaining
            rw [h2]
            exact h4
          · show 0 ≤ il.2.sharesRemaining
            rw [h2]
            exact h0n
        · refine sellFold_lotok ticker price date q st1 htail hnd.2 j l ?_ h4 h0n
          rw [hstep, List.getElem?_set_ne (fun hc => hji hc.symm)]
          exact hj
      · set st1 := sellStep ticker price date st il with hst1def
        have hstep : st1.invs = st.invs.set il.1
              { il.2 with
                sharesRemaining := pyRound 4 (il.2.sharesRemaining - st.remaining) } ∧
            st1.remaining = 0 := by
          constructor <;> simp [hst1def, sellStep, h0, h1]
        have hrest : q.foldl (sellStep ticker price date) st1 = st1 :=
          sellFold_of_nonpos (by rw [hstep.2])
        rw [hrest]
        by_cases hji : j = il.1
        · subst hji
          refine ⟨_, by rw [hstep.1, List.getElem?_set_self hlen], Qdec_pyRound 4 _, ?_⟩
          show (0 : ℚ) ≤ pyRound 4 (il.2.sharesRemaining - st.remaining)
          refine pyRound_nonneg ?_
          have := not_le.mp h1
          linarith
        · refine ⟨l, ?_, h4, h0n⟩
          rw [hstep.1, List.getElem?_set_ne (fun hc => hji hc.symm)]
          exact hj

/-- The invariant claim C3 tracks on the newer-generation state: every lot's
`shares_remaining` is a non-negative exact 4-decimal value, and whenever the
holding-level `shares_remaining` key is present it equals the sum of
`shares_remaining` over the non-sold lots. -/
def HoldOK (h : HoldingB) : Prop :=
  (∀ l ∈ h.investments, Qdec 4 l.sharesRemaining ∧ 0 ≤ l.sharesRemaining) ∧
  ∀ sr, h.sharesRemaining = some sr → sr = lotsOpenSum h.investments

/-- The C3 invariant over a whole newer-generation portfolio. -/
def InvB (p : PortfolioB) : Prop := ∀ th ∈ p.holdings, HoldOK th.2

theorem buyPosition_preserves {p : PortfolioB} {ticker : String}
    {sharesToBuy price : ℚ} {date : ℤ} {txns : List Txn}
    {p' : PortfolioB} {txns' : List Txn}
    (hinv : InvB p) (hq4 : Qdec 4 sharesToBuy)
    (hok : buyPosition p ticker sharesToBuy price date txns = .ok (p', txns')) :
    InvB p' := by
  simp only [buyPosition] at hok
  set c := (if p.cash < pyRound 2 (sharesToBuy * price) then
      (pyRound 2 (p.cash / price), pyRound 2 (pyRound 2 (p.cash / price) * price))
    else (sharesToBuy, pyRound 2 (sharesToBuy * price))) with hc
  have hcq4 : Qdec 4 c.1 := by
    rw [hc]
    by_cases hcc : p.cash < pyRound 2 (sharesToBuy * price)
    · simp only [hcc, if_true]
      exact Qdec_two_four (Qdec_pyRound 2 _)
    · simp only [hcc, if_false]
      exact hq4
  clear_value c
  clear hc
  obtain ⟨s, a⟩ := c
  dsimp only at hok hcq4
  by_cases hpos : 0 < s
  · simp only [hpos, if_true] at hok
    rcases hget : alistGet ticker p.holdings with _ | h
    · rw [hget] at hok
      simp only [alistGet_alistSet_self] at hok
      exact Except.noConfusion hok
    · rw [hget] at hok
      simp only [hget] at hok
      rcases hisp : h.initialSharesPurchased with _ | isp
      · rw [hisp] at hok
        exact Except.noConfusion hok
      · rw [hisp] at hok
        simp only [] at hok
        rcases hsr : h.sharesRemaining with _ | sr
        · rw [hsr] at hok
          exact Except.noConfusion hok
        · rw [hsr] at hok
          simp only [] at hok
          injection hok with h1
          injection h1 with hp ht
          subst hp
          have hh := hinv (ticker, h) (alistGet_mem hget)
          intro th hth
          obtain ⟨t1, h1⟩ := th
          rcases mem_of_mem_alistSet hth with hth' | hth'
          · injection hth' with he1 he2
            subst he1
            subst he2
            constructor
            · intro l hl
              rcases List.mem_append.mp hl with hl' | hl'
              · exact hh.1 l hl'
              · simp only [List.mem_singleton] at hl'
                rw [hl']
                exact ⟨hcq4, le_of_lt hpos⟩
            · intro sr' hsr'
              simp only [Option.some.injEq] at hsr'
              rw [← hsr', lotsOpenSum_append, hh.2 sr hsr]
              norm_num
          · exact hinv (t1, h1) hth'
  · simp only [hpos, if_false] at hok
    injection hok with h1
    injection h1 with hp ht
    subst hp
    exact hinv

theorem sellPosition_preserves {p : PortfolioB} {ticker : String}
    {sharesToSell price : ℚ} {date : ℤ} {txns : List Txn}
    {p' : PortfolioB} {txns' : List Txn} {b : Bool}
    (hinv : InvB p) (hq4 : Qdec 4 sharesToSell)
    (hok : sellPosition p ticker sharesToSell price date txns = .ok (p', txns', b)) :
    InvB p' := by
  rcases hget : alistGet ticker p.holdings with _ | h
  · simp only [sellPosition, hget] at hok
    injection hok with h1
    injection h1 with hp ht
    subst hp
    exact hinv
  · have hh := hinv (ticker, h) (alistGet_mem hget)
    simp only [sellPosition, hget] at hok
    set st0 : SellSt :=
      { invs := h.investments, remaining := sharesToSell, txns := txns,
        gl := p.gainsLosses } with hst0
    set stf := (sellQueue price h.investments).foldl (sellStep ticker price date) st0
      with hstf
    have hst0invs : st0.invs = h.investments := rfl
    have hst0rem : st0.remaining = sharesToSell := rfl
    have hqwf : ∀ il ∈ sellQueue price h.investments,
        st0.invs[il.1]? = some il.2 ∧ il.2.sold = false := by
      intro il hil
      rw [hst0invs]
      exact sellQueue_mem hil
    have hqwf1 : ∀ il ∈ sellQueue price h.investments,
        st0.invs[il.1]? = some il.2 := fun il hil => (hqwf il hil).1
    have hqpos : ∀ il ∈ sellQueue price h.investments, 0 ≤ il.2.sharesRemaining := by
      intro il hil
      exact (hh.1 il.2 (List.getElem?_mem (hqwf1 il hil))).2
    have hq4s : ∀ il ∈ sellQueue price h.investments, Qdec 4 il.2.sharesRemaining := by
      intro il hil
      exact (hh.1 il.2 (List.getElem?_mem (hqwf1 il hil))).1
    have hcons := sellFold_conserve ticker price date (sellQueue price h.investments)
      st0 hqwf (sellQueue_fst_nodup price h.investments) hq4s
      (by rw [hst0rem]; exact hq4)
    rw [← hstf] at hcons
    have hflen := sellFold_invs_length ticker price date
      (sellQueue price h.investments) st0
    rw [← hstf] at hflen
    have hlotok : ∀ l' ∈ stf.invs, Qdec 4 l'.sharesRemaining ∧
        0 ≤ l'.sharesRemaining := by
      intro l' hl'
      obtain ⟨j, hj⟩ := List.mem_iff_getElem?.mp hl'
      have hjlt : j < h.investments.length := by
        obtain ⟨hlt, _⟩ := List.getElem?_eq_some.mp hj
        rw [hflen, hst0invs] at hlt
        exact hlt
      obtain ⟨l0, hl0⟩ : ∃ l0, st0.invs[j]? = some l0 := by
        rw [hst0invs]
        exact ⟨h.investments[j], List.getElem?_eq_some.mpr ⟨hjlt, rfl⟩⟩
      have hl0ok := hh.1 l0 (by rw [hst0invs] at hl0; exact List.getElem?_mem hl0)
      obtain ⟨l'', hl'', hl''ok⟩ := sellFold_lotok ticker price date
        (sellQueue price h.investments) st0 hqwf1
        (sellQueue_fst_nodup price h.investments) j l0 hl0 hl0ok.1 hl0ok.2
      rw [← hstf, hj] at hl''
      rw [Option.some.inj hl'']
      exact hl''ok
    have hsum : lotsOpenSum stf.invs =
        lotsOpenSum h.investments - (sharesToSell - stf.remaining) := by
      rw [hcons.1, hst0invs, hst0rem]
    by_cases hpos0 : 0 < sharesToSell - stf.remaining
    · simp only [hpos0, if_true] at hok
      rcases hsr : h.sharesRemaining with _ | sr
      · rw [hsr] at hok
        exact Except.noConfusion hok
      · rw [hsr] at hok
        simp only [] at hok
        injection hok with h1
        injection h1 with hp hrest
        subst hp
        intro th hth
        obtain ⟨t1, h1⟩ := th
        rcases mem_of_mem_alistSet hth with hth' | hth'
        · injection hth' with he1 he2
          subst he1
          subst he2
          constructor
          · intro l hl
            exact hlotok l hl
          · intro sr' hsr'
            simp only [Option.some.injEq] at hsr'
            rw [← hsr', hsum, hh.2 sr hsr]
        · exact hinv (t1, h1) hth'
    · simp only [hpos0, if_false] at hok
      injection hok with h1
      injection h1 with hp hrest
      subst hp
      have hzero : sharesToSell - stf.remaining = 0 := by
        by_cases hs : 0 ≤ sharesToSell
        · have hle := sellFold_remaining_le ticker price date
            (sellQueue price h.investments) st0 hqpos
          rw [← hstf, hst0rem] at hle
          have := not_lt.mp hpos0
          linarith
        · have hno : stf = st0 := by
            rw [hstf]
            exact sellFold_of_nonpos (by rw [hst0rem]; linarith [not_le.mp hs])
          rw [hno, hst0rem]
          ring
      intro th hth
      obtain ⟨t1, h1⟩ := th
      rcases mem_of_mem_alistSet hth with hth' | hth'
      · injection hth' with he1 he2
        subst he1
        subst he2
        constructor
        · intro l hl
          exact hlotok l hl
        · intro sr' hsr'
          rw [hh.2 sr' hsr', hsum, hzero]
          ring
      · exact hinv (t1, h1) hth'

/-- Whether `track_and_manage_positions` triggers a harvest sale of the lot:
the lot is open and its recomputed `return_pct` is at or below the trigger. -/
def harvTrig (price trig : ℚ) (inv : LotB) : Bool :=
  !inv.sold && decide (lotReturnPct price inv ≤ trig)

/-- The field refresh `track_and_manage_positions` applies to every open lot it
examines: holding days, current value of the remaining shares (rounded to 2
decimals), and the recomputed `return_pct`. -/
def harvUpd (price : ℚ) (dateOrd : ℤ) (inv : LotB) : LotB :=
  { inv with daysHeld := dateOrd - inv.date,
             currentValue := pyRound 2 (inv.sharesRemaining * price),
             returnPct := lotReturnPct price inv }

/-- The net effect of the lot loop of `track_and_manage_positions` on one lot:
sold lots are untouched, open triggered lots are refreshed and marked sold,
open untriggered lots are only refreshed. -/
def harvLot (price trig : ℚ) (dateOrd : ℤ) (inv : LotB) : LotB :=
  if inv.sold then inv
  else if lotReturnPct price inv ≤ trig then
    { harvUpd price dateOrd inv with sold := true }
  else harvUpd price dateOrd inv

/-- The net effect of the lot loop of `track_and_manage_positions` on a
holding's investments list. -/
def harvestLots (price trig : ℚ) (dateOrd : ℤ) (invs : List LotB) : List LotB :=
  invs.map (harvLot price trig dateOrd)

/-- The remaining-share counts of the lots the harvesting pass liquidates. -/
def harvTrigRems (price trig : ℚ) (invs : List LotB) : List ℚ :=
  (invs.filter (harvTrig price trig)).map (fun inv => inv.sharesRemaining)

/-- The cash the harvesting pass collects from one holding: each liquidated
lot contributes its remaining shares times the price, rounded to 2 decimals. -/
def harvProceeds (price trig : ℚ) (invs : List LotB) : ℚ :=
  ((invs.filter (harvTrig price trig)).map
    (fun inv => pyRound 2 (inv.sharesRemaining * price))).sum

/-- The evolution of the holding-level `shares_remaining` value across the
harvesting pass: one 4-decimal-rounded subtraction per liquidated lot. -/
def harvSr (price trig : ℚ) (invs : List LotB) (sr : ℚ) : ℚ :=
  (harvTrigRems price trig invs).foldl (fun s rem => pyRound 4 (s - rem)) sr

theorem harvestFold_error (t : String) (price trig : ℚ) (d : ℤ) :
    ∀ (q : List (ℕ × LotB)) (e : HarvSt),
      q.foldl (harvestStep t price trig d) (.error e) = .error e
  | [], _ => rfl
  | il :: q, e => by
    rw [List.foldl_cons]
    exact harvestFold_error t price trig d q e

theorem harvestFold_scalar (t : String) (price trig : ℚ) (d : ℤ) :
    ∀ (q : List (ℕ × LotB)) (st r : HarvSt),
      q.foldl (harvestStep t price trig d) (.ok st) = .ok r →
      r.cash = st.cash + ((q.filter (fun il => harvTrig price trig il.2)).map
        (fun il => pyRound 2 (il.2.sharesRemaining * price))).sum ∧
      r.tickerSold = (st.tickerSold || q.any (fun il => harvTrig price trig il.2)) ∧
      (∀ sr, st.srOpt = some sr → r.srOpt =
        some (((q.filter (fun il => harvTrig price trig il.2)).map
          (fun il => il.2.sharesRemaining)).foldl (fun s rem => pyRound 4 (s - rem)) sr)) ∧
      (st.srOpt = none → r.srOpt = none) ∧
      (∃ dt, r.txns = st.txns ++ dt) ∧ (∃ dg, r.gl = st.gl ++ dg)
  | [], st, r => by
    intro hok
    simp only [List.foldl_nil, Except.ok.injEq] at hok
    subst hok
    refine ⟨by simp, by simp, ?_, fun hn => hn, ⟨[], by simp⟩, ⟨[], by simp⟩⟩
    intro sr hsr
    simp [hsr]
  | il :: q, st, r => by
    intro hok
    rw [List.foldl_cons] at hok
    by_cases hsold : il.2.sold
    · have hstep : harvestStep t price trig d (.ok st) il = .ok st := by
        simp [harvestStep, hsold]
      rw [hstep] at hok
      have hrec := harvestFold_scalar t price trig d q st r hok
      have hfil : harvTrig price trig il.2 = false := by
        simp [harvTrig, hsold]
      simp only [List.filter_cons, hfil, List.any_cons, Bool.false_eq_true, if_false]
      exact hrec
    · by_cases htr : lotReturnPct price il.2 ≤ trig
      · have hfil : harvTrig price trig il.2 = true := by
          simp [harvTrig, hsold, htr]
        simp only [lotReturnPct] at htr
        rcases hsr0 : st.srOpt with _ | sr
        · have hstep : harvestStep t price trig d (.ok st) il =
              .error { st with
                invs := st.invs.set il.1
                  { harvUpd price d il.2 with sold := true } } := by
            simp only [harvestStep, hsold, Bool.false_eq_true, if_false, htr, if_true,
              hsr0]
            have hsf : il.2.sold = false := by simpa using hsold
            simp [harvUpd, lotReturnPct, hsf]
          rw [hstep, harvestFold_error] at hok
          exact Except.noConfusion hok
        · have hstep : harvestStep t price trig d (.ok st) il =
              .ok { invs := st.invs.set il.1 ({ harvUpd price d il.2 with sold := true }),
                    srOpt := some (pyRound 4 (sr - il.2.sharesRemaining)),
                    cash := st.cash + pyRound 2 (il.2.sharesRemaining * price),
                    txns := st.txns ++
                      [.sell d t il.2.sharesRemaining price
                        (pyRound 2 (il.2.sharesRemaining * price))
                        (pyRound 2 (il.2.sharesRemaining * price) -
                          il.2.cost * (il.2.sharesRemaining / il.2.initialSharesPurchased))
                        (lotReturnPct price il.2) (d - il.2.date)],
                    gl := st.gl ++
                      [(pyRound 2 (il.2.sharesRemaining * price) -
                          il.2.cost * (il.2.sharesRemaining / il.2.initialSharesPurchased),
                        d - il.2.date)],
                    tickerSold := true } := by
            simp only [harvestStep, hsold, Bool.false_eq_true, if_false, htr, if_true,
              hsr0]
            have hsf : il.2.sold = false := by simpa using hsold
            simp [harvUpd, lotReturnPct, hsf]
          rw [hstep] at hok
          have hrec := harvestFold_scalar t price trig d q _ r hok
          simp only [] at hrec
          refine ⟨?_, ?_, ?_, ?_, ?_, ?_⟩
          · rw [hrec.1]
            simp only [List.filter_cons, hfil, if_true, List.map_cons, List.sum_cons]
            ring
          · rw [hrec.2.1]
            simp [List.any_cons, hfil]
          · intro sr' hsr'
            have hsreq : sr = sr' := Option.some.inj hsr'
            subst hsreq
            have := hrec.2.2.1 (pyRound 4 (sr - il.2.sharesRemaining)) rfl
            rw [this]
            simp only [List.filter_cons, hfil, if_true, List.map_cons, List.foldl_cons]
          · intro hn
            exact Option.noConfusion hn
          · obtain ⟨dt, hdt⟩ := hrec.2.2.2.2.1
            exact ⟨_, hdt.trans (List.append_assoc _ _ _)⟩
          · obtain ⟨dg, hdg⟩ := hrec.2.2.2.2.2
            exact ⟨_, hdg.trans (List.append_assoc _ _ _)⟩
      · have hfil : harvTrig price trig il.2 = false := by
          simp [harvTrig, hsold, htr]
        simp only [lotReturnPct] at htr
        have hstep : harvestStep t price trig d (.ok st) il =
            .ok { st with invs := st.invs.set il.1 (harvUpd price d il.2) } := by
          simp only [harvestStep, hsold, Bool.false_eq_true, if_false, htr, if_false]
          have hsf : il.2.sold = false := by simpa using hsold
          simp [harvUpd, lotReturnPct, hsf]
        rw [hstep] at hok
        have hrec := harvestFold_scalar t price trig d q _ r hok
        simp only [] at hrec
        simp only [List.filter_cons, hfil, List.any_cons, Bool.false_eq_true, if_false]
        exact hrec

theorem harvestFold_invs (t : String) (price trig : ℚ) (d : ℤ) :
    ∀ (q : List (ℕ × LotB)) (st r : HarvSt),
      (∀ il ∈ q, st.invs[il.1]? = some il.2) → (q.map Prod.fst).Nodup →
      q.foldl (harvestStep t price trig d) (.ok st) = .ok r →
      (∀ il ∈ q, r.invs[il.1]? = some (harvLot price trig d il.2)) ∧
      (∀ j : ℕ, (∀ il ∈ q, il.1 ≠ j) → r.invs[j]? = st.invs[j]?) ∧
      r.invs.length = st.invs.length
  | [], st, r => by
    intro _ _ hok
    simp only [List.foldl_nil, Except.ok.injEq] at hok
    subst hok
    exact ⟨by simp, fun j _ => rfl, rfl⟩
  | il :: q, st, r => by
    intro hwf hnd hok
    have hhead := hwf il (List.mem_cons_self il q)
    have hlen : il.1 < st.invs.length := by
      obtain ⟨hlt, _⟩ := List.getElem?_eq_some.mp hhead
      exact hlt
    simp only [List.map_cons, List.nodup_cons] at hnd
    rw [List.foldl_cons] at hok
    by_cases hsold : il.2.sold
    · have hstep : harvestStep t price trig d (.ok st) il = .ok st := by
        simp [harvestStep, hsold]
      rw [hstep] at hok
      have hrec := harvestFold_invs t price trig d q st r
        (fun jl hjl => hwf jl (List.mem_cons_of_mem il hjl)) hnd.2 hok
      refine ⟨?_, ?_, hrec.2.2⟩
      · intro jl hjl
        rcases List.mem_cons.mp hjl with hjl' | hjl'
        · subst hjl'
          have huntouched := hrec.2.1 jl.1 (fun kl hkl => fun hc =>
            hnd.1 (by rw [← hc]; exact List.mem_map_of_mem Prod.fst hkl))
          rw [huntouched, hhead]
          simp [harvLot, hsold]
        · exact hrec.1 jl hjl'
      · intro j hj
        exact hrec.2.1 j (fun kl hkl => hj kl (List.mem_cons_of_mem il hkl))
    · by_cases htr : lotReturnPct price il.2 ≤ trig
      · have hlot : harvLot price trig d il.2 =
            { harvUpd price d il.2 with sold := true } := by
          simp [harvLot, hsold, htr]
        simp only [lotReturnPct] at htr
        rcases hsr0 : st.srOpt with _ | sr
        · have hstep : harvestStep t price trig d (.ok st) il =
              .error { st with
                invs := st.invs.set il.1
                  { harvUpd price d il.2 with sold := true } } := by
            simp only [harvestStep, hsold, Bool.false_eq_true, if_false, htr, if_true,
              hsr0]
            have hsf : il.2.sold = false := by simpa using hsold
            simp [harvUpd, lotReturnPct, hsf]
          rw [hstep, harvestFold_error] at hok
          exact Except.noConfusion hok
        · have hstep : harvestStep t price trig d (.ok st) il =
              .ok { invs := st.invs.set il.1 ({ harvUpd price d il.2 with sold := true }),
                    srOpt := some (pyRound 4 (sr - il.2.sharesRemaining)),
                    cash := st.cash + pyRound 2 (il.2.sharesRemaining * price),
                    txns := st.txns ++
                      [.sell d t il.2.sharesRemaining price
                        (pyRound 2 (il.2.sharesRemaining * price))
                        (pyRound 2 (il.2.sharesRemaining * price) -
                          il.2.cost *
                            (il.2.sharesRemaining / il.2.initialSharesPurchased))
                        (lotReturnPct price il.2) (d - il.2.date)],
                    gl := st.gl ++
                      [(pyRound 2 (il.2.sharesRemaining * price) -
                          il.2.cost *
                            (il.2.sharesRemaining / il.2.initialSharesPurchased),
                        d - il.2.date)],
                    tickerSold := true } := by
            simp only [harvestStep, hsold, Bool.false_eq_true, if_false, htr, if_true,
              hsr0]
            have hsf : il.2.sold = false := by simpa using hsold
            simp [harvUpd, lotReturnPct, hsf]
          rw [hstep] at hok
          have htail : ∀ jl ∈ q,
              (st.invs.set il.1 { harvUpd price d il.2 with sold := true })[jl.1]? =
                some jl.2 := by
            intro jl hjl
            have hne : jl.1 ≠ il.1 := fun hcontra =>
              hnd.1 (by rw [← hcontra]; exact List.mem_map_of_mem Prod.fst hjl)
            rw [List.getElem?_set_ne (Ne.symm hne)]
            exact hwf jl (List.mem_cons_of_mem il hjl)
          have hrec := harvestFold_invs t price trig d q _ r htail hnd.2 hok
          simp only [] at hrec
          refine ⟨?_, ?_, ?_⟩
          · intro jl hjl
            rcases List.mem_cons.mp hjl with hjl' | hjl'
            · subst hjl'
              have huntouched := hrec.2.1 jl.1 (fun kl hkl => fun hc =>
                hnd.1 (by rw [← hc]; exact List.mem_map_of_mem Prod.fst hkl))
              rw [huntouched, List.getElem?_set_self hlen, hlot]
            · exact hrec.1 jl hjl'
          · intro j hj
            rw [hrec.2.1 j (fun kl hkl => hj kl (List.mem_cons_of_mem il hkl)),
              List.getElem?_set_ne (fun hc => hj il (List.mem_cons_self il q) hc)]
          · rw [hrec.2.2, List.length_set]
      · have hlot : harvLot price trig d il.2 = harvUpd price d il.2 := by
          simp [harvLot, hsold, htr]
        simp only [lotReturnPct] at htr
        have hstep : harvestStep t price trig d (.ok st) il =
            .ok { st with invs := st.invs.set il.1 (harvUpd price d il.2) } := by
          simp only [harvestStep, hsold, Bool.false_eq_true, if_false, htr, if_false]
          have hsf : il.2.sold = false := by simpa using hsold
          simp [harvUpd, lotReturnPct, hsf]
        rw [hstep] at hok
        have htail : ∀ jl ∈ q,
            (st.invs.set il.1 (harvUpd price d il.2))[jl.1]? = some jl.2 := by
          intro jl hjl
          have hne : jl.1 ≠ il.1 := fun hcontra =>
            hnd.1 (by rw [← hcontra]; exact List.mem_map_of_mem Prod.fst hjl)
          rw [List.getElem?_set_ne (Ne.symm hne)]
          exact hwf jl (List.mem_cons_of_mem il hjl)
        have hrec := harvestFold_invs t price trig d q _ r htail hnd.2 hok
        simp only [] at hrec
        refine ⟨?_, ?_, ?_⟩
        · intro jl hjl
          rcases List.mem_cons.mp hjl with hjl' | hjl'
          · subst hjl'
            have huntouched := hrec.2.1 jl.1 (fun kl hkl => fun hc =>
              hnd.1 (by rw [← hc]; exact List.mem_map_of_mem Prod.fst hkl))
            rw [huntouched, List.getElem?_set_self hlen, hlot]
          · exact hrec.1 jl hjl'
        · intro j hj
          rw [hrec.2.1 j (fun kl hkl => hj kl (List.mem_cons_of_mem il hkl)),
            List.getElem?_set_ne (fun hc => hj il (List.mem_cons_self il q) hc)]
        · rw [hrec.2.2, List.length_set]

theorem enum_harv_filter_map {γ : Type} (f : LotB → γ) (p : LotB → Bool)
    (invs : List LotB) :
    (invs.enum.filter (fun il => p il.2)).map (fun il => f il.2) =
      (invs.filter p).map f := by
  have h := enum_filter_map_snd p invs
  rw [← h, List.map_map]
  rfl

theorem enum_harv_any (p : LotB → Bool) (invs : List LotB) :
    invs.enum.any (fun il => p il.2) = invs.any p := by
  induction invs with
  | nil => rfl
  | cons a rest ih =>
    rw [List.any_cons]
    rw [← ih]
    show (List.enumFrom 0 (a :: rest)).any (fun il => p il.2) = _
    rw [List.enumFrom_cons, List.any_cons]
    congr 1
    show (List.enumFrom 1 rest).any (fun il => p il.2) =
      (List.enumFrom 0 rest).any (fun il => p il.2)
    have key : ∀ (n m : ℕ) (l : List LotB),
        (List.enumFrom n l).any (fun il => p il.2) =
          (List.enumFrom m l).any (fun il => p il.2) := by
      intro n m l
      induction l generalizing n m with
      | nil => rfl
      | cons b bs ihl =>
        rw [List.enumFrom_cons, List.enumFrom_cons, List.any_cons, List.any_cons,
          ihl (n + 1) (m + 1)]
    exact key 1 0 rest

/-- The per-holding effect of `track_and_manage_positions`: a holding with no
price on the date is untouched; otherwise its lots are refreshed, triggered
lots are marked sold, and (when present) the holding-level `shares_remaining`
shrinks by one rounded subtraction per liquidated lot. -/
def harvHolding (priceRow : List (String × ℚ)) (trig : ℚ) (d : ℤ)
    (th : String × HoldingB) : HoldingB :=
  match alistGet th.1 priceRow with
  | none => th.2
  | some pr =>
      { th.2 with investments := harvestLots pr trig d th.2.investments,
                  sharesRemaining := th.2.sharesRemaining.map
                    (harvSr pr trig th.2.investments) }

/-- The cash one holding contributes during `track_and_manage_positions`. -/
def harvCash (priceRow : List (String × ℚ)) (trig : ℚ)
    (th : String × HoldingB) : ℚ :=
  match alistGet th.1 priceRow with
  | some pr => harvProceeds pr trig th.2.investments
  | none => 0

/-- Whether a holding's ticker is appended to the `sold_tickers` list of
`track_and_manage_positions`. -/
def harvSoldTicker (priceRow : List (String × ℚ)) (trig : ℚ)
    (th : String × HoldingB) : Option String :=
  match alistGet th.1 priceRow with
  | some pr =>
      if th.2.investments.any (harvTrig pr trig) then some th.1 else none
  | none => none

theorem harvestFold_holding {pr trig : ℚ} {t : String} {d : ℤ} {h : HoldingB}
    {cash : ℚ} {txns : List Txn} {gl : List (ℚ × ℤ)} {r : HarvSt}
    (hok : h.investments.enum.foldl (harvestStep t pr trig d)
      (.ok { invs := h.investments, srOpt := h.sharesRemaining, cash := cash,
             txns := txns, gl := gl, tickerSold := false }) = .ok r) :
    r.invs = harvestLots pr trig d h.investments ∧
    r.srOpt = h.sharesRemaining.map (harvSr pr trig h.investments) ∧
    r.cash = cash + harvProceeds pr trig h.investments ∧
    r.tickerSold = h.investments.any (harvTrig pr trig) ∧
    (∃ dt, r.txns = txns ++ dt) := by
  have hwf : ∀ il ∈ h.investments.enum,
      ({ invs := h.investments, srOpt := h.sharesRemaining, cash := cash,
         txns := txns, gl := gl, tickerSold := false } : HarvSt).invs[il.1]? =
        some il.2 := by
    intro il hil
    exact List.mem_enum_iff_getElem?.mp hil
  have hnd : (h.investments.enum.map Prod.fst).Nodup := by
    rw [List.enum_map_fst]
    exact List.nodup_range _
  have hinvs := harvestFold_invs t pr trig d h.investments.enum _ r hwf hnd hok
  have hscalar := harvestFold_scalar t pr trig d h.investments.enum _ r hok
  simp only [] at hinvs hscalar
  refine ⟨?_, ?_, ?_, ?_, hscalar.2.2.2.2.1⟩
  · refine List.ext_getElem? ?_
    intro i
    by_cases hi : i < h.investments.length
    · have hmem : (i, h.investments[i]) ∈ h.investments.enum :=
        List.mem_enum_iff_getElem?.mpr (List.getElem?_eq_some.mpr ⟨hi, rfl⟩)
      have := hinvs.1 (i, h.investments[i]) hmem
      rw [this]
      rw [harvestLots, List.getElem?_map,
        List.getElem?_eq_some.mpr ⟨hi, rfl⟩]
      rfl
    · have h1 : r.invs.length ≤ i := by
        rw [hinvs.2.2]
        omega
      rw [List.getElem?_eq_none h1,
        List.getElem?_eq_none (by rw [harvestLots, List.length_map]; omega)]
  · rcases hsr0 : h.sharesRemaining with _ | sr
    · have hn := hscalar.2.2.2.1 hsr0
      rw [hn]
      rfl
    · have hsome := hscalar.2.2.1 sr hsr0
      rw [hsome]
      show some _ = some (harvSr pr trig h.investments sr)
      congr 1
      rw [harvSr, harvTrigRems, ← enum_harv_filter_map
        (fun inv => inv.sharesRemaining) (harvTrig pr trig) h.investments]
  · rw [hscalar.1]
    show cash + _ = cash + harvProceeds pr trig h.investments
    rw [harvProceeds, ← enum_harv_filter_map
      (fun inv => pyRound 2 (inv.sharesRemaining * pr)) (harvTrig pr trig)
      h.investments]
  · rw [hscalar.2.1]
    show (false || _) = _
    rw [Bool.false_or, ← enum_harv_any (harvTrig pr trig) h.investments]

theorem tamGo_ok_char (priceRow : List (String × ℚ)) (d : ℤ) (trig : ℚ) :
    ∀ (hs done : List (String × HoldingB)) (cash : ℚ) (txns : List Txn)
      (gl : List (ℚ × ℤ)) (sold : List String)
      (out : List (String × HoldingB) × ℚ × List Txn × List (ℚ × ℤ) × List String),
      tamGo priceRow d trig hs (done, cash, txns, gl, sold) = .ok out →
      out.1 = done ++ hs.map (fun th => (th.1, harvHolding priceRow trig d th)) ∧
      out.2.1 = cash + (hs.map (harvCash priceRow trig)).sum ∧
      (∃ dt, out.2.2.1 = txns ++ dt) ∧
      out.2.2.2.2 = sold ++ hs.filterMap (harvSoldTicker priceRow trig)
  | [], done, cash, txns, gl, sold, out => by
    intro hok
    simp only [tamGo, Except.ok.injEq] at hok
    subst hok
    exact ⟨by simp, by simp, ⟨[], by simp⟩, by simp⟩
  | (t, h) :: rest, done, cash, txns, gl, sold, out => by
    intro hok
    rcases hpr : alistGet t priceRow with _ | pr
    · rw [tamGo, hpr] at hok
      have hrec := tamGo_ok_char priceRow d trig rest (done ++ [(t, h)]) cash txns gl
        sold out hok
      have hhead : harvHolding priceRow trig d (t, h) = h := by
        simp [harvHolding, hpr]
      refine ⟨?_, ?_, hrec.2.2.1, ?_⟩
      · rw [hrec.1, List.map_cons, hhead]
        simp
      · rw [hrec.2.1]
        have : harvCash priceRow trig (t, h) = 0 := by
          simp [harvCash, hpr]
        rw [List.map_cons, List.sum_cons, this]
        ring
      · rw [hrec.2.2.2, List.filterMap_cons]
        have : harvSoldTicker priceRow trig (t, h) = none := by
          simp [harvSoldTicker, hpr]
        rw [this]
    · rw [tamGo, hpr] at hok
      rcases hfold : h.investments.enum.foldl (harvestStep t pr trig d)
          (.ok { invs := h.investments, srOpt := h.sharesRemaining, cash := cash,
                 txns := txns, gl := gl, tickerSold := false }) with r | r
      · simp only [hfold] at hok
        exact Except.noConfusion hok
      · simp only [hfold] at hok
        have hh := harvestFold_holding hfold
        have hrec := tamGo_ok_char priceRow d trig rest
          (done ++ [(t, { h with investments := r.invs, sharesRemaining := r.srOpt })])
          r.cash r.txns r.gl (sold ++ if r.tickerSold then [t] else []) out hok
        have hX : ({ h with
                investments := r.invs,
                sharesRemaining := r.srOpt } : HoldingB) =
            harvHolding priceRow trig d (t, h) := by
          simp only [harvHolding, hpr]
          rw [hh.1, hh.2.1]
        refine ⟨?_, ?_, ?_, ?_⟩
        · rw [hrec.1, List.map_cons, ← hX]
          simp
        · rw [hrec.2.1, hh.2.2.1, List.map_cons, List.sum_cons]
          have : harvCash priceRow trig (t, h) = harvProceeds pr trig h.investments := by
            simp [harvCash, hpr]
          rw [this]
          ring
        · obtain ⟨dt, hdt⟩ := hrec.2.2.1
          obtain ⟨dt0, hdt0⟩ := hh.2.2.2.2
          exact ⟨dt0 ++ dt, by rw [hdt, hdt0, List.append_assoc]⟩
        · rw [hrec.2.2.2, List.filterMap_cons]
          have : harvSoldTicker priceRow trig (t, h) =
              if h.investments.any (harvTrig pr trig) then some t else none := by
            simp [harvSoldTicker, hpr]
          rw [this, ← hh.2.2.2.1]
          by_cases hts : r.tickerSold
          · simp [hts]
          · simp [hts]

theorem trackAndManagePositions_char {p : PortfolioB} {priceRow : List (String × ℚ)}
    {d : ℤ} {txns : List Txn} {trig : ℚ} {p' : PortfolioB} {txns' : List Txn}
    {sold' : List String}
    (hok : trackAndManagePositions p priceRow d txns trig = .ok (p', txns', sold')) :
    p'.holdings = p.holdings.map (fun th => (th.1, harvHolding priceRow trig d th)) ∧
    p'.cash = p.cash + (p.holdings.map (harvCash priceRow trig)).sum ∧
    (∃ dt, txns' = txns ++ dt) ∧
    sold' = p.holdings.filterMap (harvSoldTicker priceRow trig) := by
  rw [trackAndManagePositions] at hok
  rcases htg : tamGo priceRow d trig p.holdings ([], p.cash, txns, p.gainsLosses, [])
    with e | out
  · simp only [htg] at hok
    exact Except.noConfusion hok
  · simp only [htg] at hok
    have hchar := tamGo_ok_char priceRow d trig p.holdings [] p.cash txns
      p.gainsLosses [] out htg
    obtain ⟨hs5, cash5, txns5, gl5, sold5⟩ := out
    simp only [] at hchar hok
    simp only [Except.ok.injEq, Prod.mk.injEq] at hok
    obtain ⟨hp, ht, hs⟩ := hok
    subst hp
    subst ht
    subst hs
    refine ⟨?_, ?_, ?_, ?_⟩
    · simpa using hchar.1
    · simpa using hchar.2.1
    · exact hchar.2.2.1
    · simpa using hchar.2.2.2

theorem harvLot_rem (pr trig : ℚ) (d : ℤ) (l : LotB) :
    (harvLot pr trig d l).sharesRemaining = l.sharesRemaining := by
  simp only [harvLot, harvUpd]
  split_ifs <;> rfl

theorem harvLot_sold (pr trig : ℚ) (d : ℤ) (l : LotB) :
    (harvLot pr trig d l).sold = (l.sold || harvTrig pr trig l) := by
  simp only [harvLot, harvUpd, harvTrig]
  split_ifs with h1 h2
  · simp [h1]
  · simp [h1, h2]
  · simp [h1, h2]

theorem harvTrigRems_cons (pr trig : ℚ) (l : LotB) (invs : List LotB) :
    harvTrigRems pr trig (l :: invs) =
      if harvTrig pr trig l then l.sharesRemaining :: harvTrigRems pr trig invs
      else harvTrigRems pr trig invs := by
  rw [harvTrigRems, List.filter_cons]
  by_cases h : harvTrig pr trig l
  · simp [h, harvTrigRems]
  · simp [h, harvTrigRems]

theorem lotsOpenSum_harvestLots (pr trig : ℚ) (d : ℤ) (invs : List LotB) :
    lotsOpenSum (harvestLots pr trig d invs) =
      lotsOpenSum invs - (harvTrigRems pr trig invs).sum := by
  induction invs with
  | nil => simp [harvestLots, harvTrigRems, lotsOpenSum_nil]
  | cons l invs ih =>
    rw [harvestLots, List.map_cons, lotsOpenSum_cons, lotsOpenSum_cons,
      harvTrigRems_cons]
    rw [show (List.map (harvLot pr trig d) invs) = harvestLots pr trig d invs from rfl]
    rw [ih, harvLot_rem, harvLot_sold]
    by_cases hs : l.sold
    · have htg : harvTrig pr trig l = false := by simp [harvTrig, hs]
      simp only [hs, htg, Bool.true_or, Bool.false_eq_true, if_false]
      ring
    · have hsf : l.sold = false := by simpa using hs
      by_cases htg : harvTrig pr trig l
      · simp only [hsf, htg, Bool.false_or, if_true, List.sum_cons]
        norm_num
      · have htgf : harvTrig pr trig l = false := by simpa using htg
        simp only [hsf, htgf, Bool.false_or, Bool.false_eq_true, if_false]
        ring

theorem Qdec_list_sum {n : ℕ} {l : List ℚ} (h : ∀ x ∈ l, Qdec n x) :
    Qdec n l.sum := by
  induction l with
  | nil => simpa using Qdec.zero n
  | cons x xs ih =>
    rw [List.sum_cons]
    exact Qdec.add (h x (List.mem_cons_self x xs))
      (ih (fun y hy => h y (List.mem_cons_of_mem x hy)))

theorem foldl_pyRound_sub : ∀ {rems : List ℚ} {sr : ℚ}, Qdec 4 sr →
    (∀ r ∈ rems, Qdec 4 r) →
    rems.foldl (fun s rem => pyRound 4 (s - rem)) sr = sr - rems.sum
  | [], sr => by
    intro _ _
    simp
  | r :: rems, sr => by
    intro h4 hall
    rw [List.foldl_cons, List.sum_cons]
    have hr4 := hall r (List.mem_cons_self r rems)
    rw [pyRound_eq_self (Qdec.sub h4 hr4)]
    rw [foldl_pyRound_sub (Qdec.sub h4 hr4)
      (fun y hy => hall y (List.mem_cons_of_mem r hy))]
    ring

theorem tamPositions_preserves {p : PortfolioB} {priceRow : List (String × ℚ)}
    {d : ℤ} {txns : List Txn} {trig : ℚ} {p' : PortfolioB} {txns' : List Txn}
    {sold' : List String} (hinv : InvB p)
    (hok : trackAndManagePositions p priceRow d txns trig = .ok (p', txns', sold')) :
    InvB p' := by
  obtain ⟨hholds, _, _, _⟩ := trackAndManagePositions_char hok
  intro th hth
  rw [hholds] at hth
  obtain ⟨th0, hth0, heq⟩ := List.mem_map.mp hth
  have hok0 := hinv th0 hth0
  rw [← heq]
  show HoldOK (harvHolding priceRow trig d th0)
  rcases hpr : alistGet th0.1 priceRow with _ | pr
  · simp only [harvHolding, hpr]
    exact hok0
  · simp only [harvHolding, hpr]
    constructor
    · intro l hl
      obtain ⟨l0, hl0, hleq⟩ := List.mem_map.mp hl
      rw [← hleq]
      constructor
      · rw [show (harvLot pr trig d l0).sharesRemaining = l0.sharesRemaining from
          harvLot_rem pr trig d l0]
        exact (hok0.1 l0 hl0).1
      · rw [show (harvLot pr trig d l0).sharesRemaining = l0.sharesRemaining from
          harvLot_rem pr trig d l0]
        exact (hok0.1 l0 hl0).2
    · intro sr hsr
      rcases hsr0 : th0.2.sharesRemaining with _ | sr0
      · rw [hsr0] at hsr
        exact Option.noConfusion hsr
      · rw [hsr0] at hsr
        simp only [Option.map_some'] at hsr
        have hsrv := hok0.2 sr0 hsr0
        have hq4rems : ∀ x ∈ harvTrigRems pr trig th0.2.investments, Qdec 4 x := by
          intro x hx
          obtain ⟨l0, hl0, hlx⟩ := List.mem_map.mp hx
          rw [← hlx]
          exact (hok0.1 l0 (List.mem_of_mem_filter hl0)).1
        have hq4sr : Qdec 4 sr0 := by
          rw [hsrv, lotsOpenSum]
          apply Qdec_list_sum
          intro x hx
          obtain ⟨l0, hl0, hlx⟩ := List.mem_map.mp hx
          rw [← hlx]
          exact (hok0.1 l0 (List.mem_of_mem_filter hl0)).1
        have hsr' : sr = harvSr pr trig th0.2.investments sr0 :=
          (Option.some.inj hsr).symm
        rw [hsr']
        show harvSr pr trig th0.2.investments sr0 =
          lotsOpenSum (harvestLots pr trig d th0.2.investments)
        rw [harvSr, foldl_pyRound_sub hq4sr hq4rems, lotsOpenSum_harvestLots, hsrv]

/-- Claim C3: after each buy, sell, harvest and rebalance operation the
holding-level share total equals the sum of `shares_remaining` (resp. `shares`)
over the non-sold lots.  For the newer-generation functions (`buy_position`,
`sell_position`, `track_and_manage_positions`) the invariant `InvB` — the
holding's `shares_remaining`, when the key is present, equals the open-lot sum,
with non-negative 4-decimal lot quantities as the engine's 2-decimal share
rounding guarantees — is preserved by every successful call (`Qdec 4` on the
traded share count); for the `Portfolio`-class methods (`buy_position`,
`sell_position`, `perform_rebalance`) the corresponding invariant `InvA` is
preserved unconditionally. -/
theorem claim_C3 :
    (∀ (p : PortfolioB) (ticker : String) (s price : ℚ) (date : ℤ)
       (txns : List Txn) (p' : PortfolioB) (txns' : List Txn),
       InvB p → Qdec 4 s →
       buyPosition p ticker s price date txns = .ok (p', txns') → InvB p') ∧
    (∀ (p : PortfolioB) (ticker : String) (s price : ℚ) (date : ℤ)
       (txns : List Txn) (p' : PortfolioB) (txns' : List Txn) (b : Bool),
       InvB p → Qdec 4 s →
       sellPosition p ticker s price date txns = .ok (p', txns', b) → InvB p') ∧
    (∀ (p : PortfolioB) (priceRow : List (String × ℚ)) (d : ℤ) (txns : List Txn)
       (trig : ℚ) (p' : PortfolioB) (txns' : List Txn) (sold' : List String),
       InvB p →
       trackAndManagePositions p priceRow d txns trig = .ok (p', txns', sold') →
       InvB p') ∧
    (∀ (p : PortfolioA) (ticker : String) (s price : ℚ) (date : ℤ)
       (txns : List Txn), InvA p →
       InvA (buyPositionA p ticker s price date txns).1 ∧
       InvA (sellPositionA p ticker s price date txns).1) ∧
    (∀ (p : PortfolioA) (priceRow : List (String × ℚ)) (date : ℤ)
       (txns : List Txn) (ex : List String), InvA p →
       InvA (performRebalance p priceRow date txns ex).1) :=
  ⟨fun _ _ _ _ _ _ _ _ hinv hq hok => buyPosition_preserves hinv hq hok,
   fun _ _ _ _ _ _ _ _ _ hinv hq hok => sellPosition_preserves hinv hq hok,
   fun _ _ _ _ _ _ _ _ hinv hok => tamPositions_preserves hinv hok,
   fun _ t s price d txns hinv =>
     ⟨buyPositionA_preserves t s price d txns hinv,
      sellPositionA_preserves t s price d txns hinv⟩,
   fun p pr d txns ex hinv => performRebalance_preserves p pr d txns ex hinv⟩

/-- The single open 2-share lot of claim C3's witness portfolio. -/
def lC3w : LotB :=
  { date := 0, initialSharesPurchased := 2, sharesRemaining := 2, price := 10,
    cost := 20, currentValue := 20, returnPct := 0, daysHeld := 0, sold := false }

/-- Claim C3's witness portfolio: one holding satisfying the invariant. -/
def pC3w : PortfolioB :=
  { cash := 100,
    holdings := [("A",
      { initialSharesPurchased := some 2, sharesRemaining := some 2,
        costBasis := 10, investments := [lC3w] })] }

/-- The lot the witness buy appends. -/
def lC3wNew : LotB :=
  { date := 1, initialSharesPurchased := 1, sharesRemaining := 1, price := 10,
    cost := 10, currentValue := 10, returnPct := 0, daysHeld := 0, sold := false }

/-- The state after claim C3's witness buy. -/
def pC3wRes : PortfolioB :=
  { cash := 90,
    holdings := [("A",
      { initialSharesPurchased := some 3, sharesRemaining := some 3,
        costBasis := 10, investments := [lC3w, lC3wNew] })] }

theorem claim_C3_witness :
    InvB pC3w ∧ Qdec 4 (1 : ℚ) ∧
    buyPosition pC3w "A" 1 10 1 [] = .ok (pC3wRes, [.buy 1 "A" 1 10 10]) ∧
    InvB pC3wRes := by
  have h1 : InvB pC3w := by
    intro th hth
    simp only [pC3w, List.mem_singleton] at hth
    subst hth
    constructor
    · intro l hl
      simp only [List.mem_singleton] at hl
      subst hl
      exact ⟨⟨20000, by norm_num [lC3w]⟩, by norm_num [lC3w]⟩
    · intro sr hsr
      simp only [Option.some.injEq] at hsr
      rw [← hsr]
      norm_num [lotsOpenSum, lC3w]
  have h2 : Qdec 4 (1 : ℚ) := ⟨10000, by norm_num⟩
  have h3 : buyPosition pC3w "A" 1 10 1 [] = .ok (pC3wRes, [.buy 1 "A" 1 10 10]) := by
    norm_num [buyPosition, pyRound, roundHalfEven, alistGet, alistSet, pC3w, lC3w,
      pC3wRes, lC3wNew, Int.floor_eq_iff]
  exact ⟨h1, h2, h3, claim_C3.1 pC3w "A" 1 10 1 [] pC3wRes [.buy 1 "A" 1 10 10]
    h1 h2 h3⟩

/-- The tiny lot of claim C6's counterexample: 0.03 shares remaining, bought
for $10. -/
def lC6 : LotB :=
  { date := 0, initialSharesPurchased := 3/100, sharesRemaining := 3/100,
    price := 1000/3, cost := 10, currentValue := 10, returnPct := 0,
    daysHeld := 0, sold := false }

/-- Claim C6's counterexample portfolio. -/
def pC6 : PortfolioB :=
  { cash := 1,
    holdings := [("A",
      { initialSharesPurchased := some (3/100), sharesRemaining := some (3/100),
        costBasis := 10, investments := [lC6] })] }

/-- The state after the counterexample harvesting pass: the lot is refreshed
(value $0.00, return −100%) and marked sold, `shares_remaining` is zeroed, the
ledger records the −$10 loss — but the cash is untouched. -/
def pC6r : PortfolioB :=
  { cash := 1,
    holdings := [("A",
      { initialSharesPurchased := some (3/100), sharesRemaining := some 0,
        costBasis := 10,
        investments := [{ date := 0, initialSharesPurchased := 3/100,
                          sharesRemaining := 3/100, price := 1000/3, cost := 10,
                          currentValue := 0, returnPct := -100, daysHeld := 5,
                          sold := true }] })],
    gainsLosses := [(-10, 5)] }

/-- Claim C6 counterexample: at price $0.10 the 0.03-share lot shows
`return_pct = -100 ≤ -10` and is liquidated — `sold` is set, the symbol is
reported — but the cash increases by `round(0.03 * 0.10, 2) = 0`, not by
`shares_remaining × price = 0.003`: liquidation does not make cash grow by the
remaining shares times the price. -/
theorem claim_C6_counterexample :
    trackAndManagePositions pC6 [("A", 1/10)] 5 [] (-10) =
      .ok (pC6r, [.sell 5 "A" (3/100) (1/10) 0 (-10) (-100) 5], ["A"]) ∧
    pC6r.cash = pC6.cash ∧
    (3/100 : ℚ) * (1/10) ≠ 0 := by
  refine ⟨?_, rfl, by norm_num⟩
  norm_num [trackAndManagePositions, tamGo, harvestStep, alistGet, pC6, lC6, pC6r,
    pyRound, roundHalfEven, Int.floor_eq_iff, List.enum, List.enumFrom]

/-- Claim C6 (amended): in a successful harvesting pass the holdings are
rewritten per-lot by `harvLot` (every open lot's `return_pct` is recomputed as
the 2-decimal-rounded percentage of its 2-decimal-rounded current value against
its cost prorated by `shares_remaining / initial_shares_purchased`), the cash
grows by the *rounded* proceeds `round(shares_remaining × price, 2)` of each
triggered lot (`harvCash`), the sold-symbols list is exactly the holdings with
a priced, triggered open lot (`harvSoldTicker`), and every open lot with
`return_pct ≤ sell_trigger` is marked sold with its symbol reported. -/
theorem claim_C6_amended :
    ∀ (p : PortfolioB) (priceRow : List (String × ℚ)) (d : ℤ) (txns : List Txn)
      (trig : ℚ) (p' : PortfolioB) (txns' : List Txn) (sold' : List String),
      trackAndManagePositions p priceRow d txns trig = .ok (p', txns', sold') →
      p'.holdings = p.holdings.map (fun th => (th.1, harvHolding priceRow trig d th)) ∧
      p'.cash = p.cash + (p.holdings.map (harvCash priceRow trig)).sum ∧
      sold' = p.holdings.filterMap (harvSoldTicker priceRow trig) ∧
      (∀ th ∈ p.holdings, ∀ pr, alistGet th.1 priceRow = some pr →
        ∀ l ∈ th.2.investments, l.sold = false → lotReturnPct pr l ≤ trig →
          (harvLot pr trig d l).sold = true ∧
          (harvLot pr trig d l).returnPct = lotReturnPct pr l ∧
          (harvLot pr trig d l).sharesRemaining = l.sharesRemaining ∧
          th.1 ∈ sold') := by
  intro p priceRow d txns trig p' txns' sold' hok
  obtain ⟨hh, hc, _, hs⟩ := trackAndManagePositions_char hok
  refine ⟨hh, hc, hs, ?_⟩
  intro th hth pr hpr l hl hlopen htrig
  have htrigB : harvTrig pr trig l = true := by
    simp [harvTrig, hlopen, htrig]
  refine ⟨?_, ?_, harvLot_rem pr trig d l, ?_⟩
  · rw [harvLot_sold, hlopen, htrigB]
    rfl
  · simp [harvLot, harvUpd, hlopen, htrig]
  · rw [hs]
    refine List.mem_filterMap.mpr ⟨th, hth, ?_⟩
    simp only [harvSoldTicker, hpr]
    rw [if_pos]
    exact List.any_eq_true.mpr ⟨l, hl, htrigB⟩

/-- The loss lot of claim C6's witness: 1 share bought for $100. -/
def lC6w : LotB :=
  { date := 0, initialSharesPurchased := 1, sharesRemaining := 1, price := 100,
    cost := 100, currentValue := 100, returnPct := 0, daysHeld := 0,
    sold := false }

/-- The witness holding of claim C6. -/
def hC6w : HoldingB :=
  { initialSharesPurchased := some 1, sharesRemaining := some 1,
    costBasis := 100, investments := [lC6w] }

/-- Claim C6's witness portfolio. -/
def pC6w : PortfolioB :=
  { cash := 0, holdings := [("A", hC6w)] }

/-- The state after claim C6's witness pass: the −50% lot is liquidated at $50,
the cash becomes $50 and `shares_remaining` drops to 0. -/
def pC6wRes : PortfolioB :=
  { cash := 50,
    holdings := [("A",
      { initialSharesPurchased := some 1, sharesRemaining := some 0,
        costBasis := 100,
        investments := [{ date := 0, initialSharesPurchased := 1,
                          sharesRemaining := 1, price := 100, cost := 100,
                          currentValue := 50, returnPct := -50, daysHeld := 3,
                          sold := true }] })],
    gainsLosses := [(-50, 3)] }

theorem claim_C6_amended_witness :
    trackAndManagePositions pC6w [("A", 50)] 3 [] (-10) =
      .ok (pC6wRes, [.sell 3 "A" 1 50 50 (-50) (-50) 3], ["A"]) ∧
    lC6w.sold = false ∧ lotReturnPct 50 lC6w ≤ -10 ∧
    (harvLot 50 (-10) 3 lC6w).sold = true ∧
    "A" ∈ (["A"] : List String) := by
  have hrun : trackAndManagePositions pC6w [("A", 50)] 3 [] (-10) =
      .ok (pC6wRes, [.sell 3 "A" 1 50 50 (-50) (-50) 3], ["A"]) := by
    norm_num [trackAndManagePositions, tamGo, harvestStep, alistGet, pC6w, hC6w,
      lC6w, pC6wRes, pyRound, roundHalfEven, Int.floor_eq_iff, List.enum,
      List.enumFrom]
  have hopen : lC6w.sold = false := rfl
  have hret : lotReturnPct 50 lC6w ≤ -10 := by
    norm_num [lotReturnPct, lC6w, pyRound, roundHalfEven, Int.floor_eq_iff]
  have hmem : ("A", hC6w) ∈ pC6w.holdings := by
    simp [pC6w]
  have h := claim_C6_amended pC6w [("A", 50)] 3 [] (-10) pC6wRes
    [.sell 3 "A" 1 50 50 (-50) (-50) 3] ["A"] hrun
  have h4 := h.2.2.2 _ hmem 50 (by simp [alistGet]) lC6w (by simp [hC6w]) hopen hret
  exact ⟨hrun, hopen, hret, h4.1, h4.2.2.2⟩

theorem buyPositionA_txns (p : PortfolioA) (ticker : String) (s price : ℚ)
    (date : ℤ) (txns : List Txn) :
    ∃ Δ, (buyPositionA p ticker s price date txns).2 = txns ++ Δ ∧
      ∀ tx ∈ Δ, ∃ s0 a0, tx = .buy date ticker s0 price a0 := by
  simp only [buyPositionA]
  set c := (if p.cash < s * price then
      (pyRound 2 (p.cash / price), pyRound 2 (p.cash / price) * price)
    else (s, s * price)) with hc
  clear_value c
  clear hc
  obtain ⟨s0, a0⟩ := c
  dsimp only
  by_cases hpos : 0 < s0
  · simp only [hpos, if_true]
    refine ⟨[.buy date ticker s0 price a0], rfl, ?_⟩
    intro tx htx
    simp only [List.mem_singleton] at htx
    exact ⟨s0, a0, htx⟩
  · simp only [hpos, if_false]
    exact ⟨[], by simp, by simp⟩

theorem sellPositionA_txns (p : PortfolioA) (ticker : String) (s price : ℚ)
    (date : ℤ) (txns : List Txn) :
    ∃ Δ, (sellPositionA p ticker s price date txns).2.1 = txns ++ Δ ∧
      ∀ tx ∈ Δ, tx.isBuy = false := by
  rcases hget : alistGet ticker p.holdings with _ | h
  · simp only [sellPositionA, hget]
    exact ⟨[], by simp, by simp⟩
  · simp only [sellPositionA, hget]
    set stf := (sellQueueA h.investments).foldl (sellStepA s price)
      { invs := h.investments, remaining := s, realized := 0, totalCost := 0,
        daysWeighted := 0 } with hstf
    by_cases hpos : 0 < s - stf.remaining
    · simp only [← hstf, hpos, if_true]
      refine ⟨[_], rfl, ?_⟩
      intro tx htx
      simp only [List.mem_singleton] at htx
      rw [htx]
      rfl
    · simp only [← hstf, hpos, if_false]
      exact ⟨[], by simp, by simp⟩

theorem rebalanceSells_txns (priceRow : List (String × ℚ)) (date : ℤ)
    (targetValues currentValues : List (String × ℚ)) (start : PortfolioA × List Txn) :
    ∃ Δ, (rebalanceSells priceRow date targetValues currentValues start).2 =
        start.2 ++ Δ ∧ ∀ tx ∈ Δ, tx.isBuy = false := by
  unfold rebalanceSells
  refine foldl_preserve
    (fun acc => ∃ Δ, acc.2 = start.2 ++ Δ ∧ ∀ tx ∈ Δ, tx.isBuy = false) _ ?_
    currentValues start ⟨[], by simp, by simp⟩
  intro acc tcv hP
  obtain ⟨Δ, hΔ, hall⟩ := hP
  dsimp only
  rcases h : alistGet tcv.1 targetValues with _ | tv
  · simp only [h]
    obtain ⟨Δ', hΔ', hall'⟩ := sellPositionA_txns acc.1 tcv.1
      (match alistGet tcv.1 acc.1.holdings with
       | some h => h.shares
       | none => 0) ((alistGet tcv.1 priceRow).getD 0) date acc.2
    refine ⟨Δ ++ Δ', ?_, ?_⟩
    · rw [hΔ', hΔ, List.append_assoc]
    · intro tx htx
      rcases List.mem_append.mp htx with htx' | htx'
      · exact hall tx htx'
      · exact hall' tx htx'
  · simp only [h]
    by_cases h1 : tv * (102/100) < tcv.2
    · simp only [h1, if_true]
      by_cases h2 : 1/100 <
          pyRound 2 ((tcv.2 - tv) / (alistGet tcv.1 priceRow).getD 0)
      · simp only [h2, if_true]
        obtain ⟨Δ', hΔ', hall'⟩ := sellPositionA_txns acc.1 tcv.1
          (pyRound 2 ((tcv.2 - tv) / (alistGet tcv.1 priceRow).getD 0))
          ((alistGet tcv.1 priceRow).getD 0) date acc.2
        refine ⟨Δ ++ Δ', ?_, ?_⟩
        · rw [hΔ', hΔ, List.append_assoc]
        · intro tx htx
          rcases List.mem_append.mp htx with htx' | htx'
          · exact hall tx htx'
          · exact hall' tx htx'
      · simp only [h2, if_false]
        exact ⟨Δ, hΔ, hall⟩
    · simp only [h1, if_false]
      exact ⟨Δ, hΔ, hall⟩

theorem rebalanceBuys_txns (priceRow : List (String × ℚ)) (date : ℤ)
    (targetValues currentValues : List (String × ℚ)) (excludedTickers : List String)
    (start : PortfolioA × List Txn) :
    ∃ Δ, (rebalanceBuys priceRow date targetValues currentValues excludedTickers
        start).2 = start.2 ++ Δ ∧
      ∀ tx ∈ Δ, tx.isBuy = true → ∀ t, tx.ticker = some t →
        excludedTickers.contains t = false := by
  unfold rebalanceBuys
  by_cases hcash : 10 < start.1.cash
  · simp only [hcash, if_true]
    refine foldl_preserve
      (fun acc => ∃ Δ, acc.2 = start.2 ++ Δ ∧
        ∀ tx ∈ Δ, tx.isBuy = true → ∀ t, tx.ticker = some t →
          excludedTickers.contains t = false) _ ?_
      targetValues start ⟨[], by simp, by simp⟩
    intro acc ttv hP
    obtain ⟨Δ, hΔ, hall⟩ := hP
    by_cases hex : excludedTickers.contains ttv.1
    · simp only [hex, if_true]
      exact ⟨Δ, hΔ, hall⟩
    · simp only [hex, Bool.false_eq_true, if_false]
      rcases h : alistGet ttv.1 priceRow with _ | pr
      · simp only [h]
        exact ⟨Δ, hΔ, hall⟩
      · simp only [h]
        by_cases h1 : (alistGet ttv.1 currentValues).getD 0 < ttv.2 * (98/100)
        · simp only [h1, if_true]
          by_cases h2 : 1/100 ≤ pyRound 2
                (min (ttv.2 - (alistGet ttv.1 currentValues).getD 0) acc.1.cash /
                  pr) ∧
              10 < min (ttv.2 - (alistGet ttv.1 currentValues).getD 0) acc.1.cash
          · simp only [h2, and_self, if_true]
            obtain ⟨Δ', hΔ', hall'⟩ := buyPositionA_txns acc.1 ttv.1
              (pyRound 2
                (min (ttv.2 - (alistGet ttv.1 currentValues).getD 0) acc.1.cash /
                  pr)) pr date acc.2
            refine ⟨Δ ++ Δ', ?_, ?_⟩
            · rw [hΔ', hΔ, List.append_assoc]
            · intro tx htx
              rcases List.mem_append.mp htx with htx' | htx'
              · exact hall tx htx'
              · intro _ t ht
                obtain ⟨s0, a0, htx0⟩ := hall' tx htx'
                rw [htx0] at ht
                have : ttv.1 = t := by
                  simpa [Txn.ticker] using ht
                rw [← this]
                simpa using hex
          · simp only [h2, if_false]
            exact ⟨Δ, hΔ, hall⟩
        · simp only [h1, if_false]
          exact ⟨Δ, hΔ, hall⟩
  · simp only [hcash, if_false]
    exact ⟨[], by simp, by simp⟩

/-- The 10-share lot held in "B" in claim C5's counterexample. -/
def lC5B : LotA :=
  { date := 0, shares := 10, price := 8, cost := 80, currentValue := 80,
    returnPct := 0, daysHeld := 0, sold := false }

/-- Claim C5's counterexample portfolio: $50 cash, 10 shares of the
recently-harvested (excluded) symbol "B", equal explicit targets for "A" and
"B". -/
def pC5 : PortfolioA :=
  { cash := 50, rebalanceFrequency := "monthly", rebalanceThreshold := 5,
    portfolioAllocation := .explicit [("A", 1), ("B", 1)],
    lastRebalanceDate := none,
    holdings := [("B", { shares := 10, costBasis := 8, investments := [lC5B] })],
    tickers := ["A", "B"] }

/-- The state claim C5's counterexample rebalance leaves: "B" fully sold, the
proceeds plus the cash poured into "A". -/
def pC5r : PortfolioA :=
  { cash := 0, rebalanceFrequency := "monthly", rebalanceThreshold := 5,
    portfolioAllocation := .explicit [("A", 1), ("B", 1)],
    lastRebalanceDate := none,
    holdings := [("B",
        { shares := 0, costBasis := 8,
          investments := [{ date := 0, shares := 10, price := 8, cost := 80,
                            currentValue := 80, returnPct := 0, daysHeld := 0,
                            sold := true }] }),
      ("A",
        { shares := 15, costBasis := 10,
          investments := [{ date := 2, shares := 15, price := 10, cost := 150,
                            currentValue := 150, returnPct := 0, daysHeld := 0,
                            sold := false }] })],
    tickers := ["A", "B"] }

/-- The intermediate state of claim C5's counterexample after the sell phase:
"B" liquidated into cash. -/
def pC5mid : PortfolioA :=
  { cash := 150, rebalanceFrequency := "monthly", rebalanceThreshold := 5,
    portfolioAllocation := .explicit [("A", 1), ("B", 1)],
    lastRebalanceDate := none,
    holdings := [("B",
      { shares := 0, costBasis := 8,
        investments := [{ date := 0, shares := 10, price := 8, cost := 80,
                          currentValue := 80, returnPct := 0, daysHeld := 0,
                          sold := true }] })],
    tickers := ["A", "B"] }

/-- Claim C5 counterexample: a rebalance invoked with "B" excluded *sells* the
entire "B" position — `perform_rebalance` drops excluded symbols from the
target allocation, so `rebalance_sells` treats "B" as no longer targeted and
liquidates it.  The excluded symbol is traded (a sell), refuting the
no-trade-in-either-direction claim. -/
theorem claim_C5_counterexample :
    performRebalance pC5 [("A", 10), ("B", 10)] 2 [] ["B"] =
      (pC5r, [.sell 2 "B" 10 10 100 20 25 0, .buy 2 "A" 15 10 150]) ∧
    (Txn.sell 2 "B" 10 10 100 20 25 0).ticker = some "B" ∧
    (["B"] : List String).contains "B" = true := by
  have hAB : (("A" : String) = "B") = False := eq_false (by decide)
  have hBA : (("B" : String) = "A") = False := eq_false (by decide)
  have hsell : rebalanceSells [("A", 10), ("B", 10)] 2 [("A", 150)] [("B", 100)]
      (pC5, []) = (pC5mid, [.sell 2 "B" 10 10 100 20 25 0]) := by
    norm_num [rebalanceSells, sellPositionA, sellQueueA, sellStepA, ssort, sinsert,
      alistGet, alistSet, pC5, lC5B, pC5mid, List.enum, List.enumFrom, pyRound,
      roundHalfEven, Int.floor_eq_iff, hAB, hBA]
  have hbuys : rebalanceBuys [("A", 10), ("B", 10)] 2 [("A", 150)] [("B", 100)]
      ["B"] (pC5mid, [.sell 2 "B" 10 10 100 20 25 0]) =
      (pC5r, [.sell 2 "B" 10 10 100 20 25 0, .buy 2 "A" 15 10 150]) := by
    norm_num [rebalanceBuys, buyPositionA, alistGet, alistSet, pC5mid, pC5r,
      pyRound, roundHalfEven, Int.floor_eq_iff, hAB, hBA]
  have hpre : performRebalance pC5 [("A", 10), ("B", 10)] 2 [] ["B"] =
      rebalanceBuys [("A", 10), ("B", 10)] 2 [("A", 150)] [("B", 100)] ["B"]
        (rebalanceSells [("A", 10), ("B", 10)] 2 [("A", 150)] [("B", 100)]
          (pC5, [])) := by
    norm_num [performRebalance, calculateTotalValue, calculateAllocationWeights,
      normalizeWeights, alistGet, pC5, lC5B, pyRound, roundHalfEven,
      Int.floor_eq_iff, hAB, hBA, List.filterMap_cons, List.filterMap_nil]
  exact ⟨by rw [hpre, hsell, hbuys], rfl, rfl⟩

/-- Claim C5 (amended): during a rebalance pass no *buy* is ever produced for
an excluded symbol (the buy loop skips excluded tickers), while excluded
symbols can be *sold* — they are dropped from the target allocation and
liquidated as no-longer-targeted positions (see the counterexample); and
`check_and_rebalance` either leaves portfolio and transactions untouched (no
trigger, or no holdings) or executes `perform_rebalance` and sets
`last_rebalance_date` to the closest trading date — the date is never updated
without a rebalance executing. -/
theorem claim_C5_amended :
    (∀ (p : PortfolioA) (priceRow : List (String × ℚ)) (date : ℤ)
       (txns : List Txn) (ex : List String),
      ∃ Δ, (performRebalance p priceRow date txns ex).2 = txns ++ Δ ∧
        ∀ tx ∈ Δ, tx.isBuy = true → ∀ t, tx.ticker = some t →
          ex.contains t = false) ∧
    (∀ (p : PortfolioA) (priceRow : List (String × ℚ))
       (investmentDate closestTradingDate startDate : SimDate) (txns : List Txn)
       (lastReb : Option SimDate) (soldT : List String),
      checkAndRebalance p priceRow investmentDate closestTradingDate startDate
          txns lastReb soldT = (p, txns) ∨
      (checkAndRebalance p priceRow investmentDate closestTradingDate startDate
          txns lastReb soldT =
        ({ (performRebalance p priceRow closestTradingDate.ord txns soldT).1 with
             lastRebalanceDate := some closestTradingDate },
         (performRebalance p priceRow closestTradingDate.ord txns soldT).2))) := by
  constructor
  · intro p priceRow date txns ex
    unfold performRebalance
    obtain ⟨Δs, hΔs, hallS⟩ := rebalanceSells_txns priceRow date _ _ (p, txns)
    obtain ⟨Δb, hΔb, hallB⟩ := rebalanceBuys_txns priceRow date _ _ ex
      (rebalanceSells priceRow date _ _ (p, txns))
    refine ⟨Δs ++ Δb, ?_, ?_⟩
    · rw [hΔb, hΔs, List.append_assoc]
    · intro tx htx
      rcases List.mem_append.mp htx with htx' | htx'
      · intro hbuy
        rw [hallS tx htx'] at hbuy
        exact absurd hbuy (by simp)
      · exact hallB tx htx'
  · intro p priceRow investmentDate closestTradingDate startDate txns lastReb soldT
    unfold checkAndRebalance
    by_cases hne : p.holdings = []
    · left
      simp [hne]
    · simp only [hne, if_false]
      by_cases ht : shouldRebalanceTime p investmentDate startDate lastReb
      · right
        simp [ht]
      · by_cases hd : shouldRebalanceDrift p priceRow
        · right
          simp [ht, hd]
        · left
          simp [ht, hd]

/-- An empty-holdings portfolio for the witness of claim C5's
`check_and_rebalance` clause. -/
def pC5e : PortfolioA :=
  { cash := 100, rebalanceFrequency := "monthly", rebalanceThreshold := 5,
    portfolioAllocation := .equal, lastRebalanceDate := none, holdings := [],
    tickers := [] }

/-- A calendar date for claim C5's witness. -/
def dC5 : SimDate := { ord := 0, year := 2024, month := 1 }

/-- Claim C5's witness: on the counterexample scenario, the appended
transaction delta contains no buy of an excluded symbol (instantiating the
amended guarantee), and the no-holdings portfolio makes `check_and_rebalance`
a strict no-op. -/
theorem claim_C5_amended_witness :
    (∃ Δ, (performRebalance pC5 [("A", 10), ("B", 10)] 2 [] ["B"]).2 = [] ++ Δ ∧
      ∀ tx ∈ Δ, tx.isBuy = true → ∀ t, tx.ticker = some t →
        (["B"] : List String).contains t = false) ∧
    (checkAndRebalance pC5e [] dC5 dC5 dC5 [] none [] = (pC5e, []) ∨
      (checkAndRebalance pC5e [] dC5 dC5 dC5 [] none [] =
        ({ (performRebalance pC5e [] dC5.ord [] []).1 with
             lastRebalanceDate := some dC5 },
         (performRebalance pC5e [] dC5.ord [] []).2))) :=
  ⟨claim_C5_amended.1 pC5 [("A", 10), ("B", 10)] 2 [] ["B"],
   claim_C5_amended.2 pC5e [] dC5 dC5 dC5 [] none []⟩


/-- Claim C9's counterexample portfolio for the `Portfolio`-class cash
deployment: $100 of cash, one target ticker priced at $5200. -/
def pC9 : PortfolioA :=
  { cash := 100, rebalanceFrequency := "monthly", rebalanceThreshold := 5,
    portfolioAllocation := .equal, lastRebalanceDate := none, holdings := [],
    tickers := ["A"] }

/-- The state `Portfolio.invest_available_cash` leaves on claim C9's
counterexample: 0.02 shares bought for $104 — $4 more than the cash. -/
def pC9r : PortfolioA :=
  { cash := -4, rebalanceFrequency := "monthly", rebalanceThreshold := 5,
    portfolioAllocation := .equal, lastRebalanceDate := none,
    holdings := [("A",
      { shares := 1/50, costBasis := 5200,
        investments := [{ date := 1, shares := 1/50, price := 5200, cost := 104,
                          currentValue := 104, returnPct := 0, daysHeld := 0,
                          sold := false }] })],
    tickers := ["A"] }

/-- Claim C9 counterexample: `Portfolio.invest_available_cash` *rounds* the
share count — `round(100/5200, 2) = 0.02` — instead of flooring it to the
2-decimal precision as claimed (`floor` gives `0.01`), and so buys 0.02 shares
for $104 with only $100 of cash. -/
theorem claim_C9_counterexample :
    investAvailableCashA pC9 [("A", 1)] [("A", 5200)] 1 [] [] =
      (pC9r, [.buy 1 "A" (1/50) 5200 104]) ∧
    floor2 (floor2 (pC9.cash * 1) / 5200) = 1/100 ∧
    (1/50 : ℚ) ≠ 1/100 := by
  refine ⟨?_, ?_, by norm_num⟩
  · have hfl : ⌊(25 : ℚ)/13⌋ = 1 := by norm_num [Int.floor_eq_iff]
    have hf : Int.fract ((25 : ℚ)/13) = 12/13 := by
      unfold Int.fract
      rw [hfl]
      norm_num
    norm_num [investAvailableCashA, normalizeWeights, removeExcluded, alistGet,
      alistSet, pC9, pC9r, pyRound, roundHalfEven, floor2, Int.floor_eq_iff,
      hf, List.filter]
  · norm_num [pC9, floor2, Int.floor_eq_iff]

theorem Qdec_floor2 (x : ℚ) : Qdec 2 (floor2 x) :=
  ⟨⌊x * 100⌋, by
    rw [floor2]
    norm_num⟩

theorem Qdec_pos_le {x : ℚ} (h : Qdec 2 x) (hx : 0 < x) : 1/100 ≤ x := by
  obtain ⟨m, hm⟩ := h
  have hm0 : (0 : ℚ) < m := by
    rw [← hm]
    positivity
  have hm1 : (1 : ℚ) ≤ m := by
    have : (0 : ℤ) < m := by exact_mod_cast hm0
    exact_mod_cast this
  linarith

theorem buyPosition_txns {p : PortfolioB} {t : String} {s price : ℚ} {d : ℤ}
    {txns : List Txn} {p' : PortfolioB} {txns' : List Txn} (hq : Qdec 2 s)
    (hok : buyPosition p t s price d txns = .ok (p', txns')) :
    txns' = txns ∨ ∃ s0 a0, txns' = txns ++ [.buy d t s0 price a0] ∧
      Qdec 2 s0 ∧ 1/100 ≤ s0 := by
  simp only [buyPosition] at hok
  set c := (if p.cash < pyRound 2 (s * price) then
      (pyRound 2 (p.cash / price), pyRound 2 (pyRound 2 (p.cash / price) * price))
    else (s, pyRound 2 (s * price))) with hc
  have hcq2 : Qdec 2 c.1 := by
    rw [hc]
    by_cases hcc : p.cash < pyRound 2 (s * price)
    · simp only [hcc, if_true]
      exact Qdec_pyRound 2 _
    · simp only [hcc, if_false]
      exact hq
  clear_value c
  clear hc
  obtain ⟨s0, a0⟩ := c
  dsimp only at hok hcq2
  by_cases hpos : 0 < s0
  · simp only [hpos, if_true] at hok
    rcases hget : alistGet t p.holdings with _ | h
    · rw [hget] at hok
      simp only [alistGet_alistSet_self] at hok
      exact Except.noConfusion hok
    · rw [hget] at hok
      simp only [hget] at hok
      rcases hisp : h.initialSharesPurchased with _ | isp
      · rw [hisp] at hok
        exact Except.noConfusion hok
      · rw [hisp] at hok
        simp only [] at hok
        rcases hsr : h.sharesRemaining with _ | sr
        · rw [hsr] at hok
          exact Except.noConfusion hok
        · rw [hsr] at hok
          simp only [] at hok
          injection hok with h1
          injection h1 with hp ht
          right
          exact ⟨s0, a0, ht.symm, hcq2, Qdec_pos_le hcq2 hpos⟩
  · simp only [hpos, if_false] at hok
    injection hok with h1
    injection h1 with hp ht
    left
    exact ht.symm

theorem investGo_buys (priceRow : List (String × ℚ)) (d : ℤ) (cash : ℚ) :
    ∀ (ws : List (String × ℚ)) (p : PortfolioB) (txns : List Txn)
      (p' : PortfolioB) (txns' : List Txn),
      investGo priceRow d cash ws p txns = .ok (p', txns') →
      ∃ Δ, txns' = txns ++ Δ ∧
        ∀ tx ∈ Δ, tx.isBuy = true ∧ Qdec 2 tx.shares ∧ 1/100 ≤ tx.shares
  | [], p, txns, p', txns' => by
    intro hok
    simp only [investGo, Except.ok.injEq, Prod.mk.injEq] at hok
    exact ⟨[], by simp [hok.2], by simp⟩
  | (t, w) :: rest, p, txns, p', txns' => by
    intro hok
    rw [investGo] at hok
    rcases hpr : alistGet t priceRow with _ | price
    · rw [hpr] at hok
      exact investGo_buys priceRow d cash rest p txns p' txns' hok
    · rw [hpr] at hok
      simp only [] at hok
      by_cases hth : 1/100 ≤ floor2 (floor2 (cash * w) / price)
      · simp only [hth, if_true] at hok
        rcases hbuy : buyPosition p t (floor2 (floor2 (cash * w) / price)) price d
            txns with e | pt
        · rw [hbuy] at hok
          exact Except.noConfusion hok
        · rw [hbuy] at hok
          obtain ⟨p1, t1⟩ := pt
          have hb := buyPosition_txns (Qdec_floor2 _) hbuy
          obtain ⟨Δ', hΔ', hall'⟩ := investGo_buys priceRow d cash rest p1 t1 p'
            txns' hok
          rcases hb with hb | ⟨s0, a0, hb, hq0, hge0⟩
          · exact ⟨Δ', by rw [hΔ', hb], hall'⟩
          · refine ⟨[.buy d t s0 price a0] ++ Δ', ?_, ?_⟩
            · rw [hΔ', hb, List.append_assoc]
            · intro tx htx
              rcases List.mem_append.mp htx with htx' | htx'
              · simp only [List.mem_singleton] at htx'
                rw [htx']
                exact ⟨rfl, hq0, hge0⟩
              · exact hall' tx htx'
      · simp only [hth, if_false] at hok
        exact investGo_buys priceRow d cash rest p txns p' txns' hok

theorem sum_map_div (l : List (String × ℚ)) (S : ℚ) :
    (l.map (fun kv => kv.2 / S)).sum = ((l.map (fun kv => kv.2)).sum) / S := by
  induction l with
  | nil => simp
  | cons kv rest ih =>
    simp only [List.map_cons, List.sum_cons, ih]
    rw [div_add_div_same]

theorem sum_pyRound_err (n : ℕ) :
    ∀ (l : List ℚ), |(l.map (pyRound n)).sum - l.sum| ≤
      l.length * (1 / (2 * 10 ^ n))
  | [] => by simp
  | a :: l => by
    simp only [List.map_cons, List.sum_cons, List.length_cons]
    have h1 := abs_pyRound_sub_le n a
    have h2 := sum_pyRound_err n l
    calc |pyRound n a + (l.map (pyRound n)).sum - (a + l.sum)|
        = |(pyRound n a - a) + ((l.map (pyRound n)).sum - l.sum)| := by ring_nf
      _ ≤ |pyRound n a - a| + |(l.map (pyRound n)).sum - l.sum| := abs_add _ _
      _ ≤ 1 / (2 * 10 ^ n) + l.length * (1 / (2 * 10 ^ n)) := by linarith
      _ = ((l.length + 1 : ℕ) : ℚ) * (1 / (2 * 10 ^ n)) := by
            push_cast
            ring

theorem normalizeWeights_sum (ws : List (String × ℚ))
    (h : 0 < ((ws.map (fun kv => kv.2)).sum)) :
    |((normalizeWeights ws).map (fun kv => kv.2)).sum - 1| ≤ ws.length / 20000 := by
  set S := (ws.map (fun kv => kv.2)).sum with hS
  have hmap : (normalizeWeights ws).map (fun kv => kv.2) =
      (ws.map (fun kv => kv.2 / S)).map (pyRound 4) := by
    simp only [normalizeWeights, ← hS, if_pos h, List.map_map]
    rfl
  rw [hmap]
  have herr := sum_pyRound_err 4 (ws.map (fun kv => kv.2 / S))
  have hsum : (ws.map (fun kv => kv.2 / S)).sum = 1 := by
    rw [sum_map_div, ← hS, div_self (ne_of_gt h)]
  rw [hsum] at herr
  simp only [List.length_map] at herr
  calc |((ws.map (fun kv => kv.2 / S)).map (pyRound 4)).sum - 1|
      ≤ ws.length * (1 / (2 * 10 ^ 4)) := herr
    _ = ws.length / 20000 := by ring

theorem buyPosition_txns_char {p : PortfolioB} {t : String} {s price : ℚ} {d : ℤ}
    {txns : List Txn} {p' : PortfolioB} {txns' : List Txn}
    (hok : buyPosition p t s price d txns = .ok (p', txns')) :
    txns' = txns ∨
    (txns' = txns ++ [.buy d t s price (pyRound 2 (s * price))] ∧
      ¬ p.cash < pyRound 2 (s * price) ∧ 0 < s) ∨
    (txns' = txns ++ [.buy d t (pyRound 2 (p.cash / price)) price
        (pyRound 2 (pyRound 2 (p.cash / price) * price))] ∧
      p.cash < pyRound 2 (s * price) ∧ 0 < pyRound 2 (p.cash / price)) := by
  simp only [buyPosition] at hok
  by_cases hcc : p.cash < pyRound 2 (s * price)
  · simp only [hcc, if_true] at hok
    by_cases hpos : 0 < pyRound 2 (p.cash / price)
    · simp only [hpos, if_true] at hok
      rcases hget : alistGet t p.holdings with _ | h
      · rw [hget] at hok
        simp only [alistGet_alistSet_self] at hok
        exact Except.noConfusion hok
      · rw [hget] at hok
        simp only [hget] at hok
        rcases hisp : h.initialSharesPurchased with _ | isp
        · rw [hisp] at hok
          exact Except.noConfusion hok
        · rw [hisp] at hok
          simp only [] at hok
          rcases hsr : h.sharesRemaining with _ | sr
          · rw [hsr] at hok
            exact Except.noConfusion hok
          · rw [hsr] at hok
            simp only [] at hok
            injection hok with h1
            injection h1 with hp ht
            exact Or.inr (Or.inr ⟨ht.symm, hcc, hpos⟩)
    · simp only [hpos, if_false] at hok
      injection hok with h1
      injection h1 with hp ht
      exact Or.inl ht.symm
  · simp only [hcc, if_false] at hok
    by_cases hpos : 0 < s
    · simp only [hpos, if_true] at hok
      rcases hget : alistGet t p.holdings with _ | h
      · rw [hget] at hok
        simp only [alistGet_alistSet_self] at hok
        exact Except.noConfusion hok
      · rw [hget] at hok
        simp only [hget] at hok
        rcases hisp : h.initialSharesPurchased with _ | isp
        · rw [hisp] at hok
          exact Except.noConfusion hok
        · rw [hisp] at hok
          simp only [] at hok
          rcases hsr : h.sharesRemaining with _ | sr
          · rw [hsr] at hok
            exact Except.noConfusion hok
          · rw [hsr] at hok
            simp only [] at hok
            injection hok with h1
            injection h1 with hp ht
            exact Or.inr (Or.inl ⟨ht.symm, hcc, hpos⟩)
    · simp only [hpos, if_false] at hok
      injection hok with h1
      injection h1 with hp ht
      exact Or.inl ht.symm

theorem investGo_buys_char (priceRow : List (String × ℚ)) (d : ℤ) (cash : ℚ) :
    ∀ (ws : List (String × ℚ)) (p : PortfolioB) (txns : List Txn)
      (p' : PortfolioB) (txns' : List Txn),
      investGo priceRow d cash ws p txns = .ok (p', txns') →
      ∃ Δ, txns' = txns ++ Δ ∧
        ∀ tx ∈ Δ,
          (tx.isBuy = true ∧ Qdec 2 tx.shares ∧ 1/100 ≤ tx.shares) ∧
          ∃ t w price c, (t, w) ∈ ws ∧ alistGet t priceRow = some price ∧
            1/100 ≤ floor2 (floor2 (cash * w) / price) ∧
            (tx = .buy d t (floor2 (floor2 (cash * w) / price)) price
                (pyRound 2 (floor2 (floor2 (cash * w) / price) * price)) ∨
             (tx = .buy d t (pyRound 2 (c / price)) price
                (pyRound 2 (pyRound 2 (c / price) * price)) ∧
              c < pyRound 2 (floor2 (floor2 (cash * w) / price) * price)))
  | [], p, txns, p', txns' => by
    intro hok
    simp only [investGo, Except.ok.injEq, Prod.mk.injEq] at hok
    exact ⟨[], by simp [hok.2], by simp⟩
  | (t, w) :: rest, p, txns, p', txns' => by
    intro hok
    rw [investGo] at hok
    rcases hpr : alistGet t priceRow with _ | price
    · rw [hpr] at hok
      obtain ⟨Δ, hΔ, hall⟩ := investGo_buys_char priceRow d cash rest p txns p'
        txns' hok
      refine ⟨Δ, hΔ, ?_⟩
      intro tx htx
      obtain ⟨hbasic, t0, w0, pr0, c0, hmem, hrest⟩ := hall tx htx
      exact ⟨hbasic, t0, w0, pr0, c0, List.mem_cons_of_mem _ hmem, hrest⟩
    · rw [hpr] at hok
      simp only [] at hok
      by_cases hth : 1/100 ≤ floor2 (floor2 (cash * w) / price)
      · simp only [hth, if_true] at hok
        rcases hbuy : buyPosition p t (floor2 (floor2 (cash * w) / price)) price d
            txns with e | pt
        · rw [hbuy] at hok
          exact Except.noConfusion hok
        · rw [hbuy] at hok
          obtain ⟨p1, t1⟩ := pt
          have hb := buyPosition_txns_char hbuy
          obtain ⟨Δ', hΔ', hall'⟩ := investGo_buys_char priceRow d cash rest p1 t1
            p' txns' hok
          have hlift : ∀ tx ∈ Δ',
              (tx.isBuy = true ∧ Qdec 2 tx.shares ∧ 1/100 ≤ tx.shares) ∧
              ∃ t0 w0 pr0 c0, (t0, w0) ∈ (t, w) :: rest ∧
                alistGet t0 priceRow = some pr0 ∧
                1/100 ≤ floor2 (floor2 (cash * w0) / pr0) ∧
                (tx = .buy d t0 (floor2 (floor2 (cash * w0) / pr0)) pr0
                    (pyRound 2 (floor2 (floor2 (cash * w0) / pr0) * pr0)) ∨
                 (tx = .buy d t0 (pyRound 2 (c0 / pr0)) pr0
                    (pyRound 2 (pyRound 2 (c0 / pr0) * pr0)) ∧
                  c0 < pyRound 2 (floor2 (floor2 (cash * w0) / pr0) * pr0))) := by
            intro tx htx
            obtain ⟨hbasic, t0, w0, pr0, c0, hmem, hrest⟩ := hall' tx htx
            exact ⟨hbasic, t0, w0, pr0, c0, List.mem_cons_of_mem _ hmem, hrest⟩
          rcases hb with hb | ⟨hb, hnc, hpos⟩ | ⟨hb, hcl, hpos⟩
          · refine ⟨Δ', ?_, hlift⟩
            rw [hΔ', hb]
          · refine ⟨[.buy d t (floor2 (floor2 (cash * w) / price)) price
                (pyRound 2 (floor2 (floor2 (cash * w) / price) * price))] ++ Δ',
              ?_, ?_⟩
            · rw [hΔ', hb, List.append_assoc]
            · intro tx htx
              rcases List.mem_append.mp htx with htx' | htx'
              · simp only [List.mem_singleton] at htx'
                subst htx'
                refine ⟨⟨rfl, Qdec_floor2 _, hth⟩,
                  t, w, price, p.cash, List.mem_cons_self _ _, hpr, hth, Or.inl rfl⟩
              · exact hlift tx htx'
          · refine ⟨[.buy d t (pyRound 2 (p.cash / price)) price
                (pyRound 2 (pyRound 2 (p.cash / price) * price))] ++ Δ', ?_, ?_⟩
            · rw [hΔ', hb, List.append_assoc]
            · intro tx htx
              rcases List.mem_append.mp htx with htx' | htx'
              · simp only [List.mem_singleton] at htx'
                subst htx'
                refine ⟨⟨rfl, Qdec_pyRound 2 _, Qdec_pos_le (Qdec_pyRound 2 _) hpos⟩,
                  t, w, price, p.cash, List.mem_cons_self _ _, hpr, hth,
                  Or.inr ⟨rfl, hcl⟩⟩
              · exact hlift tx htx'
      · simp only [hth, if_false] at hok
        obtain ⟨Δ, hΔ, hall⟩ := investGo_buys_char priceRow d cash rest p txns p'
          txns' hok
        refine ⟨Δ, hΔ, ?_⟩
        intro tx htx
        obtain ⟨hbasic, t0, w0, pr0, c0, hmem, hrest⟩ := hall tx htx
        exact ⟨hbasic, t0, w0, pr0, c0, List.mem_cons_of_mem _ hmem, hrest⟩

/-- Claim C9 (amended): after removing the excluded symbols, the renormalised
weights sum to 1 within `n/20000` (each weight formatted to 4 decimal places,
adding at most half a unit in the fourth place per symbol); the pass is a
strict no-op when cash is non-positive; and every buy `invest_available_cash`
in `utils/allocation.py` issues is for the *floored* count
`floor(floor(cash*weight, 2) / price, 2)` of shares — issued only when that
count is at least 0.01 — unless `buy_position`'s own cash clamp engages (the
4-decimal weight rounding can make the floored amounts overspend the captured
cash), in which case it buys `round(current_cash/price, 2)` shares; either
way the count is a whole non-zero number of hundredth-shares.  (The
`Portfolio`-class variant *rounds* the share count instead of flooring it —
see the counterexample.) -/
theorem claim_C9_amended :
    (∀ (ws : List (String × ℚ)) (ex : List String),
      0 < (((removeExcluded ws ex).map (fun kv => kv.2)).sum) →
      |((normalizeWeights (removeExcluded ws ex)).map (fun kv => kv.2)).sum - 1| ≤
        (removeExcluded ws ex).length / 20000) ∧
    (∀ (p : PortfolioB) (ws priceRow : List (String × ℚ)) (d : ℤ)
       (txns : List Txn) (ex : List String), p.cash ≤ 0 →
      investAvailableCash p ws priceRow d txns ex = .ok (p, txns)) ∧
    (∀ (p : PortfolioB) (ws priceRow : List (String × ℚ)) (d : ℤ)
       (txns : List Txn) (ex : List String) (p' : PortfolioB) (txns' : List Txn),
      investAvailableCash p ws priceRow d txns ex = .ok (p', txns') →
      ∃ Δ, txns' = txns ++ Δ ∧
        ∀ tx ∈ Δ,
          (tx.isBuy = true ∧ Qdec 2 tx.shares ∧ 1/100 ≤ tx.shares) ∧
          ∃ t w price c, (t, w) ∈ normalizeWeights (removeExcluded ws ex) ∧
            alistGet t priceRow = some price ∧
            1/100 ≤ floor2 (floor2 (p.cash * w) / price) ∧
            (tx = .buy d t (floor2 (floor2 (p.cash * w) / price)) price
                (pyRound 2 (floor2 (floor2 (p.cash * w) / price) * price)) ∨
             (tx = .buy d t (pyRound 2 (c / price)) price
                (pyRound 2 (pyRound 2 (c / price) * price)) ∧
              c < pyRound 2 (floor2 (floor2 (p.cash * w) / price) * price)))) := by
  refine ⟨?_, ?_, ?_⟩
  · intro ws ex h
    exact normalizeWeights_sum (removeExcluded ws ex) h
  · intro p ws priceRow d txns ex h
    simp only [investAvailableCash, if_pos h]
  · intro p ws priceRow d txns ex p' txns' hok
    rw [investAvailableCash] at hok
    by_cases hc : p.cash ≤ 0
    · rw [if_pos hc] at hok
      simp only [Except.ok.injEq, Prod.mk.injEq] at hok
      exact ⟨[], by simp [hok.2], by simp⟩
    · rw [if_neg hc] at hok
      exact investGo_buys_char priceRow d p.cash _ p txns p' txns' hok

/-- The cashless portfolio of claim C9's witness. -/
def pC9z : PortfolioB := { cash := 0, holdings := [] }

/-- The lot held before claim C9's witness deployment. -/
def lC9b : LotB :=
  { date := 0, initialSharesPurchased := 1, sharesRemaining := 1, price := 10,
    cost := 10, currentValue := 10, returnPct := 0, daysHeld := 0, sold := false }

/-- Claim C9's witness portfolio: $100 of cash and an "A" holding whose record
carries both optional keys. -/
def pC9b : PortfolioB :=
  { cash := 100,
    holdings := [("A",
      { initialSharesPurchased := some 1, sharesRemaining := some 1,
        costBasis := 10, investments := [lC9b] })] }

/-- The state after claim C9's witness deployment: all $100 in 10 more
shares. -/
def pC9bRes : PortfolioB :=
  { cash := 0,
    holdings := [("A",
      { initialSharesPurchased := some 11, sharesRemaining := some 11,
        costBasis := 10,
        investments := [lC9b,
          { date := 1, initialSharesPurchased := 10, sharesRemaining := 10,
            price := 10, cost := 100, currentValue := 100, returnPct := 0,
            daysHeld := 0, sold := false }] })] }

theorem claim_C9_amended_witness :
    (0 < (((removeExcluded [("A", (1:ℚ))] []).map (fun kv => kv.2)).sum) ∧
      |((normalizeWeights (removeExcluded [("A", (1:ℚ))] [])).map
          (fun kv => kv.2)).sum - 1| ≤
        ((removeExcluded [("A", (1:ℚ))] []).length : ℚ) / 20000) ∧
    (pC9z.cash ≤ 0 ∧
      investAvailableCash pC9z [("A", 1)] [("A", 10)] 1 [] [] = .ok (pC9z, [])) ∧
    (investAvailableCash pC9b [("A", 1)] [("A", 10)] 1 [] [] =
        .ok (pC9bRes, [.buy 1 "A" 10 10 100]) ∧
      ∃ Δ, [Txn.buy 1 "A" 10 10 100] = [] ++ Δ ∧
        ∀ tx ∈ Δ,
          (tx.isBuy = true ∧ Qdec 2 tx.shares ∧ 1/100 ≤ tx.shares) ∧
          ∃ t w price c,
            (t, w) ∈ normalizeWeights (removeExcluded [("A", 1)] []) ∧
            alistGet t [("A", (10:ℚ))] = some price ∧
            1/100 ≤ floor2 (floor2 (pC9b.cash * w) / price) ∧
            (tx = .buy 1 t (floor2 (floor2 (pC9b.cash * w) / price)) price
                (pyRound 2 (floor2 (floor2 (pC9b.cash * w) / price) * price)) ∨
             (tx = .buy 1 t (pyRound 2 (c / price)) price
                (pyRound 2 (pyRound 2 (c / price) * price)) ∧
              c < pyRound 2 (floor2 (floor2 (pC9b.cash * w) / price) * price)))) := by
  have hpos : 0 < (((removeExcluded [("A", (1:ℚ))] []).map (fun kv => kv.2)).sum) := by
    norm_num [removeExcluded]
  have hz : pC9z.cash ≤ 0 := by norm_num [pC9z]
  have hrun : investAvailableCash pC9b [("A", 1)] [("A", 10)] 1 [] [] =
      .ok (pC9bRes, [.buy 1 "A" 10 10 100]) := by
    norm_num [investAvailableCash, investGo, normalizeWeights, removeExcluded,
      buyPosition, alistGet, alistSet, pC9b, lC9b, pC9bRes, pyRound, roundHalfEven,
      floor2, Int.floor_eq_iff, List.filter]
  exact ⟨⟨hpos, claim_C9_amended.1 [("A", 1)] [] hpos⟩,
    ⟨hz, claim_C9_amended.2.1 pC9z [("A", 1)] [("A", 10)] 1 [] [] hz⟩,
    ⟨hrun, claim_C9_amended.2.2 pC9b [("A", 1)] [("A", 10)] 1 [] [] pC9bRes
      [Txn.buy 1 "A" 10 10 100] hrun⟩⟩

theorem harvLot_isp (pr trig : ℚ) (d : ℤ) (l : LotB) :
    (harvLot pr trig d l).initialSharesPurchased = l.initialSharesPurchased := by
  simp only [harvLot, harvUpd]
  split_ifs <;> rfl

/-- Claim C4 (amended): the bounds `0 ≤ shares_remaining ≤ initial_shares`
hold after every lot-touching operation — the sell preserves them for every
lot (with `initial_shares_purchased` never changing; 4-decimal-aligned
quantities as the engine maintains), the harvesting pass preserves every lot's
`shares_remaining` and `initial_shares_purchased` verbatim, and a buy only
adds fresh lots with `shares_remaining = initial_shares_purchased`, unsold —
but the claimed equivalence `sold == true ↔ shares_remaining == 0` does not
hold: both the sell and the harvest mark fully-consumed lots sold while
keeping their positive pre-sale `shares_remaining` (see the
counterexample). -/
theorem claim_C4_amended :
    (∀ (p : PortfolioB) (ticker : String) (sharesToSell price : ℚ) (date : ℤ)
      (txns : List Txn) (h h' : HoldingB) (p' : PortfolioB) (txns' : List Txn) (b : Bool),
      alistGet ticker p.holdings = some h →
      (∀ l ∈ h.investments,
        0 ≤ l.sharesRemaining ∧ l.sharesRemaining ≤ l.initialSharesPurchased ∧
        Qdec 4 l.sharesRemaining) →
      Qdec 4 sharesToSell →
      sellPosition p ticker sharesToSell price date txns = .ok (p', txns', b) →
      alistGet ticker p'.holdings = some h' →
      ∀ (i : ℕ) (l l' : LotB), h.investments[i]? = some l →
        h'.investments[i]? = some l' →
        l'.initialSharesPurchased = l.initialSharesPurchased ∧
        0 ≤ l'.sharesRemaining ∧ l'.sharesRemaining ≤ l'.initialSharesPurchased ∧
        (l'.sold = true → l.sold = true ∨ l'.sharesRemaining = l.sharesRemaining)) ∧
    (∀ (p : PortfolioB) (priceRow : List (String × ℚ)) (d : ℤ) (txns : List Txn)
       (trig : ℚ) (p' : PortfolioB) (txns' : List Txn) (sold' : List String),
      trackAndManagePositions p priceRow d txns trig = .ok (p', txns', sold') →
      ∀ t h', (t, h') ∈ p'.holdings → ∀ l' ∈ h'.investments,
        ∃ th, th ∈ p.holdings ∧ ∃ l, l ∈ th.2.investments ∧
          l'.sharesRemaining = l.sharesRemaining ∧
          l'.initialSharesPurchased = l.initialSharesPurchased) ∧
    (∀ (p : PortfolioB) (ticker : String) (s price : ℚ) (date : ℤ) (txns : List Txn)
       (p' : PortfolioB) (txns' : List Txn),
      buyPosition p ticker s price date txns = .ok (p', txns') →
      ∀ t' h', alistGet t' p'.holdings = some h' → ∀ l' ∈ h'.investments,
        (∃ h0, alistGet t' p.holdings = some h0 ∧ l' ∈ h0.investments) ∨
        (l'.sharesRemaining = l'.initialSharesPurchased ∧ l'.sold = false)) := by
  refine ⟨?_, ?_, ?_⟩
  · intro p ticker sharesToSell price date txns h h' p' txns' b hget hlots hq4 hok hget'
    intro i l l' hil hil'
    have hinvs := sellPosition_ok_invs hget hok h' hget'
    have hmem : l ∈ h.investments := List.getElem?_mem hil
    have hbounds := hlots l hmem
    have hpt := sellFold_pointwise ticker price date (sellQueue price h.investments)
      { invs := h.investments, remaining := sharesToSell, txns := txns,
        gl := p.gainsLosses }
      (fun il hilq => (sellQueue_mem hilq).1)
      (sellQueue_fst_nodup price h.investments)
      (fun il hilq => (hlots il.2 (List.getElem?_mem (sellQueue_mem hilq).1)).2.2)
      hq4 i l hil
    rw [← hinvs] at hpt
    rcases hpt with hc | hc | ⟨s, hs0, hsl, hc⟩
    · rw [hil'] at hc
      have : l' = l := Option.some.inj hc
      subst this
      exact ⟨rfl, hbounds.1, hbounds.2.1, fun hs => Or.inl hs⟩
    · rw [hil'] at hc
      have : l' = { l with sold := true } := Option.some.inj hc
      subst this
      exact ⟨rfl, hbounds.1, hbounds.2.1, fun _ => Or.inr rfl⟩
    · rw [hil'] at hc
      have : l' = { l with sharesRemaining := l.sharesRemaining - s } :=
        Option.some.inj hc
      subst this
      refine ⟨rfl, by simp; linarith, by simp; linarith [hbounds.2.1], ?_⟩
      intro hs
      simp at hs
      exact Or.inl hs
  · intro p priceRow d txns trig p' txns' sold' hok t h' hth l' hl'
    obtain ⟨hholds, _, _, _⟩ := trackAndManagePositions_char hok
    rw [hholds] at hth
    obtain ⟨th, hthmem, heq⟩ := List.mem_map.mp hth
    refine ⟨th, hthmem, ?_⟩
    have hh' : h' = harvHolding priceRow trig d th := by
      have := congrArg Prod.snd heq
      simpa using this.symm
    rw [hh'] at hl'
    rcases hpr : alistGet th.1 priceRow with _ | pr
    · simp only [harvHolding, hpr] at hl'
      exact ⟨l', hl', rfl, rfl⟩
    · simp only [harvHolding, hpr] at hl'
      obtain ⟨l, hl, hleq⟩ := List.mem_map.mp hl'
      refine ⟨l, hl, ?_, ?_⟩
      · rw [← hleq]
        exact harvLot_rem pr trig d l
      · rw [← hleq]
        exact harvLot_isp pr trig d l
  · intro p ticker s price date txns p' txns' hok t' h' hget' l' hl'
    simp only [buyPosition] at hok
    set c := (if p.cash < pyRound 2 (s * price) then
        (pyRound 2 (p.cash / price), pyRound 2 (pyRound 2 (p.cash / price) * price))
      else (s, pyRound 2 (s * price))) with hc
    clear_value c
    clear hc
    obtain ⟨s0, a0⟩ := c
    dsimp only at hok
    by_cases hpos : 0 < s0
    · simp only [hpos, if_true] at hok
      rcases hget : alistGet ticker p.holdings with _ | h
      · rw [hget] at hok
        simp only [alistGet_alistSet_self] at hok
        exact Except.noConfusion hok
      · rw [hget] at hok
        simp only [hget] at hok
        rcases hisp : h.initialSharesPurchased with _ | isp
        · rw [hisp] at hok
          exact Except.noConfusion hok
        · rw [hisp] at hok
          simp only [] at hok
          rcases hsr : h.sharesRemaining with _ | sr
          · rw [hsr] at hok
            exact Except.noConfusion hok
          · rw [hsr] at hok
            simp only [] at hok
            injection hok with h1
            injection h1 with hp ht
            rw [← hp] at hget'
            by_cases htick : ticker = t'
            · subst htick
              simp only [alistGet_alistSet_self, Option.some.injEq] at hget'
              rw [← hget'] at hl'
              simp only [] at hl'
              rcases List.mem_append.mp hl' with hl'' | hl''
              · exact Or.inl ⟨h, hget, hl''⟩
              · simp only [List.mem_singleton] at hl''
                rw [hl'']
                exact Or.inr ⟨rfl, rfl⟩
            · rw [alistGet_alistSet_ne _ _ htick] at hget'
              exact Or.inl ⟨h', hget', hl'⟩
    · simp only [hpos, if_false] at hok
      injection hok with h1
      injection h1 with hp ht
      rw [← hp] at hget'
      exact Or.inl ⟨h', hget', hl'⟩

/-- The holding after claim C4's concrete sell. -/
def hC4r : HoldingB :=
  { initialSharesPurchased := some 10, sharesRemaining := some 0, costBasis := 100,
    investments := [lC4s] }

/-- The portfolio after claim C4's concrete sell. -/
def pC4r : PortfolioB :=
  { cash := 900, holdings := [("A", hC4r)], gainsLosses := [(-100, 0)] }

/-- The 2-share loss lot of claim C4's harvest witness. -/
def lC4h : LotB :=
  { date := 0, initialSharesPurchased := 2, sharesRemaining := 2, price := 50,
    cost := 100, currentValue := 100, returnPct := 0, daysHeld := 0, sold := false }

/-- The holding of claim C4's harvest witness. -/
def hC4h : HoldingB :=
  { initialSharesPurchased := some 2, sharesRemaining := some 2, costBasis := 50,
    investments := [lC4h] }

/-- The portfolio of claim C4's harvest witness. -/
def pC4h : PortfolioB := { cash := 0, holdings := [("A", hC4h)] }

/-- The harvested lot of claim C4's witness: marked sold at −80% with its
2 remaining shares untouched. -/
def lC4hs : LotB :=
  { date := 0, initialSharesPurchased := 2, sharesRemaining := 2, price := 50,
    cost := 100, currentValue := 20, returnPct := -80, daysHeld := 1, sold := true }

/-- The holding after claim C4's harvest witness pass. -/
def hC4hr : HoldingB :=
  { initialSharesPurchased := some 2, sharesRemaining := some 0, costBasis := 50,
    investments := [lC4hs] }

/-- The portfolio after claim C4's harvest witness pass. -/
def pC4hr : PortfolioB :=
  { cash := 20, holdings := [("A", hC4hr)], gainsLosses := [(-80, 1)] }

/-- The pre-existing lot of claim C4's buy witness. -/
def lC4b0 : LotB :=
  { date := 0, initialSharesPurchased := 1, sharesRemaining := 1, price := 10,
    cost := 10, currentValue := 10, returnPct := 0, daysHeld := 0, sold := false }

/-- The holding of claim C4's buy witness. -/
def hC4b : HoldingB :=
  { initialSharesPurchased := some 1, sharesRemaining := some 1, costBasis := 10,
    investments := [lC4b0] }

/-- The portfolio of claim C4's buy witness. -/
def pC4b : PortfolioB := { cash := 100, holdings := [("A", hC4b)] }

/-- The lot claim C4's witness buy creates: 2 shares, all remaining. -/
def lC4bn : LotB :=
  { date := 1, initialSharesPurchased := 2, sharesRemaining := 2, price := 10,
    cost := 20, currentValue := 20, returnPct := 0, daysHeld := 0, sold := false }

/-- The holding after claim C4's witness buy. -/
def hC4br : HoldingB :=
  { initialSharesPurchased := some 3, sharesRemaining := some 3, costBasis := 10,
    investments := [lC4b0, lC4bn] }

/-- The portfolio after claim C4's witness buy. -/
def pC4br : PortfolioB := { cash := 80, holdings := [("A", hC4br)] }

theorem claim_C4_amended_witness :
    (lC4s.initialSharesPurchased = lC4.initialSharesPurchased ∧
     0 ≤ lC4s.sharesRemaining ∧ lC4s.sharesRemaining ≤ lC4s.initialSharesPurchased ∧
     (lC4s.sold = true → lC4.sold = true ∨ lC4s.sharesRemaining = lC4.sharesRemaining)) ∧
    (∃ th, th ∈ pC4h.holdings ∧ ∃ l, l ∈ th.2.investments ∧
      lC4hs.sharesRemaining = l.sharesRemaining ∧
      lC4hs.initialSharesPurchased = l.initialSharesPurchased) ∧
    ((∃ h0, alistGet "A" pC4b.holdings = some h0 ∧ lC4bn ∈ h0.investments) ∨
      (lC4bn.sharesRemaining = lC4bn.initialSharesPurchased ∧ lC4bn.sold = false)) := by
  have hok : sellPosition pC4x "A" 10 90 1 [] =
      .ok (pC4r, [.sell 1 "A" 10 90 900 (-100) 0 0], true) := by
    norm_num [sellPosition, sellQueue, activeLots, sellStep, ssort, sinsert, lotIsLoss,
      pyRound, roundHalfEven, alistGet, alistSet, pC4x, hC4x, lC4, pC4r, hC4r, lC4s,
      List.enum, List.enumFrom, Int.floor_eq_iff]
  have hharv : trackAndManagePositions pC4h [("A", 10)] 1 [] (-10) =
      .ok (pC4hr, [.sell 1 "A" 2 10 20 (-80) (-80) 1], ["A"]) := by
    norm_num [trackAndManagePositions, tamGo, harvestStep, alistGet, pC4h, hC4h,
      lC4h, pC4hr, hC4hr, lC4hs, pyRound, roundHalfEven, Int.floor_eq_iff,
      List.enum, List.enumFrom]
  have hbuy : buyPosition pC4b "A" 2 10 1 [] = .ok (pC4br, [.buy 1 "A" 2 10 20]) := by
    norm_num [buyPosition, pyRound, roundHalfEven, alistGet, alistSet, pC4b, hC4b,
      lC4b0, pC4br, hC4br, lC4bn, Int.floor_eq_iff]
  refine ⟨?_, ?_, ?_⟩
  · exact claim_C4_amended.1 pC4x "A" 10 90 1 [] hC4x hC4r pC4r
      [.sell 1 "A" 10 90 900 (-100) 0 0] true
      (by simp [pC4x, alistGet])
      (by intro l hl
          simp [hC4x] at hl
          subst hl
          refine ⟨by norm_num [lC4], by norm_num [lC4], 100000, by norm_num [lC4]⟩)
      ⟨100000, by norm_num⟩
      hok
      (by simp [pC4r, alistGet])
      0 lC4 lC4s (by simp [hC4x]) (by simp [hC4r])
  · exact claim_C4_amended.2.1 pC4h [("A", 10)] 1 [] (-10) pC4hr
      [.sell 1 "A" 2 10 20 (-80) (-80) 1] ["A"] hharv "A" hC4hr
      (by simp [pC4hr]) lC4hs (by simp [hC4hr])
  · exact claim_C4_amended.2.2 pC4b "A" 2 10 1 [] pC4br [.buy 1 "A" 2 10 20] hbuy
      "A" hC4br (by simp [pC4br, alistGet]) lC4bn (by simp [hC4br])
